import Mathlib

/-!
MPC controller: problem formulation (`MPC.cpp`) and per-cycle pipeline (`main.cpp`).

A shallow embedding of the model-predictive controller.

Conventions of the embedding.

* `double` and `AD<double>` values are elements of an arbitrary field `α`
  (a linear ordered field where bounds are compared).  The library functions
  `cos`, `sin` and `atan` are arguments of the definitions that call them, so
  every definition can be evaluated over `ℚ`; theorems that need facts about
  them are stated over `ℝ` with `Real.cos`, `Real.sin`, `Real.arctan`.
  Rounding is not modelled.
* `size_t` values are natural numbers.  A subtraction is `size_sub`, which wraps
  modulo `2 ^ 64` as the machine subtraction does; sums of at most eight horizons
  are taken not to wrap.
* The globals `N` and `dt` are arguments; `ref_v`, `Lf` and the weights are the
  constants of the source.
* A `CppAD::vector` or `Eigen::VectorXd` is a `List`; an element that was not
  assigned yet holds an arbitrary value, which is an argument named `junk`.
  `fg`, the vector the solver hands to `FG_eval`, is a function of the index, and the
  matrix `A` of `polyfit` a function of the row and the column.
* The libraries are arguments: `ipopt` stands for `CppAD::ipopt::solve`, `qr` for the
  QR solve of Eigen and `pi` for `M_PI`.  What the solver makes of the problem is stated
  by `satisfiesBounds`, `satisfiesConstraints`, `feasible` and `isOptimal`; what the QR
  solve delivers in exact arithmetic by `isLeastSquares`.
* A failed `assert` ends the program; `polyfit` returns `none` for it.
* Which entries the program touches is embedded next to what it computes: `FG_evalT` is
  `FG_eval` with a record of the entries of `fg` it assigns, and `FG_eval_reads`,
  `Solve_varIndices` and `Solve_constraintIndices` list, loop by loop, the indices used on
  `vars` and on the vectors of `MPC::Solve`.
-/

namespace MPC

/-! ## Machine arithmetic and loops -/

/-- The number of values of a `size_t`. -/
def SIZE_MOD : Nat := 2 ^ 64

/-- Subtraction of two `size_t` values: wraps around when the result would be negative. -/
def size_sub (a b : Nat) : Nat :=
  if b ≤ a then a - b else (a + SIZE_MOD - b) % SIZE_MOD

/-- The loop `for (i = lo; i < hi; i++) s = body(i, s)`. -/
def forLoop {σ : Type} (lo hi : Nat) (body : Nat → σ → σ) (s : σ) : σ :=
  (List.range' lo (hi - lo)).foldl (fun s i => body i s) s

/-! ## Variable layout (`MPC.cpp`, lines 68-75) -/

def x_start : Nat := 0
def y_start (N : Nat) : Nat := x_start + N
def psi_start (N : Nat) : Nat := y_start N + N
def v_start (N : Nat) : Nat := psi_start N + N
def cte_start (N : Nat) : Nat := v_start N + N
def epsi_start (N : Nat) : Nat := cte_start N + N
def delta_start (N : Nat) : Nat := epsi_start N + N
def a_start (N : Nat) : Nat := size_sub (delta_start N + N) 1

/-- The number of state components: `n_state` of `MPC::Solve`. -/
def n_state : Nat := 6

/-- The number of actuators: `n_actuator` of `MPC::Solve`. -/
def n_actuator : Nat := 2

/-- The number of model variables: `n_vars` of `MPC::Solve`. -/
def n_vars (N : Nat) : Nat := n_state * N + n_actuator * size_sub N 1

/-- The number of constraints: `n_constraints` of `MPC::Solve`. -/
def n_constraints (N : Nat) : Nat := n_state * N

/-- The start offsets of the eight blocks, in the order of their declaration. -/
def blockStarts (N : Nat) : List Nat :=
  [x_start, y_start N, psi_start N, v_start N, cte_start N, epsi_start N,
   delta_start N, a_start N]

/-- The block lengths: a state block has one entry per step, the loops over an
actuator block run `N - 1` times. -/
def blockLengths (N : Nat) : List Nat :=
  [N, N, N, N, N, N, size_sub N 1, size_sub N 1]

/-- Index `i` lies in block `b` (0 = x, ..., 5 = epsi, 6 = delta, 7 = a). -/
def inBlock (N b i : Nat) : Prop :=
  (blockStarts N).getD b 0 ≤ i ∧ i < (blockStarts N).getD b 0 + (blockLengths N).getD b 0

instance (N b i : Nat) : Decidable (inBlock N b i) := by
  unfold inBlock; infer_instance

/-! ## Cost and constraints (`MPC.cpp`, class `FG_eval`) -/

/-- The functions of the C math library that the program calls. -/
structure Libm (α : Type) where
  cos : α → α
  sin : α → α
  atan : α → α

section Numeric

variable {α : Type} [Field α]

/-- The reference velocity, global `ref_v`. -/
def ref_v : α := 70

/-- The distance from the front of the vehicle to its centre of gravity, `Lf`. -/
def Lf : α := 2.67

def weight_cte : α := 2000.0
def weight_epsi : α := 2000.0
def weight_v : α := 1.0
def weight_delta : α := 10.0
def weight_a : α := 10.0
def weight_delta_diff : α := 100.0
def weight_a_diff : α := 100.0

/-- The assignment `fg[i] = v`. -/
def assign (fg : Nat → α) (i : Nat) (v : α) : Nat → α :=
  fun k => if k = i then v else fg k

/-- The body of the first cost loop (lines 114-116). -/
def costRefBody (N : Nat) (vars : Nat → α) (t : Nat) (fg : Nat → α) : Nat → α :=
  let fg := assign fg 0 (fg 0 + weight_cte * vars (cte_start N + t) ^ 2)
  let fg := assign fg 0 (fg 0 + weight_epsi * vars (epsi_start N + t) ^ 2)
  assign fg 0 (fg 0 + weight_v * (vars (v_start N + t) - ref_v) ^ 2)

/-- The body of the second cost loop (lines 121-122). -/
def costActBody (N : Nat) (vars : Nat → α) (t : Nat) (fg : Nat → α) : Nat → α :=
  let fg := assign fg 0 (fg 0 + weight_delta * vars (delta_start N + t) ^ 2)
  assign fg 0 (fg 0 + weight_a * vars (a_start N + t) ^ 2)

/-- The body of the third cost loop (lines 127-128). -/
def costGapBody (N : Nat) (vars : Nat → α) (t : Nat) (fg : Nat → α) : Nat → α :=
  let fg := assign fg 0 (fg 0 +
    weight_delta_diff * (vars (delta_start N + t + 1) - vars (delta_start N + t)) ^ 2)
  assign fg 0 (fg 0 +
    weight_a_diff * (vars (a_start N + t + 1) - vars (a_start N + t)) ^ 2)

/-- The body of the constraint loop (lines 151-198).  The local `cte0`, which the source
reads and never uses, is left out. -/
def dynBody (m : Libm α) (coeffs : List α) (N : Nat) (dt : α) (vars : Nat → α)
    (t : Nat) (fg : Nat → α) : Nat → α :=
  let x1 := vars (x_start + t)
  let y1 := vars (y_start N + t)
  let psi1 := vars (psi_start N + t)
  let v1 := vars (v_start N + t)
  let cte1 := vars (cte_start N + t)
  let epsi1 := vars (epsi_start N + t)
  let x0 := vars (x_start + t - 1)
  let y0 := vars (y_start N + t - 1)
  let psi0 := vars (psi_start N + t - 1)
  let v0 := vars (v_start N + t - 1)
  let epsi0 := vars (epsi_start N + t - 1)
  let delta0 := vars (delta_start N + t - 1)
  let a0 := vars (a_start N + t - 1)
  let f0 := coeffs.getD 0 0 + coeffs.getD 1 0 * x0 + coeffs.getD 2 0 * x0 ^ 2
    + coeffs.getD 3 0 * x0 ^ 3
  let psides0 := m.atan (coeffs.getD 1 0 + 2 * coeffs.getD 2 0 * x0
    + 3 * coeffs.getD 3 0 * x0 ^ 2)
  let fg := assign fg (1 + x_start + t) (x1 - (x0 + v0 * m.cos psi0 * dt))
  let fg := assign fg (1 + y_start N + t) (y1 - (y0 + v0 * m.sin psi0 * dt))
  let fg := assign fg (1 + psi_start N + t) (psi1 - (psi0 + v0 * (-delta0) / Lf * dt))
  let fg := assign fg (1 + v_start N + t) (v1 - (v0 + a0 * dt))
  let fg := assign fg (1 + cte_start N + t) (cte1 - ((f0 - y0) + (v0 * m.sin epsi0 * dt)))
  assign fg (1 + epsi_start N + t) (epsi1 - ((psi0 - psides0) + v0 * (-delta0) / Lf * dt))

/-- The call `fg_eval(fg, vars)`: the vector `fg` after `FG_eval::operator()` ran on it. -/
def FG_eval (m : Libm α) (coeffs : List α) (N : Nat) (dt : α) (vars : Nat → α)
    (fg : Nat → α) : Nat → α :=
  let fg := assign fg 0 0
  let fg := forLoop 0 N (costRefBody N vars) fg
  let fg := forLoop 0 (size_sub N 1) (costActBody N vars) fg
  let fg := forLoop 0 (size_sub N 2) (costGapBody N vars) fg
  let fg := assign fg (1 + x_start) (vars x_start)
  let fg := assign fg (1 + y_start N) (vars (y_start N))
  let fg := assign fg (1 + psi_start N) (vars (psi_start N))
  let fg := assign fg (1 + v_start N) (vars (v_start N))
  let fg := assign fg (1 + cte_start N) (vars (cte_start N))
  let fg := assign fg (1 + epsi_start N) (vars (epsi_start N))
  forLoop 1 N (dynBody m coeffs N dt vars) fg

/-! ## The solver call (`MPC.cpp`, `MPC::Solve`) -/

/-- A vector of `n` entries that were not assigned yet: entry `i` holds `junk i`. -/
def newVector (n : Nat) (junk : Nat → α) : List α :=
  (List.range n).map junk

/-- The five vectors `MPC::Solve` hands to the solver next to `fg_eval`. -/
structure Problem (α : Type) where
  vars : List α
  vars_lowerbound : List α
  vars_upperbound : List α
  constraints_lowerbound : List α
  constraints_upperbound : List α

/-- The body of a loop that assigns `lo` to `vars_lowerbound[i]` and `hi` to
`vars_upperbound[i]` (lines 256-257, 264-265, 271-272, 280-281). -/
def boundsBody (lo hi : α) (i : Nat) (b : List α × List α) : List α × List α :=
  (b.1.set i lo, b.2.set i hi)

/-- Lines 215-295 of `MPC::Solve`: the initial guess and the bounds. -/
def Solve_problem (N : Nat) (state : List α) (junk : Nat → α) : Problem α :=
  let x := state.getD 0 0
  let y := state.getD 1 0
  let psi := state.getD 2 0
  let v := state.getD 3 0
  let cte := state.getD 4 0
  let epsi := state.getD 5 0
  let n_vars := MPC.n_vars N
  let n_constraints := MPC.n_constraints N
  let vars := newVector n_vars junk
  let vars := forLoop 0 n_vars (fun i vars => vars.set i 0) vars
  let vars := vars.set x_start x
  let vars := vars.set (y_start N) y
  let vars := vars.set (psi_start N) psi
  let vars := vars.set (v_start N) v
  let vars := vars.set (cte_start N) cte
  let vars := vars.set (epsi_start N) epsi
  let vb := (newVector n_vars junk, newVector n_vars junk)
  let vb := forLoop 0 (delta_start N) (boundsBody (-1.0e19) 1.0e19) vb
  let vb := forLoop (delta_start N) (a_start N) (boundsBody (-0.436332) 0.436332) vb
  let vb := forLoop (a_start N) n_vars (boundsBody (-1.0) 1.0) vb
  let cb := (newVector n_constraints junk, newVector n_constraints junk)
  let cb := forLoop 0 n_constraints (boundsBody 0 0) cb
  let constraints_lowerbound := cb.1
  let constraints_upperbound := cb.2
  let constraints_lowerbound := constraints_lowerbound.set x_start x
  let constraints_lowerbound := constraints_lowerbound.set (y_start N) y
  let constraints_lowerbound := constraints_lowerbound.set (psi_start N) psi
  let constraints_lowerbound := constraints_lowerbound.set (v_start N) v
  let constraints_lowerbound := constraints_lowerbound.set (cte_start N) cte
  let constraints_lowerbound := constraints_lowerbound.set (epsi_start N) epsi
  let constraints_upperbound := constraints_upperbound.set x_start x
  let constraints_upperbound := constraints_upperbound.set (y_start N) y
  let constraints_upperbound := constraints_upperbound.set (psi_start N) psi
  let constraints_upperbound := constraints_upperbound.set (v_start N) v
  let constraints_upperbound := constraints_upperbound.set (cte_start N) cte
  let constraints_upperbound := constraints_upperbound.set (epsi_start N) epsi
  { vars := vars
    vars_lowerbound := vb.1
    vars_upperbound := vb.2
    constraints_lowerbound := constraints_lowerbound
    constraints_upperbound := constraints_upperbound }

/-- Lines 345-357 of `MPC::Solve`: the vector returned to `main`, built from `solution.x`. -/
def Solve_result (N : Nat) (solution_x : List α) : List α :=
  let result : List α := []
  let result := result ++ [solution_x.getD (delta_start N) 0]
  let result := result ++ [solution_x.getD (a_start N) 0]
  forLoop 0 N (fun i result =>
    let result := result ++ [solution_x.getD (x_start + i) 0]
    result ++ [solution_x.getD (y_start N + i) 0]) result

/-- What `CppAD::ipopt::solve` reports back: whether the status is `success`, and the
final variable vector. -/
structure solve_result (α : Type) where
  status_is_success : Bool
  x : List α

/-- The whole of `MPC::Solve`; the external solver `ipopt` is an argument. -/
def Solve (ipopt : Problem α → ((Nat → α) → (Nat → α) → (Nat → α)) → solve_result α)
    (m : Libm α) (N : Nat) (dt : α) (state coeffs : List α) (junk : Nat → α) : List α :=
  let ok := true
  let problem := Solve_problem N state junk
  let fg_eval := fun fg vars => FG_eval m coeffs N dt vars fg
  let solution := ipopt problem fg_eval
  let _ok := ok && solution.status_is_success
  Solve_result N solution.x

/-- The constraints as the solver reads them: constraint `k` is the entry `fg[1 + k]`
that `fg_eval` computes, and it has to lie between `constraints_lowerbound[k]` and
`constraints_upperbound[k]`. -/
def satisfiesConstraints [LE α] (p : Problem α) (fg : Nat → α) : Prop :=
  ∀ k, k < p.constraints_lowerbound.length →
    p.constraints_lowerbound.getD k 0 ≤ fg (1 + k) ∧
      fg (1 + k) ≤ p.constraints_upperbound.getD k 0

instance [LE α] [DecidableRel (α := α) (· ≤ ·)] (p : Problem α) (fg : Nat → α) :
    Decidable (satisfiesConstraints p fg) := by
  unfold satisfiesConstraints; infer_instance

/-! ## Decoding the result (`main.cpp`, lines 190-210) -/

/-- The loop `for (i = 2; i < vars.size(); i += 2)` of `main`, entered with counter `i`. -/
def decodeLoop (vars : List α) (i : Nat) (mpc_x_vals mpc_y_vals : List α) :
    List α × List α :=
  if i < vars.length then
    decodeLoop vars (i + 2) (mpc_x_vals ++ [vars.getD i 0]) (mpc_y_vals ++ [vars.getD (i + 1) 0])
  else (mpc_x_vals, mpc_y_vals)
termination_by vars.length - i

/-- What `main` reads from the vector `MPC::Solve` returned. -/
structure Decoded (α : Type) where
  steer_value : α
  throttle_value : α
  mpc_x_vals : List α
  mpc_y_vals : List α

/-- Lines 190-210 of `main`. -/
def decode (vars : List α) : Decoded α :=
  let steer_value := vars.getD 0 0
  let throttle_value := vars.getD 1 0
  let traj := decodeLoop vars 2 [] []
  { steer_value := steer_value
    throttle_value := throttle_value
    mpc_x_vals := traj.1
    mpc_y_vals := traj.2 }

/-! ## The telemetry handler (`main.cpp`) -/

/-- Evaluate a polynomial: `polyeval` of `main.cpp`. -/
def polyeval (coeffs : List α) (x : α) : α :=
  let result : α := 0.0
  forLoop 0 coeffs.length (fun i result => result + coeffs.getD i 0 * x ^ i) result

/-- Lines 134-137: one waypoint `(wx, wy)` in the coordinates of the vehicle. -/
def toCar (m : Libm α) (px py psi : α) (wx wy : α) : α × α :=
  let x := wx - px
  let y := wy - py
  (x * m.cos psi + y * m.sin psi, (-x) * m.sin psi + y * m.cos psi)

/-- The body of the loop of lines 133-138, on the pair `(ptsx_car, ptsy_car)`. -/
def transformBody (m : Libm α) (ptsx ptsy : List α) (px py psi : α) (i : Nat)
    (car : List α × List α) : List α × List α :=
  (car.1.set i (toCar m px py psi (ptsx.getD i 0) (ptsy.getD i 0)).1,
   car.2.set i (toCar m px py psi (ptsx.getD i 0) (ptsy.getD i 0)).2)

/-- Lines 127-138: the way points in the coordinates of the vehicle,
`(ptsx_car, ptsy_car)`. -/
def transform (m : Libm α) (ptsx ptsy : List α) (px py psi : α) (junk : Nat → α) :
    List α × List α :=
  let ptsx_car := newVector ptsx.length junk
  let ptsy_car := newVector ptsy.length junk
  forLoop 0 ptsx.length (transformBody m ptsx ptsy px py psi) (ptsx_car, ptsy_car)

/-- Lines 144-154: the state in the coordinates of the vehicle, before the projection:
`[state_x, state_y, state_psi, state_v, state_cte, state_epsi]`. -/
def measuredState (m : Libm α) (coeffs : List α) (v : α) : List α :=
  let state_x : α := 0.0
  let state_y : α := 0.0
  let state_psi : α := 0.0
  let state_v := v
  let state_cte := polyeval coeffs state_x - state_y
  let state_epsi := state_psi - m.atan (coeffs.getD 1 0)
  [state_x, state_y, state_psi, state_v, state_cte, state_epsi]

/-- The latency of `main`, `time_latency`: 100 ms. -/
def time_latency : α := 0.1

/-- Lines 168-184: the state projected over the latency.  The state before the projection
and the latency are arguments; `main` passes `measuredState` and `time_latency`. -/
def project (m : Libm α) (state_x state_y state_psi state_v state_cte state_epsi : α)
    (delta a time_latency : α) : List α :=
  let Lf : α := 2.67
  let proj_x := state_x + state_v * m.cos state_psi * time_latency
  let proj_y := state_y + state_v * m.sin state_psi * time_latency
  let proj_psi := state_psi + state_v / Lf * (-delta) * time_latency
  let proj_v := state_v + a * time_latency
  let proj_cte := state_cte + state_v * m.sin state_epsi * time_latency
  let proj_epsi := state_epsi + state_v / Lf * (-delta) * time_latency
  [proj_x, proj_y, proj_psi, proj_v, proj_cte, proj_epsi]

/-- Lines 144-184: the state `main` hands to `MPC::Solve`, from the fitted coefficients,
the measured speed `v` and the previous actuation `delta`, `a`. -/
def projectedState (m : Libm α) (coeffs : List α) (v delta a : α) : List α :=
  let state := measuredState m coeffs v
  project m (state.getD 0 0) (state.getD 1 0) (state.getD 2 0) (state.getD 3 0)
    (state.getD 4 0) (state.getD 5 0) delta a time_latency

/-- The inverse of the transform as the specification words it: rotate the point by
`+psi`, then translate it by `(+px, +py)`. -/
def inverseTransformSpec (m : Libm α) (px py psi : α) (q : α × α) : α × α :=
  (q.1 * m.cos psi - q.2 * m.sin psi + px, q.1 * m.sin psi + q.2 * m.cos psi + py)

/-! ## Fitting the polynomial (`main.cpp`, `polyfit`) -/

/-- The assignment `A(r, c) = v`. -/
def assign2 (A : Nat → Nat → α) (r c : Nat) (v : α) : Nat → Nat → α :=
  fun j i => if j = r ∧ i = c then v else A j i

/-- Lines 62-72 of `polyfit`: the matrix `A` after the two loops.  `A` is a function of the
row and the column; `junk` is what `A` holds when it is created. -/
def designMatrix (xvals : List α) (order : Nat) (junk : Nat → Nat → α) : Nat → Nat → α :=
  let A := junk
  let A := forLoop 0 xvals.length (fun i A => assign2 A i 0 1.0) A
  forLoop 0 xvals.length (fun j A =>
    forLoop 0 order (fun i A => assign2 A j (i + 1) (A j i * xvals.getD j 0)) A) A

/-- Fit a polynomial: `polyfit` of `main.cpp`.  A failed `assert` ends the program, which
is the result `none`.  `A.householderQr().solve(yvals)` belongs to the Eigen library; its
value is a vector with one entry per column of `A`, and `qr rows cols A yvals i` stands
for entry `i` of it. -/
def polyfit (qr : Nat → Nat → (Nat → Nat → α) → List α → Nat → α)
    (xvals yvals : List α) (order : Int) (junk : Nat → Nat → α) : Option (List α) :=
  if ¬ ((xvals.length : Int) = (yvals.length : Int)) then none
  else if ¬ (order ≥ 1 ∧ order ≤ (xvals.length : Int) - 1) then none
  else
    let A := designMatrix xvals order.toNat junk
    let result := (List.range (order.toNat + 1)).map (qr xvals.length (order.toNat + 1) A yvals)
    some result

/-- The sum of the squared residuals of the coefficients `c` for the system `A c = y`. -/
def residual (rows cols : Nat) (A : Nat → Nat → α) (y c : List α) : α :=
  ∑ j in Finset.range rows, ((∑ i in Finset.range cols, A j i * c.getD i 0) - y.getD j 0) ^ 2

/-- What the QR solve of Eigen delivers in exact arithmetic for a matrix of full column
rank: coefficients `c` whose squared residual is not above that of any other `c'`. -/
def isLeastSquares [LE α] (rows cols : Nat) (A : Nat → Nat → α) (y c : List α) : Prop :=
  ∀ c' : List α, residual rows cols A y c ≤ residual rows cols A y c'

/-! ## The steering command (`main.cpp`, lines 27-28 and 197) -/

/-- Degrees to radians: `deg2rad` of `main.cpp`.  The value of `pi()`, the macro `M_PI` of
`<math.h>`, is the argument `pi`. -/
def deg2rad (pi : α) (x : α) : α := x * pi / 180

/-- Line 197: the value sent as `steering_angle`. -/
def steering_angle (pi : α) (steer_value : α) : α := steer_value / (deg2rad pi 25 * 1.0)

/-! ## The optimisation problem as the solver reads it -/

/-- The variable bounds as the solver reads them: `vars[i]` has to lie between
`vars_lowerbound[i]` and `vars_upperbound[i]`, where Ipopt takes a lower bound of `-1e19` or
below and an upper bound of `1e19` or above for no bound at all (its options
`nlp_lower_bound_inf` and `nlp_upper_bound_inf`). -/
def satisfiesBounds [LE α] (p : Problem α) (vars : Nat → α) : Prop :=
  ∀ i, i < p.vars_lowerbound.length →
    (p.vars_lowerbound.getD i 0 ≤ -1.0e19 ∨ p.vars_lowerbound.getD i 0 ≤ vars i) ∧
    (1.0e19 ≤ p.vars_upperbound.getD i 0 ∨ vars i ≤ p.vars_upperbound.getD i 0)

instance [LE α] [DecidableRel (α := α) (· ≤ ·)] (p : Problem α) (vars : Nat → α) :
    Decidable (satisfiesBounds p vars) := by
  unfold satisfiesBounds; infer_instance

/-- A variable vector the solver may return: within the variable bounds and the
constraint bounds. -/
def feasible [LE α] (p : Problem α) (fg_eval : (Nat → α) → (Nat → α) → (Nat → α))
    (fg vars : Nat → α) : Prop :=
  satisfiesBounds p vars ∧ satisfiesConstraints p (fg_eval fg vars)

/-- A feasible variable vector of minimum cost; the cost is `fg[0]`. -/
def isOptimal [LE α] (p : Problem α) (fg_eval : (Nat → α) → (Nat → α) → (Nat → α))
    (fg vars : Nat → α) : Prop :=
  feasible p fg_eval fg vars ∧
    ∀ w, feasible p fg_eval fg w → fg_eval fg vars 0 ≤ fg_eval fg w 0

/-- The steady trajectory at the reference speed: `x_t = 70 dt t`, `v_t = 70` and every
other variable 0. -/
def steadyVars (N : Nat) (dt : α) : Nat → α :=
  fun i => if i < y_start N then 70 * dt * ((i - x_start : Nat) : α)
    else if v_start N ≤ i ∧ i < cte_start N then 70 else 0

/-! ## `FG_eval` with a record of the assigned entries -/

/-- The assignment `fg[i] = v`, which also records `i` as assigned. -/
def assignT (s : (Nat → α) × List Nat) (i : Nat) (v : α) : (Nat → α) × List Nat :=
  (assign s.1 i v, s.2 ++ [i])

/-- The body of the first cost loop, recording. -/
def costRefBodyT (N : Nat) (vars : Nat → α) (t : Nat) (s : (Nat → α) × List Nat) :
    (Nat → α) × List Nat :=
  let s := assignT s 0 (s.1 0 + weight_cte * vars (cte_start N + t) ^ 2)
  let s := assignT s 0 (s.1 0 + weight_epsi * vars (epsi_start N + t) ^ 2)
  assignT s 0 (s.1 0 + weight_v * (vars (v_start N + t) - ref_v) ^ 2)

/-- The body of the second cost loop, recording. -/
def costActBodyT (N : Nat) (vars : Nat → α) (t : Nat) (s : (Nat → α) × List Nat) :
    (Nat → α) × List Nat :=
  let s := assignT s 0 (s.1 0 + weight_delta * vars (delta_start N + t) ^ 2)
  assignT s 0 (s.1 0 + weight_a * vars (a_start N + t) ^ 2)

/-- The body of the third cost loop, recording. -/
def costGapBodyT (N : Nat) (vars : Nat → α) (t : Nat) (s : (Nat → α) × List Nat) :
    (Nat → α) × List Nat :=
  let s := assignT s 0 (s.1 0 +
    weight_delta_diff * (vars (delta_start N + t + 1) - vars (delta_start N + t)) ^ 2)
  assignT s 0 (s.1 0 +
    weight_a_diff * (vars (a_start N + t + 1) - vars (a_start N + t)) ^ 2)

/-- The body of the constraint loop, recording. -/
def dynBodyT (m : Libm α) (coeffs : List α) (N : Nat) (dt : α) (vars : Nat → α)
    (t : Nat) (s : (Nat → α) × List Nat) : (Nat → α) × List Nat :=
  let x1 := vars (x_start + t)
  let y1 := vars (y_start N + t)
  let psi1 := vars (psi_start N + t)
  let v1 := vars (v_start N + t)
  let cte1 := vars (cte_start N + t)
  let epsi1 := vars (epsi_start N + t)
  let x0 := vars (x_start + t - 1)
  let y0 := vars (y_start N + t - 1)
  let psi0 := vars (psi_start N + t - 1)
  let v0 := vars (v_start N + t - 1)
  let epsi0 := vars (epsi_start N + t - 1)
  let delta0 := vars (delta_start N + t - 1)
  let a0 := vars (a_start N + t - 1)
  let f0 := coeffs.getD 0 0 + coeffs.getD 1 0 * x0 + coeffs.getD 2 0 * x0 ^ 2
    + coeffs.getD 3 0 * x0 ^ 3
  let psides0 := m.atan (coeffs.getD 1 0 + 2 * coeffs.getD 2 0 * x0
    + 3 * coeffs.getD 3 0 * x0 ^ 2)
  let s := assignT s (1 + x_start + t) (x1 - (x0 + v0 * m.cos psi0 * dt))
  let s := assignT s (1 + y_start N + t) (y1 - (y0 + v0 * m.sin psi0 * dt))
  let s := assignT s (1 + psi_start N + t) (psi1 - (psi0 + v0 * (-delta0) / Lf * dt))
  let s := assignT s (1 + v_start N + t) (v1 - (v0 + a0 * dt))
  let s := assignT s (1 + cte_start N + t) (cte1 - ((f0 - y0) + (v0 * m.sin epsi0 * dt)))
  assignT s (1 + epsi_start N + t) (epsi1 - ((psi0 - psides0) + v0 * (-delta0) / Lf * dt))

/-- The part of `FG_eval` that computes the cost (lines 94-129), recording. -/
def FG_eval_costT (N : Nat) (vars : Nat → α) (s : (Nat → α) × List Nat) :
    (Nat → α) × List Nat :=
  let s := assignT s 0 0
  let s := forLoop 0 N (costRefBodyT N vars) s
  let s := forLoop 0 (size_sub N 1) (costActBodyT N vars) s
  forLoop 0 (size_sub N 2) (costGapBodyT N vars) s

/-- The part of `FG_eval` that sets up the constraints (lines 141-199), recording. -/
def FG_eval_constraintsT (m : Libm α) (coeffs : List α) (N : Nat) (dt : α) (vars : Nat → α)
    (s : (Nat → α) × List Nat) : (Nat → α) × List Nat :=
  let s := assignT s (1 + x_start) (vars x_start)
  let s := assignT s (1 + y_start N) (vars (y_start N))
  let s := assignT s (1 + psi_start N) (vars (psi_start N))
  let s := assignT s (1 + v_start N) (vars (v_start N))
  let s := assignT s (1 + cte_start N) (vars (cte_start N))
  let s := assignT s (1 + epsi_start N) (vars (epsi_start N))
  forLoop 1 N (dynBodyT m coeffs N dt vars) s

/-- The call `fg_eval(fg, vars)` with a record of the entries of `fg` it assigns, in the
order of the assignments; the record starts empty. -/
def FG_evalT (m : Libm α) (coeffs : List α) (N : Nat) (dt : α) (vars : Nat → α)
    (fg : Nat → α) : (Nat → α) × List Nat :=
  FG_eval_constraintsT m coeffs N dt vars (FG_eval_costT N vars (fg, []))

/-! ## The indices the program uses -/

/-- The entries of `vars` read in iteration `t` of the first cost loop (lines 114-116). -/
def costRefReads (N t : Nat) : List Nat :=
  [cte_start N + t, epsi_start N + t, v_start N + t]

/-- The entries of `vars` read in iteration `t` of the second cost loop (lines 121-122). -/
def costActReads (N t : Nat) : List Nat :=
  [delta_start N + t, a_start N + t]

/-- The entries of `vars` read in iteration `t` of the third cost loop (lines 127-128). -/
def costGapReads (N t : Nat) : List Nat :=
  [delta_start N + t + 1, delta_start N + t, a_start N + t + 1, a_start N + t]

/-- The first entry of each state block: read in lines 141-146 of `FG_eval`, assigned in
lines 242-247, 283-288 and 290-295 of `MPC::Solve`. -/
def pinIndices (N : Nat) : List Nat :=
  [x_start, y_start N, psi_start N, v_start N, cte_start N, epsi_start N]

/-- The entries of `vars` read in iteration `t` of the constraint loop (lines 151-168). -/
def dynReads (N t : Nat) : List Nat :=
  [x_start + t, y_start N + t, psi_start N + t, v_start N + t, cte_start N + t,
    epsi_start N + t,
    x_start + t - 1, y_start N + t - 1, psi_start N + t - 1, v_start N + t - 1,
    cte_start N + t - 1, epsi_start N + t - 1,
    delta_start N + t - 1, a_start N + t - 1]

/-- The entries of `vars` that `FG_eval` reads, in the order of the program. -/
def FG_eval_reads (N : Nat) : List Nat :=
  let r : List Nat := []
  let r := forLoop 0 N (fun t r => r ++ costRefReads N t) r
  let r := forLoop 0 (size_sub N 1) (fun t r => r ++ costActReads N t) r
  let r := forLoop 0 (size_sub N 2) (fun t r => r ++ costGapReads N t) r
  let r := r ++ pinIndices N
  forLoop 1 N (fun t r => r ++ dynReads N t) r

/-- The indices `MPC::Solve` uses on the vectors of `n_vars` entries: `vars` (lines
238-247), `vars_lowerbound` and `vars_upperbound` (lines 255-273) and `solution.x`
(lines 348-355). -/
def Solve_varIndices (N : Nat) : List Nat :=
  let n_vars := MPC.n_vars N
  let r : List Nat := []
  let r := forLoop 0 n_vars (fun i r => r ++ [i]) r
  let r := r ++ pinIndices N
  let r := forLoop 0 (delta_start N) (fun i r => r ++ [i]) r
  let r := forLoop (delta_start N) (a_start N) (fun i r => r ++ [i]) r
  let r := forLoop (a_start N) n_vars (fun i r => r ++ [i]) r
  let r := r ++ [delta_start N, a_start N]
  forLoop 0 N (fun i r => r ++ [x_start + i, y_start N + i]) r

/-- The indices `MPC::Solve` uses on the constraint-bound vectors (lines 279-295). -/
def Solve_constraintIndices (N : Nat) : List Nat :=
  let n_constraints := MPC.n_constraints N
  let r : List Nat := []
  let r := forLoop 0 n_constraints (fun i r => r ++ [i]) r
  let r := r ++ pinIndices N
  r ++ pinIndices N

end Numeric

/-! ## Sample data for evaluating the definitions -/

/-- Stand-ins for the math library over the rationals. -/
def exLibm : Libm ℚ := ⟨fun z => z, fun z => 2 * z, fun z => 3 * z⟩

/-- A variable vector: entry `i` holds `i + 1`. -/
def exVars : Nat → ℚ := fun i => (i : ℚ) + 1

/-- An `fg` as the solver may hand it over: every entry holds 99. -/
def exFg : Nat → ℚ := fun _ => 99

/-- A stand-in for the QR solve: every entry of the solution is 0. -/
def exQr : Nat → Nat → (Nat → Nat → ℚ) → List ℚ → Nat → ℚ := fun _ _ _ _ _ => 0

/-- A variable vector for horizon 2 whose step 0 holds the state `main` builds from the
coefficients `1, 2, 3, 4` and the speed 5 with `exLibm`: `(0, 0, 0, 5, 1, -6)`. -/
def exStep0 : Nat → ℚ := fun i => if i = 6 then 5 else if i = 8 then 1 else if i = 10 then -6 else 0

/-! ## Helper lemmas -/

theorem size_sub_of_le {a b : Nat} (h : b ≤ a) : size_sub a b = a - b := by
  simp [size_sub, h]

theorem y_start_eq (N : Nat) : y_start N = N := by simp [y_start, x_start]

theorem psi_start_eq (N : Nat) : psi_start N = 2 * N := by
  rw [psi_start, y_start_eq]; omega

theorem v_start_eq (N : Nat) : v_start N = 3 * N := by
  rw [v_start, psi_start_eq]; omega

theorem cte_start_eq (N : Nat) : cte_start N = 4 * N := by
  rw [cte_start, v_start_eq]; omega

theorem epsi_start_eq (N : Nat) : epsi_start N = 5 * N := by
  rw [epsi_start, cte_start_eq]; omega

theorem delta_start_eq (N : Nat) : delta_start N = 6 * N := by
  rw [delta_start, epsi_start_eq]; omega

theorem a_start_eq {N : Nat} (h : 1 ≤ N) : a_start N = 7 * N - 1 := by
  rw [a_start, delta_start_eq, size_sub_of_le (by omega)]; omega

theorem n_vars_eq {N : Nat} (h : 1 ≤ N) : n_vars N = 8 * N - 2 := by
  rw [n_vars, n_state, n_actuator, size_sub_of_le h]; omega

theorem foldl_keep {α : Type} (body : Nat → (Nat → α) → (Nat → α)) (k : Nat) (l : List Nat)
    (fg : Nat → α) (h : ∀ t, t ∈ l → ∀ g, body t g k = g k) :
    l.foldl (fun s i => body i s) fg k = fg k := by
  induction l generalizing fg with
  | nil => rfl
  | cons t l ih =>
    rw [List.foldl_cons, ih _ (fun u hu g => h u (List.mem_cons_of_mem _ hu) g)]
    exact h t (List.mem_cons_self _ _) fg

/-- A loop leaves an entry alone that none of its iterations assigns. -/
theorem forLoop_keep {α : Type} (body : Nat → (Nat → α) → (Nat → α)) (k lo hi : Nat)
    (fg : Nat → α) (h : ∀ t, lo ≤ t → t < hi → ∀ g, body t g k = g k) :
    forLoop lo hi body fg k = fg k := by
  unfold forLoop
  apply foldl_keep
  intro t ht g
  rw [List.mem_range'_1] at ht
  exact h t ht.1 (by omega) g

/-- An entry that iteration `t0` assigns and no later iteration touches holds the
value of iteration `t0` after the loop. -/
theorem forLoop_hit {α : Type} (body : Nat → (Nat → α) → (Nat → α)) (k lo hi t0 : Nat)
    (fg : Nat → α) (v : α) (h0 : lo ≤ t0) (h1 : t0 < hi) (hv : ∀ g, body t0 g k = v)
    (hlater : ∀ t, t0 < t → t < hi → ∀ g, body t g k = g k) :
    forLoop lo hi body fg k = v := by
  unfold forLoop
  have e : List.range' lo (hi - lo) =
      List.range' lo (t0 - lo) ++ t0 :: List.range' (t0 + 1) (hi - t0 - 1) := by
    have e1 : hi - lo = ((hi - t0 - 1) + 1) + (t0 - lo) := by omega
    rw [e1, ← List.range'_append_1, List.range'_succ]
    have e2 : lo + (t0 - lo) = t0 := by omega
    rw [e2]
  rw [e, List.foldl_append, List.foldl_cons, foldl_keep]
  · exact hv _
  · intro t ht g
    rw [List.mem_range'_1] at ht
    exact hlater t (by omega) (by omega) g

/-- A loop whose iteration `t` adds `f t` to `fg[0]` adds the sum of the `f t`. -/
theorem forLoop_sum {α : Type} [Field α] (body : Nat → (Nat → α) → (Nat → α)) (f : Nat → α)
    (h : ∀ t g, body t g 0 = g 0 + f t) (n : Nat) (fg : Nat → α) :
    forLoop 0 n body fg 0 = fg 0 + ∑ t in Finset.range n, f t := by
  unfold forLoop
  induction n with
  | zero => simp
  | succ n ih =>
    simp only [Nat.sub_zero] at ih ⊢
    rw [List.range'_1_concat, List.foldl_append, List.foldl_cons, List.foldl_nil, h, ih,
      Finset.sum_range_succ]
    simp [add_assoc]



theorem dynBody_keep {α : Type} [Field α] (m : Libm α) (coeffs : List α) (N : Nat) (dt : α)
    (vars : Nat → α) (t k : Nat) (g : Nat → α)
    (h : ∀ b, b < 6 → k ≠ 1 + b * N + t) :
    dynBody m coeffs N dt vars t g k = g k := by
  have h0 := h 0 (by omega)
  have h1 := h 1 (by omega)
  have h2 := h 2 (by omega)
  have h3 := h 3 (by omega)
  have h4 := h 4 (by omega)
  have h5 := h 5 (by omega)
  simp only [dynBody, assign, y_start_eq, psi_start_eq, v_start_eq, cte_start_eq,
    epsi_start_eq, x_start]
  rw [if_neg (by omega), if_neg (by omega), if_neg (by omega), if_neg (by omega),
    if_neg (by omega), if_neg (by omega)]

/-- The constraint loop only: entry `k` after the loop, when iteration `t` decides it. -/
theorem dynLoop_hit {α : Type} [Field α] (m : Libm α) (coeffs : List α) (N : Nat) (dt : α)
    (vars : Nat → α) (t b : Nat) (fg : Nat → α) (v : α) (ht1 : 1 ≤ t) (ht2 : t < N)
    (hb : b < 6)
    (hv : ∀ g, dynBody m coeffs N dt vars t g (1 + b * N + t) = v) :
    forLoop 1 N (dynBody m coeffs N dt vars) fg (1 + b * N + t) = v := by
  apply forLoop_hit _ _ 1 N t _ _ ht1 ht2 hv
  intro t' h1 h2 g
  apply dynBody_keep
  intro c hc
  have hb6 : b ≤ 5 := by omega
  have hc6 : c ≤ 5 := by omega
  rcases Nat.lt_trichotomy b c with h | h | h
  · have : (b + 1) * N ≤ c * N := Nat.mul_le_mul_right N h
    rw [Nat.add_mul] at this
    omega
  · subst h; omega
  · have : (c + 1) * N ≤ b * N := Nat.mul_le_mul_right N h
    rw [Nat.add_mul] at this
    omega

/-- What one iteration of the constraint loop leaves in its six entries. -/
theorem dynBody_hit {α : Type} [Field α] (m : Libm α) (coeffs : List α) (N : Nat) (dt : α)
    (vars : Nat → α) (t : Nat) (g : Nat → α) (hN : 1 ≤ N) :
    dynBody m coeffs N dt vars t g (1 + 0 * N + t) =
      vars (x_start + t) - (vars (x_start + t - 1) +
        vars (v_start N + t - 1) * m.cos (vars (psi_start N + t - 1)) * dt) ∧
    dynBody m coeffs N dt vars t g (1 + 1 * N + t) =
      vars (y_start N + t) - (vars (y_start N + t - 1) +
        vars (v_start N + t - 1) * m.sin (vars (psi_start N + t - 1)) * dt) ∧
    dynBody m coeffs N dt vars t g (1 + 2 * N + t) =
      vars (psi_start N + t) - (vars (psi_start N + t - 1) +
        vars (v_start N + t - 1) * (-vars (delta_start N + t - 1)) / Lf * dt) ∧
    dynBody m coeffs N dt vars t g (1 + 3 * N + t) =
      vars (v_start N + t) - (vars (v_start N + t - 1) + vars (a_start N + t - 1) * dt) ∧
    dynBody m coeffs N dt vars t g (1 + 4 * N + t) =
      vars (cte_start N + t) -
        ((coeffs.getD 0 0 + coeffs.getD 1 0 * vars (x_start + t - 1)
            + coeffs.getD 2 0 * vars (x_start + t - 1) ^ 2
            + coeffs.getD 3 0 * vars (x_start + t - 1) ^ 3 - vars (y_start N + t - 1)) +
          (vars (v_start N + t - 1) * m.sin (vars (epsi_start N + t - 1)) * dt)) ∧
    dynBody m coeffs N dt vars t g (1 + 5 * N + t) =
      vars (epsi_start N + t) -
        ((vars (psi_start N + t - 1) -
            m.atan (coeffs.getD 1 0 + 2 * coeffs.getD 2 0 * vars (x_start + t - 1)
              + 3 * coeffs.getD 3 0 * vars (x_start + t - 1) ^ 2)) +
          vars (v_start N + t - 1) * (-vars (delta_start N + t - 1)) / Lf * dt) := by
  refine ⟨?_, ?_, ?_, ?_, ?_, ?_⟩
  · simp only [dynBody, assign]
    rw [if_neg (by rw [epsi_start_eq]; omega), if_neg (by rw [cte_start_eq]; omega),
      if_neg (by rw [v_start_eq]; omega), if_neg (by rw [psi_start_eq]; omega),
      if_neg (by rw [y_start_eq]; omega), if_pos (by rw [x_start]; omega)]
  · simp only [dynBody, assign]
    rw [if_neg (by rw [epsi_start_eq]; omega), if_neg (by rw [cte_start_eq]; omega),
      if_neg (by rw [v_start_eq]; omega), if_neg (by rw [psi_start_eq]; omega),
      if_pos (by rw [y_start_eq]; omega)]
  · simp only [dynBody, assign]
    rw [if_neg (by rw [epsi_start_eq]; omega), if_neg (by rw [cte_start_eq]; omega),
      if_neg (by rw [v_start_eq]; omega), if_pos (by rw [psi_start_eq])]
  · simp only [dynBody, assign]
    rw [if_neg (by rw [epsi_start_eq]; omega), if_neg (by rw [cte_start_eq]; omega),
      if_pos (by rw [v_start_eq])]
  · simp only [dynBody, assign]
    rw [if_neg (by rw [epsi_start_eq]; omega), if_pos (by rw [cte_start_eq])]
  · simp only [dynBody, assign]
    rw [if_pos (by rw [epsi_start_eq])]

theorem blockStarts_eq {N : Nat} (h : 1 ≤ N) :
    blockStarts N = [0, N, 2 * N, 3 * N, 4 * N, 5 * N, 6 * N, 6 * N + (N - 1)] := by
  rw [blockStarts, a_start_eq h, delta_start_eq, epsi_start_eq, cte_start_eq,
    v_start_eq, psi_start_eq, y_start_eq, x_start]
  have e7 : 7 * N - 1 = 6 * N + (N - 1) := by omega
  rw [e7]

theorem blockLengths_eq {N : Nat} (h : 1 ≤ N) :
    blockLengths N = [N, N, N, N, N, N, N - 1, N - 1] := by
  rw [blockLengths, size_sub_of_le h]

/-- Membership of a block, with the offsets written out. -/
theorem inBlock_iff {N : Nat} (h : 1 ≤ N) (b i : Nat) :
    inBlock N b i ↔
      ([0, N, 2 * N, 3 * N, 4 * N, 5 * N, 6 * N, 6 * N + (N - 1)].getD b 0 ≤ i ∧
        i < [0, N, 2 * N, 3 * N, 4 * N, 5 * N, 6 * N, 6 * N + (N - 1)].getD b 0 +
          [N, N, N, N, N, N, N - 1, N - 1].getD b 0) := by
  unfold inBlock
  rw [blockStarts_eq h, blockLengths_eq h]

/-! ### Loops that assign to a vector -/

theorem newVector_length {α : Type} (n : Nat) (junk : Nat → α) :
    (newVector n junk).length = n := by
  simp [newVector]

theorem foldl_set_length {α : Type} (f : Nat → α) (l : List Nat) (v : List α) :
    (l.foldl (fun v i => v.set i (f i)) v).length = v.length := by
  induction l generalizing v with
  | nil => rfl
  | cons t l ih => rw [List.foldl_cons, ih, List.length_set]

theorem foldl_set_get {α : Type} (f : Nat → α) (l : List Nat) (v : List α) (k : Nat)
    (hk : k < v.length) :
    (l.foldl (fun v i => v.set i (f i)) v)[k]? = if k ∈ l then some (f k) else v[k]? := by
  induction l generalizing v with
  | nil => simp
  | cons t l ih =>
    rw [List.foldl_cons, ih _ (by rw [List.length_set]; exact hk)]
    by_cases h1 : k ∈ l
    · rw [if_pos h1, if_pos (List.mem_cons_of_mem _ h1)]
    · rw [if_neg h1]
      by_cases h2 : k = t
      · subst h2
        rw [if_pos (List.mem_cons_self _ _), List.getElem?_set, if_pos rfl, if_pos hk]
      · rw [if_neg (by simp [h1, h2]), List.getElem?_set, if_neg (Ne.symm h2)]

/-- A loop `for (i = lo; i < hi; i++) v[i] = f(i)` keeps the length of `v`. -/
theorem forLoop_set_length {α : Type} (f : Nat → α) (lo hi : Nat) (v : List α) :
    (forLoop lo hi (fun i v => v.set i (f i)) v).length = v.length :=
  foldl_set_length f _ v

/-- After `for (i = lo; i < hi; i++) v[i] = f(i)` the entries from `lo` up to `hi` hold
`f`, the others what they held. -/
theorem forLoop_set_get {α : Type} (f : Nat → α) (lo hi : Nat) (v : List α) (k : Nat)
    (hk : k < v.length) :
    (forLoop lo hi (fun i v => v.set i (f i)) v)[k]? =
      if lo ≤ k ∧ k < hi then some (f k) else v[k]? := by
  unfold forLoop
  rw [foldl_set_get f _ v k hk]
  by_cases h : lo ≤ k ∧ k < hi
  · rw [if_pos h, if_pos (by rw [List.mem_range'_1]; omega)]
  · rw [if_neg h, if_neg (by rw [List.mem_range'_1]; omega)]

/-- A loop over a pair of bound vectors is a loop over each of them. -/
theorem forLoop_boundsBody {α : Type} (a b : α) (lo hi : Nat) (p : List α × List α) :
    forLoop lo hi (boundsBody a b) p =
      (forLoop lo hi (fun i v => v.set i a) p.1, forLoop lo hi (fun i v => v.set i b) p.2) := by
  unfold forLoop
  generalize List.range' lo (hi - lo) = l
  induction l generalizing p with
  | nil => rfl
  | cons t l ih => rw [List.foldl_cons, ih]; rfl

/-- The six assignments that store the anchor state at the first entry of each state
block of a vector. -/
theorem pin_get {α : Type} (w : List α) (N : Nat) (h1N : 1 ≤ N) (hlen : 6 * N ≤ w.length)
    (x y psi v cte epsi : α) (k : Nat) :
    ((((((w.set x_start x).set (y_start N) y).set (psi_start N) psi).set (v_start N) v).set
      (cte_start N) cte).set (epsi_start N) epsi)[k]? =
      if k = 5 * N then some epsi else if k = 4 * N then some cte
      else if k = 3 * N then some v else if k = 2 * N then some psi
      else if k = N then some y else if k = 0 then some x else w[k]? := by
  rw [y_start_eq, psi_start_eq, v_start_eq, cte_start_eq, epsi_start_eq, x_start]
  simp only [List.getElem?_set, List.length_set]
  by_cases c5 : k = 5 * N
  · rw [if_pos c5.symm, if_pos (by omega), if_pos c5]
  rw [if_neg (fun h => c5 h.symm), if_neg c5]
  by_cases c4 : k = 4 * N
  · rw [if_pos c4.symm, if_pos (by omega), if_pos c4]
  rw [if_neg (fun h => c4 h.symm), if_neg c4]
  by_cases c3 : k = 3 * N
  · rw [if_pos c3.symm, if_pos (by omega), if_pos c3]
  rw [if_neg (fun h => c3 h.symm), if_neg c3]
  by_cases c2 : k = 2 * N
  · rw [if_pos c2.symm, if_pos (by omega), if_pos c2]
  rw [if_neg (fun h => c2 h.symm), if_neg c2]
  by_cases c1 : k = N
  · rw [if_pos c1.symm, if_pos (by omega), if_pos c1]
  rw [if_neg (fun h => c1 h.symm), if_neg c1]
  by_cases c0 : k = 0
  · rw [if_pos c0.symm, if_pos (by omega), if_pos c0]
  rw [if_neg (fun h => c0 h.symm), if_neg c0]

/-- The entries `fg[1 + start]` of the six state blocks hold the first-step variables
after `FG_eval`: the constraint loop, which starts at `t = 1`, does not assign them. -/
theorem FG_eval_pin {α : Type} [Field α] (m : Libm α) (coeffs : List α) (N : Nat)
    (h1N : 1 ≤ N) (dt : α) (vars fg : Nat → α) :
    FG_eval m coeffs N dt vars fg (1 + x_start) = vars x_start ∧
    FG_eval m coeffs N dt vars fg (1 + y_start N) = vars (y_start N) ∧
    FG_eval m coeffs N dt vars fg (1 + psi_start N) = vars (psi_start N) ∧
    FG_eval m coeffs N dt vars fg (1 + v_start N) = vars (v_start N) ∧
    FG_eval m coeffs N dt vars fg (1 + cte_start N) = vars (cte_start N) ∧
    FG_eval m coeffs N dt vars fg (1 + epsi_start N) = vars (epsi_start N) := by
  have keep : ∀ c, c < 6 → ∀ g : Nat → α,
      forLoop 1 N (dynBody m coeffs N dt vars) g (1 + c * N) = g (1 + c * N) := by
    intro c hc g
    apply forLoop_keep
    intro t ht1 ht2 g'
    apply dynBody_keep
    intro b hb
    rcases Nat.lt_trichotomy b c with h | h | h
    · have : (b + 1) * N ≤ c * N := Nat.mul_le_mul_right N h
      rw [Nat.add_mul] at this
      omega
    · subst h; omega
    · have : (c + 1) * N ≤ b * N := Nat.mul_le_mul_right N h
      rw [Nat.add_mul] at this
      omega
  have i0 : 1 + x_start = 1 + 0 * N := by rw [x_start]; omega
  have i1 : 1 + y_start N = 1 + 1 * N := by rw [y_start_eq]; omega
  have i2 : 1 + psi_start N = 1 + 2 * N := by rw [psi_start_eq]
  have i3 : 1 + v_start N = 1 + 3 * N := by rw [v_start_eq]
  have i4 : 1 + cte_start N = 1 + 4 * N := by rw [cte_start_eq]
  have i5 : 1 + epsi_start N = 1 + 5 * N := by rw [epsi_start_eq]
  refine ⟨?_, ?_, ?_, ?_, ?_, ?_⟩
  · rw [i0]; simp only [FG_eval]; rw [keep 0 (by omega)]
    simp only [assign, y_start_eq, psi_start_eq, v_start_eq, cte_start_eq, epsi_start_eq,
      x_start]
    split_ifs <;> first | rfl | omega
  · rw [i1]; simp only [FG_eval]; rw [keep 1 (by omega)]
    simp only [assign, y_start_eq, psi_start_eq, v_start_eq, cte_start_eq, epsi_start_eq,
      x_start]
    split_ifs <;> first | rfl | omega
  · rw [i2]; simp only [FG_eval]; rw [keep 2 (by omega)]
    simp only [assign, y_start_eq, psi_start_eq, v_start_eq, cte_start_eq, epsi_start_eq,
      x_start]
    split_ifs <;> first | rfl | omega
  · rw [i3]; simp only [FG_eval]; rw [keep 3 (by omega)]
    simp only [assign, y_start_eq, psi_start_eq, v_start_eq, cte_start_eq, epsi_start_eq,
      x_start]
    split_ifs <;> first | rfl | omega
  · rw [i4]; simp only [FG_eval]; rw [keep 4 (by omega)]
    simp only [assign, y_start_eq, psi_start_eq, v_start_eq, cte_start_eq, epsi_start_eq,
      x_start]
    split_ifs <;> first | rfl | omega
  · rw [i5]; simp only [FG_eval]; rw [keep 5 (by omega)]
    simp only [assign, epsi_start_eq]
    rw [if_pos trivial]

/-! ### Building and decoding the result vector -/

theorem forLoop_succ {σ : Type} (body : Nat → σ → σ) (n : Nat) (s : σ) :
    forLoop 0 (n + 1) body s = body n (forLoop 0 n body s) := by
  unfold forLoop
  simp only [Nat.sub_zero]
  rw [List.range'_1_concat, List.foldl_append, List.foldl_cons, List.foldl_nil, Nat.zero_add]

/-- A loop that appends `f i` and then `g i` in iteration `i`: the length grows by two per
iteration, the old entries stay, and the new ones are interleaved. -/
theorem pushLoop_spec {α : Type} (f g : Nat → α) (n : Nat) (r0 : List α) :
    (forLoop 0 n (fun i r => (r ++ [f i]) ++ [g i]) r0).length = r0.length + 2 * n ∧
    (∀ k, k < r0.length → (forLoop 0 n (fun i r => (r ++ [f i]) ++ [g i]) r0)[k]? = r0[k]?) ∧
    (∀ i, i < n →
      (forLoop 0 n (fun i r => (r ++ [f i]) ++ [g i]) r0)[r0.length + 2 * i]? = some (f i) ∧
      (forLoop 0 n (fun i r => (r ++ [f i]) ++ [g i]) r0)[r0.length + 2 * i + 1]? =
        some (g i)) := by
  induction n with
  | zero =>
    refine ⟨rfl, fun k _ => rfl, fun i hi => absurd hi (Nat.not_lt_zero i)⟩
  | succ n ih =>
    obtain ⟨hlen, hold, hnew⟩ := ih
    rw [forLoop_succ]
    have hlen1 : (forLoop 0 n (fun i r => (r ++ [f i]) ++ [g i]) r0 ++ [f n]).length =
        r0.length + 2 * n + 1 := by
      rw [List.length_append, hlen]; rfl
    refine ⟨?_, ?_, ?_⟩
    · rw [List.length_append, hlen1]; simp only [List.length_singleton]; omega
    · intro k hk
      rw [List.getElem?_append_left (by rw [hlen1]; omega),
        List.getElem?_append_left (by rw [hlen]; omega)]
      exact hold k hk
    · intro i hi
      by_cases c : i < n
      · obtain ⟨h1, h2⟩ := hnew i c
        constructor
        · rw [List.getElem?_append_left (by rw [hlen1]; omega),
            List.getElem?_append_left (by rw [hlen]; omega)]
          exact h1
        · rw [List.getElem?_append_left (by rw [hlen1]; omega),
            List.getElem?_append_left (by rw [hlen]; omega)]
          exact h2
      · have e : i = n := by omega
        subst e
        constructor
        · rw [List.getElem?_append_left (by rw [hlen1]; omega),
            List.getElem?_append_right (by rw [hlen]), hlen, Nat.sub_self]
          rfl
        · rw [List.getElem?_append_right (by rw [hlen1]), hlen1, Nat.sub_self]
          rfl

/-- The decoding loop of `main` on a vector of `2 + 2n` entries, entered at the pair `j`:
it appends the remaining even entries to the first list and the odd ones to the second. -/
theorem decodeLoop_spec {α : Type} [Field α] (vars : List α) (n : Nat)
    (hlen : vars.length = 2 + 2 * n) (d : Nat) :
    ∀ j, j + d = n → ∀ xs ys : List α,
      decodeLoop vars (2 + 2 * j) xs ys =
        (xs ++ (List.range' j d).map (fun i => vars.getD (2 + 2 * i) 0),
         ys ++ (List.range' j d).map (fun i => vars.getD (2 + 2 * i + 1) 0)) := by
  induction d with
  | zero =>
    intro j hj xs ys
    rw [decodeLoop, if_neg (by omega)]
    simp
  | succ d ih =>
    intro j hj xs ys
    rw [decodeLoop, if_pos (by omega)]
    have e : 2 + 2 * j + 2 = 2 + 2 * (j + 1) := by omega
    rw [e, ih (j + 1) (by omega), List.range'_succ]
    simp

/-! ### The coordinate transform -/

/-- A loop over a pair of vectors that assigns one entry of each per iteration is a loop
over each of them. -/
theorem forLoop_pair {α : Type} (f g : Nat → α) (lo hi : Nat) (p : List α × List α) :
    forLoop lo hi (fun i q => (q.1.set i (f i), q.2.set i (g i))) p =
      (forLoop lo hi (fun i v => v.set i (f i)) p.1,
       forLoop lo hi (fun i v => v.set i (g i)) p.2) := by
  unfold forLoop
  generalize List.range' lo (hi - lo) = l
  induction l generalizing p with
  | nil => rfl
  | cons t l ih => rw [List.foldl_cons, ih]; rfl

/-- A loop that assigns every entry of a vector of `n` entries yields the list of the
assigned values. -/
theorem forLoop_set_all {α : Type} (f : Nat → α) (n : Nat) (junk : Nat → α) :
    forLoop 0 n (fun i v => v.set i (f i)) (newVector n junk) = (List.range n).map f := by
  apply List.ext_getElem?
  intro k
  by_cases hk : k < n
  · rw [forLoop_set_get _ _ _ _ _ (by rw [newVector_length]; exact hk), if_pos (by omega),
      List.getElem?_map, List.getElem?_range hk]
    rfl
  · rw [List.getElem?_eq_none (by rw [forLoop_set_length, newVector_length]; omega),
      List.getElem?_eq_none (by rw [List.length_map, List.length_range]; omega)]

theorem map_getD_range {α : Type} (l : List α) (d : α) :
    (List.range l.length).map (fun i => l.getD i d) = l := by
  apply List.ext_getElem?
  intro k
  by_cases hk : k < l.length
  · rw [List.getElem?_map, List.getElem?_range hk, Option.map_some',
      List.getD_eq_getElem?_getD, List.getElem?_eq_getElem hk]
    rfl
  · rw [List.getElem?_eq_none (by rw [List.length_map, List.length_range]; omega),
      List.getElem?_eq_none (by omega)]

theorem zipWith_map_same {ι β γ δ : Type} (F : β → γ → δ) (f : ι → β) (g : ι → γ)
    (l : List ι) :
    List.zipWith F (l.map f) (l.map g) = l.map (fun a => F (f a) (g a)) := by
  induction l with
  | nil => rfl
  | cons a l ih => simp only [List.map_cons, List.zipWith_cons_cons, ih]

/-- The transformed way points are the images of the way points under `toCar`. -/
theorem transform_eq_map {α : Type} [Field α] (m : Libm α) (ptsx ptsy : List α)
    (hlen : ptsx.length = ptsy.length) (px py psi : α) (junk : Nat → α) :
    transform m ptsx ptsy px py psi junk =
      ((List.range ptsx.length).map
          (fun i => (toCar m px py psi (ptsx.getD i 0) (ptsy.getD i 0)).1),
       (List.range ptsx.length).map
          (fun i => (toCar m px py psi (ptsx.getD i 0) (ptsy.getD i 0)).2)) := by
  unfold transform
  have e : transformBody m ptsx ptsy px py psi = fun i q =>
      (q.1.set i (toCar m px py psi (ptsx.getD i 0) (ptsy.getD i 0)).1,
       q.2.set i (toCar m px py psi (ptsx.getD i 0) (ptsy.getD i 0)).2) := rfl
  simp only [e]
  rw [forLoop_pair, forLoop_set_all]
  simp only
  rw [← hlen, forLoop_set_all]

/-- Rotating by `+psi` and translating by `(px, py)` undoes `toCar`, and the other way
round, over the reals. -/
theorem toCar_inverse (px py psi : ℝ) :
    (∀ wx wy : ℝ, inverseTransformSpec ⟨Real.cos, Real.sin, Real.arctan⟩ px py psi
      (toCar ⟨Real.cos, Real.sin, Real.arctan⟩ px py psi wx wy) = (wx, wy)) ∧
    (∀ q : ℝ × ℝ, toCar ⟨Real.cos, Real.sin, Real.arctan⟩ px py psi
      (inverseTransformSpec ⟨Real.cos, Real.sin, Real.arctan⟩ px py psi q).1
      (inverseTransformSpec ⟨Real.cos, Real.sin, Real.arctan⟩ px py psi q).2 = q) := by
  have h := Real.cos_sq_add_sin_sq psi
  constructor
  · intro wx wy
    simp only [inverseTransformSpec, toCar]
    apply Prod.ext
    · simp only
      have : (wx - px) * (Real.cos psi ^ 2 + Real.sin psi ^ 2) = wx - px := by rw [h, mul_one]
      linear_combination this
    · simp only
      have : (wy - py) * (Real.cos psi ^ 2 + Real.sin psi ^ 2) = wy - py := by rw [h, mul_one]
      linear_combination this
  · intro q
    simp only [inverseTransformSpec, toCar]
    apply Prod.ext
    · simp only
      have : q.1 * (Real.cos psi ^ 2 + Real.sin psi ^ 2) = q.1 := by rw [h, mul_one]
      linear_combination this
    · simp only
      have : q.2 * (Real.cos psi ^ 2 + Real.sin psi ^ 2) = q.2 := by rw [h, mul_one]
      linear_combination this

/-! ### The design matrix of `polyfit` -/

/-- The inner loop of `polyfit` on row `j`: it leaves the other rows and column 0 alone and
fills row `j` with the powers of `x`, scaled by the entry of column 0. -/
theorem polyfit_inner {α : Type} [Field α] (x : α) (j order : Nat) (A : Nat → Nat → α) :
    (∀ r c, (r ≠ j ∨ c = 0 ∨ order < c) →
      forLoop 0 order (fun i A => assign2 A j (i + 1) (A j i * x)) A r c = A r c) ∧
    (∀ i, i ≤ order →
      forLoop 0 order (fun i A => assign2 A j (i + 1) (A j i * x)) A j i = A j 0 * x ^ i) := by
  induction order with
  | zero =>
    refine ⟨fun r c _ => rfl, fun i hi => ?_⟩
    have : i = 0 := by omega
    subst this
    simp [forLoop]
  | succ k ih =>
    obtain ⟨keep, fill⟩ := ih
    rw [forLoop_succ]
    constructor
    · intro r c h
      simp only [assign2]
      rw [if_neg (by omega)]
      exact keep r c (by omega)
    · intro i hi
      simp only [assign2]
      by_cases c : i = k + 1
      · rw [if_pos ⟨trivial, c⟩, fill k (le_refl k), c, pow_succ, mul_assoc]
      · rw [if_neg (by omega)]
        exact fill i (by omega)

/-- The matrix `polyfit` hands to the QR solve: entry `(j, i)` is `xvals[j] ^ i`. -/
theorem designMatrix_entry {α : Type} [Field α] [CharZero α] (xvals : List α) (order : Nat)
    (junk : Nat → Nat → α) (j i : Nat) (hj : j < xvals.length) (hi : i ≤ order) :
    designMatrix xvals order junk j i = xvals.getD j 0 ^ i := by
  have ones : ∀ n (A : Nat → Nat → α),
      (∀ r, r < n → forLoop 0 n (fun i A => assign2 A i 0 (1.0 : α)) A r 0 = 1) := by
    intro n
    induction n with
    | zero => intro A r hr; omega
    | succ n ih =>
      intro A r hr
      rw [forLoop_succ]
      simp only [assign2]
      by_cases c : r = n
      · rw [if_pos ⟨c, trivial⟩]; norm_num
      · rw [if_neg (by omega)]
        exact ih A r (by omega)
  have inv : ∀ k, k ≤ xvals.length → ∀ A : Nat → Nat → α,
      (∀ r, r < xvals.length → A r 0 = 1) →
      (∀ r, r < xvals.length →
        forLoop 0 k (fun j A =>
          forLoop 0 order (fun i A => assign2 A j (i + 1) (A j i * xvals.getD j 0)) A) A r 0
          = 1) ∧
      (∀ r, r < k → ∀ c, c ≤ order →
        forLoop 0 k (fun j A =>
          forLoop 0 order (fun i A => assign2 A j (i + 1) (A j i * xvals.getD j 0)) A) A r c
          = xvals.getD r 0 ^ c) := by
    intro k
    induction k with
    | zero =>
      intro _ A hA
      exact ⟨fun r hr => hA r hr, fun r hr => absurd hr (Nat.not_lt_zero r)⟩
    | succ k ih =>
      intro hk A hA
      obtain ⟨h0, hrows⟩ := ih (by omega) A hA
      rw [forLoop_succ]
      obtain ⟨keep, fill⟩ := polyfit_inner (xvals.getD k 0) k order
        (forLoop 0 k (fun j A =>
          forLoop 0 order (fun i A => assign2 A j (i + 1) (A j i * xvals.getD j 0)) A) A)
      constructor
      · intro r hr
        rw [keep r 0 (Or.inr (Or.inl rfl))]
        exact h0 r hr
      · intro r hr c hc
        by_cases e : r = k
        · subst e
          rw [fill c hc, h0 r (by omega), one_mul]
        · rw [keep r c (Or.inl e)]
          exact hrows r (by omega) c hc
  unfold designMatrix
  exact (inv xvals.length (le_refl _) _ (ones xvals.length junk)).2 j hj i hi

/-- An accepted fit: when both asserts of `polyfit` hold, it returns the entries of the QR
solve, one per column of `A`. -/
theorem polyfit_some {α : Type} [Field α] (qr : Nat → Nat → (Nat → Nat → α) → List α → Nat → α)
    (xvals yvals : List α) (junk : Nat → Nat → α) (hlen : xvals.length = yvals.length)
    (h4 : 4 ≤ xvals.length) :
    polyfit qr xvals yvals 3 junk =
      some ((List.range 4).map (qr xvals.length 4 (designMatrix xvals 3 junk) yvals)) := by
  unfold polyfit
  rw [if_neg (by rw [hlen]; exact fun h => h rfl), if_neg (by omega)]
  rfl

/-- The bound on the steering command, for any value of `pi` of at least 3.141592. -/
theorem steering_angle_bound {α : Type} [LinearOrderedField α] (pi s : α)
    (hpi : 3.141592 ≤ pi) (h1 : -0.436332 ≤ s) (h2 : s ≤ 0.436332) :
    steering_angle pi s = s / (25 * pi / 180) ∧
    -1 ≤ steering_angle pi s ∧ steering_angle pi s ≤ 1 := by
  have e : steering_angle pi s = s / (25 * pi / 180) := by
    simp only [steering_angle, deg2rad]
    norm_num
  have hpos : (0 : α) < 25 * pi / 180 := by
    have : (0 : α) < pi := lt_of_lt_of_le (by norm_num) hpi
    positivity
  have hb : (0.436332 : α) ≤ 25 * pi / 180 := by
    have : (25 : α) * 3.141592 / 180 ≤ 25 * pi / 180 := by
      apply div_le_div_of_nonneg_right _ (by norm_num)
      exact mul_le_mul_of_nonneg_left hpi (by norm_num)
    refine le_trans ?_ this
    norm_num
  refine ⟨e, ?_, ?_⟩
  · rw [e, le_div_iff₀ hpos]
    linarith
  · rw [e, div_le_iff₀ hpos]
    linarith

/-- The polynomial `polyeval` computes from four coefficients. -/
theorem polyeval_cubic {α : Type} [Field α] (c0 c1 c2 c3 x : α) :
    polyeval [c0, c1, c2, c3] x = c0 + c1 * x + c2 * x ^ 2 + c3 * x ^ 3 := by
  simp only [polyeval, forLoop, List.length_cons, List.length_nil]
  norm_num [List.range', List.foldl]

/-- The derivative of a cubic. -/
theorem deriv_cubic (c0 c1 c2 c3 x : ℝ) :
    deriv (fun z : ℝ => c0 + c1 * z + c2 * z ^ 2 + c3 * z ^ 3) x
      = c1 + 2 * c2 * x + 3 * c3 * x ^ 2 := by
  have h : HasDerivAt (fun z : ℝ => c0 + c1 * z + c2 * z ^ 2 + c3 * z ^ 3)
      (0 + c1 * 1 + c2 * (2 * x ^ 1 * 1) + c3 * (3 * x ^ 2 * 1)) x := by
    apply HasDerivAt.add
    · apply HasDerivAt.add
      · apply HasDerivAt.add
        · exact hasDerivAt_const x c0
        · exact (hasDerivAt_id x).const_mul c1
      · exact ((hasDerivAt_id x).pow 2).const_mul c2
    · exact ((hasDerivAt_id x).pow 3).const_mul c3
  rw [h.deriv]
  ring

/-- The six entries of `fg` that iteration `t` of the constraint loop decides, after the
whole of `FG_eval`. -/
theorem FG_eval_dyn {α : Type} [Field α] (m : Libm α) (coeffs : List α) (N : Nat) (dt : α)
    (vars fg : Nat → α) (t : Nat) (ht1 : 1 ≤ t) (ht2 : t < N) :
    FG_eval m coeffs N dt vars fg (1 + x_start + t) =
      vars (x_start + t) - (vars (x_start + t - 1) +
        vars (v_start N + t - 1) * m.cos (vars (psi_start N + t - 1)) * dt) ∧
    FG_eval m coeffs N dt vars fg (1 + y_start N + t) =
      vars (y_start N + t) - (vars (y_start N + t - 1) +
        vars (v_start N + t - 1) * m.sin (vars (psi_start N + t - 1)) * dt) ∧
    FG_eval m coeffs N dt vars fg (1 + psi_start N + t) =
      vars (psi_start N + t) - (vars (psi_start N + t - 1) +
        vars (v_start N + t - 1) * (-vars (delta_start N + t - 1)) / Lf * dt) ∧
    FG_eval m coeffs N dt vars fg (1 + v_start N + t) =
      vars (v_start N + t) - (vars (v_start N + t - 1) + vars (a_start N + t - 1) * dt) ∧
    FG_eval m coeffs N dt vars fg (1 + cte_start N + t) =
      vars (cte_start N + t) -
        ((coeffs.getD 0 0 + coeffs.getD 1 0 * vars (x_start + t - 1)
            + coeffs.getD 2 0 * vars (x_start + t - 1) ^ 2
            + coeffs.getD 3 0 * vars (x_start + t - 1) ^ 3 - vars (y_start N + t - 1)) +
          (vars (v_start N + t - 1) * m.sin (vars (epsi_start N + t - 1)) * dt)) ∧
    FG_eval m coeffs N dt vars fg (1 + epsi_start N + t) =
      vars (epsi_start N + t) -
        ((vars (psi_start N + t - 1) -
            m.atan (coeffs.getD 1 0 + 2 * coeffs.getD 2 0 * vars (x_start + t - 1)
              + 3 * coeffs.getD 3 0 * vars (x_start + t - 1) ^ 2)) +
          vars (v_start N + t - 1) * (-vars (delta_start N + t - 1)) / Lf * dt) := by
  have h1N : 1 ≤ N := by omega
  have key : ∀ b, b < 6 → ∀ w, (∀ g', dynBody m coeffs N dt vars t g'
      (1 + b * N + t) = w) → FG_eval m coeffs N dt vars fg (1 + b * N + t) = w := by
    intro b hb w hw
    exact dynLoop_hit m coeffs N dt vars t b _ w ht1 ht2 hb hw
  have i0 : 1 + x_start + t = 1 + 0 * N + t := by rw [x_start]; omega
  have i1 : 1 + y_start N + t = 1 + 1 * N + t := by rw [y_start_eq]; omega
  have i2 : 1 + psi_start N + t = 1 + 2 * N + t := by rw [psi_start_eq]
  have i3 : 1 + v_start N + t = 1 + 3 * N + t := by rw [v_start_eq]
  have i4 : 1 + cte_start N + t = 1 + 4 * N + t := by rw [cte_start_eq]
  have i5 : 1 + epsi_start N + t = 1 + 5 * N + t := by rw [epsi_start_eq]
  refine ⟨?_, ?_, ?_, ?_, ?_, ?_⟩
  · rw [i0]
    exact key 0 (by omega) _ (fun g' => (dynBody_hit m _ N dt vars t g' h1N).1)
  · rw [i1]
    exact key 1 (by omega) _ (fun g' => (dynBody_hit m _ N dt vars t g' h1N).2.1)
  · rw [i2]
    exact key 2 (by omega) _ (fun g' => (dynBody_hit m _ N dt vars t g' h1N).2.2.1)
  · rw [i3]
    exact key 3 (by omega) _ (fun g' => (dynBody_hit m _ N dt vars t g' h1N).2.2.2.1)
  · rw [i4]
    exact key 4 (by omega) _ (fun g' => (dynBody_hit m _ N dt vars t g' h1N).2.2.2.2.1)
  · rw [i5]
    exact key 5 (by omega) _ (fun g' => (dynBody_hit m _ N dt vars t g' h1N).2.2.2.2.2)

/-! ### The round trip of `polyfit` -/

/-- A cubic that vanishes at four distinct points has zero coefficients. -/
theorem cubic_eq_zero {α : Type} [Field α] [DecidableEq α] (d0 d1 d2 d3 : α) (s : Finset α)
    (hs : 4 ≤ s.card) (h : ∀ x ∈ s, d0 + d1 * x + d2 * x ^ 2 + d3 * x ^ 3 = 0) :
    d0 = 0 ∧ d1 = 0 ∧ d2 = 0 ∧ d3 = 0 := by
  have hp : (Cubic.toPoly ⟨d3, d2, d1, d0⟩ : Polynomial α) = 0 := by
    apply Polynomial.eq_zero_of_natDegree_lt_card_of_eval_eq_zero' _ s
    · intro x hx
      rw [Cubic.toPoly]
      simp only [Polynomial.eval_add, Polynomial.eval_mul, Polynomial.eval_C,
        Polynomial.eval_pow, Polynomial.eval_X]
      rw [← h x hx]
      ring
    · exact lt_of_le_of_lt Polynomial.natDegree_cubic_le (by omega)
  have hc := (Cubic.toPoly_eq_zero_iff _).1 hp
  have e : (⟨d3, d2, d1, d0⟩ : Cubic α) = ⟨0, 0, 0, 0⟩ := hc
  simp only [Cubic.mk.injEq] at e
  exact ⟨e.2.2.2, e.2.2.1, e.2.1, e.1⟩

/-- The squared residual is not negative. -/
theorem residual_nonneg {α : Type} [LinearOrderedField α] (rows cols : Nat)
    (A : Nat → Nat → α) (y c : List α) : 0 ≤ residual rows cols A y c :=
  Finset.sum_nonneg (fun _ _ => sq_nonneg _)

/-- Row `j` of the system `polyfit` sets up for order 3, applied to four coefficients. -/
theorem designMatrix_row {α : Type} [LinearOrderedField α] (xvals : List α)
    (junk : Nat → Nat → α) (q0 q1 q2 q3 : α) (j : Nat) (hj : j < xvals.length) :
    ∑ i in Finset.range 4, designMatrix xvals 3 junk j i * [q0, q1, q2, q3].getD i 0 =
      q0 + q1 * xvals.getD j 0 + q2 * xvals.getD j 0 ^ 2 + q3 * xvals.getD j 0 ^ 3 := by
  simp only [Finset.sum_range_succ, Finset.sum_range_zero, List.getD_cons_zero,
    List.getD_cons_succ]
  rw [designMatrix_entry _ _ _ j 0 hj (by omega), designMatrix_entry _ _ _ j 1 hj (by omega),
    designMatrix_entry _ _ _ j 2 hj (by omega), designMatrix_entry _ _ _ j 3 hj (by omega)]
  ring

/-- Way points that lie on a cubic have residual 0 for the coefficients of the cubic. -/
theorem residual_exact {α : Type} [LinearOrderedField α] (xvals : List α)
    (junk : Nat → Nat → α) (c0 c1 c2 c3 : α) :
    residual xvals.length 4 (designMatrix xvals 3 junk)
      (xvals.map (polyeval [c0, c1, c2, c3])) [c0, c1, c2, c3] = 0 := by
  apply Finset.sum_eq_zero
  intro j hj
  rw [Finset.mem_range] at hj
  have hy : (xvals.map (polyeval [c0, c1, c2, c3])).getD j 0 =
      c0 + c1 * xvals.getD j 0 + c2 * xvals.getD j 0 ^ 2 + c3 * xvals.getD j 0 ^ 3 := by
    rw [List.getD_eq_getElem?_getD, List.getElem?_map, List.getD_eq_getElem?_getD,
      List.getElem?_eq_getElem hj]
    exact polyeval_cubic c0 c1 c2 c3 _
  rw [designMatrix_row _ _ _ _ _ _ j hj, hy, sub_self]
  exact zero_pow (by omega)

/-- Least-squares coefficients for way points that lie on a cubic, sampled at four or more
distinct x-values, are the coefficients of the cubic. -/
theorem leastSquares_unique {α : Type} [LinearOrderedField α] (xvals : List α)
    (junk : Nat → Nat → α) (c0 c1 c2 c3 : α) (q : Nat → α)
    (hdist : 4 ≤ xvals.toFinset.card)
    (hq : isLeastSquares xvals.length 4 (designMatrix xvals 3 junk)
      (xvals.map (polyeval [c0, c1, c2, c3])) ((List.range 4).map q)) :
    (List.range 4).map q = [c0, c1, c2, c3] := by
  have hqs : (List.range 4).map q = [q 0, q 1, q 2, q 3] := rfl
  rw [hqs] at hq ⊢
  have hy : ∀ j, j < xvals.length → (xvals.map (polyeval [c0, c1, c2, c3])).getD j 0 =
      c0 + c1 * xvals.getD j 0 + c2 * xvals.getD j 0 ^ 2 + c3 * xvals.getD j 0 ^ 3 := by
    intro j hj
    rw [List.getD_eq_getElem?_getD, List.getElem?_map, List.getD_eq_getElem?_getD,
      List.getElem?_eq_getElem hj]
    exact polyeval_cubic c0 c1 c2 c3 _
  have hexact := residual_exact xvals junk c0 c1 c2 c3
  have hzero : residual xvals.length 4 (designMatrix xvals 3 junk)
      (xvals.map (polyeval [c0, c1, c2, c3])) [q 0, q 1, q 2, q 3] = 0 :=
    le_antisymm (hexact ▸ hq [c0, c1, c2, c3]) (residual_nonneg _ _ _ _ _)
  have hrows := (Finset.sum_eq_zero_iff_of_nonneg (fun _ _ => sq_nonneg _)).1 hzero
  have hroot : ∀ x ∈ xvals.toFinset,
      (q 0 - c0) + (q 1 - c1) * x + (q 2 - c2) * x ^ 2 + (q 3 - c3) * x ^ 3 = 0 := by
    intro x hx
    rw [List.mem_toFinset] at hx
    obtain ⟨j, hj, rfl⟩ := List.getElem_of_mem hx
    have h := hrows j (Finset.mem_range.2 hj)
    have hg : xvals.getD j 0 = xvals[j] := by
      rw [List.getD_eq_getElem?_getD, List.getElem?_eq_getElem hj]; rfl
    rw [designMatrix_row _ _ _ _ _ _ j hj, hy j hj, hg] at h
    have h' := pow_eq_zero_iff (by omega : 2 ≠ 0) |>.1 h
    linear_combination h'
  obtain ⟨e0, e1, e2, e3⟩ := cubic_eq_zero _ _ _ _ _ hdist hroot
  rw [sub_eq_zero.1 e0, sub_eq_zero.1 e1, sub_eq_zero.1 e2, sub_eq_zero.1 e3]

/-- On way points that lie on a cubic, with four or more distinct x-values, `polyfit`
returns the coefficients of the cubic when the QR solve returns least-squares
coefficients. -/
theorem polyfit_exact {α : Type} [LinearOrderedField α]
    (qr : Nat → Nat → (Nat → Nat → α) → List α → Nat → α) (xvals : List α)
    (junk : Nat → Nat → α) (c0 c1 c2 c3 : α) (hdist : 4 ≤ xvals.toFinset.card)
    (hq : isLeastSquares xvals.length 4 (designMatrix xvals 3 junk)
      (xvals.map (polyeval [c0, c1, c2, c3]))
      ((List.range 4).map (qr xvals.length 4 (designMatrix xvals 3 junk)
        (xvals.map (polyeval [c0, c1, c2, c3]))))) :
    polyfit qr xvals (xvals.map (polyeval [c0, c1, c2, c3])) 3 junk =
      some [c0, c1, c2, c3] := by
  have h4 : 4 ≤ xvals.length := le_trans hdist (List.toFinset_card_le xvals)
  rw [polyfit_some qr xvals _ junk (by rw [List.length_map]) h4,
    leastSquares_unique xvals junk c0 c1 c2 c3 _ hdist hq]

/-- The way points `(0,0), (10,0), (20,0), (30,0)` give the zero polynomial. -/
theorem polyfit_zero_line {α : Type} [LinearOrderedField α]
    (qr : Nat → Nat → (Nat → Nat → α) → List α → Nat → α) (junk : Nat → Nat → α)
    (hq : isLeastSquares 4 4 (designMatrix [0, 10, 20, 30] 3 junk) [0, 0, 0, 0]
      ((List.range 4).map (qr 4 4 (designMatrix [0, 10, 20, 30] 3 junk) [0, 0, 0, 0]))) :
    polyfit qr [0, 10, 20, 30] [0, 0, 0, 0] 3 junk = some [0, 0, 0, 0] := by
  have hy : ([0, 10, 20, 30] : List α).map (polyeval [0, 0, 0, 0]) = [0, 0, 0, 0] := by
    simp [polyeval_cubic]
  have hnd : ([0, 10, 20, 30] : List α).Nodup := by
    simp only [List.nodup_cons, List.mem_cons, List.mem_singleton, List.not_mem_nil,
      List.nodup_nil]
    norm_num
  have hcard : 4 ≤ ([0, 10, 20, 30] : List α).toFinset.card := by
    rw [List.toFinset_card_of_nodup hnd]
    rfl
  have h := polyfit_exact qr [0, 10, 20, 30] junk 0 0 0 0 hcard (by rw [hy]; exact hq)
  rw [hy] at h
  exact h

/-! ### The cost -/

/-- The cost `FG_eval` leaves in `fg[0]`, as three sums. -/
theorem FG_eval_cost {α : Type} [Field α] [CharZero α] (m : Libm α) (coeffs : List α)
    (N : Nat) (hN : 2 ≤ N) (dt : α) (vars fg : Nat → α) :
    FG_eval m coeffs N dt vars fg 0 =
      (∑ t in Finset.range N,
        (2000 * vars (cte_start N + t) ^ 2 + 2000 * vars (epsi_start N + t) ^ 2
          + 1 * (vars (v_start N + t) - 70) ^ 2))
      + (∑ t in Finset.range (N - 1),
        (10 * vars (delta_start N + t) ^ 2 + 10 * vars (a_start N + t) ^ 2))
      + (∑ t in Finset.range (N - 2),
        (100 * (vars (delta_start N + (t + 1)) - vars (delta_start N + t)) ^ 2
          + 100 * (vars (a_start N + (t + 1)) - vars (a_start N + t)) ^ 2)) := by
  have hdyn : ∀ g : Nat → α, forLoop 1 N (dynBody m coeffs N dt vars) g 0 = g 0 := by
    intro g
    apply forLoop_keep
    intro t _ _ g'
    apply dynBody_keep
    intro b _
    omega
  have href : ∀ t (g : Nat → α), costRefBody N vars t g 0 = g 0 +
      (2000 * vars (cte_start N + t) ^ 2 + 2000 * vars (epsi_start N + t) ^ 2
          + 1 * (vars (v_start N + t) - 70) ^ 2) := by
    intro t g
    simp only [costRefBody, assign, if_true, weight_cte, weight_epsi, weight_v, ref_v]
    norm_num
    ring
  have hact : ∀ t (g : Nat → α), costActBody N vars t g 0 = g 0 +
      (10 * vars (delta_start N + t) ^ 2 + 10 * vars (a_start N + t) ^ 2) := by
    intro t g
    simp only [costActBody, assign, if_true, weight_delta, weight_a]
    norm_num
    ring
  have hgap : ∀ t (g : Nat → α), costGapBody N vars t g 0 = g 0 +
      (100 * (vars (delta_start N + (t + 1)) - vars (delta_start N + t)) ^ 2
          + 100 * (vars (a_start N + (t + 1)) - vars (a_start N + t)) ^ 2) := by
    intro t g
    simp only [costGapBody, assign, if_true, weight_delta_diff, weight_a_diff, Nat.add_assoc]
    norm_num
    ring
  simp only [FG_eval]
  rw [hdyn]
  simp only [assign]
  rw [if_neg (by omega), if_neg (by omega), if_neg (by omega), if_neg (by omega),
    if_neg (by omega), if_neg (by omega), size_sub_of_le (show 2 ≤ N from hN),
    size_sub_of_le (show 1 ≤ N by omega), forLoop_sum _ _ hgap, forLoop_sum _ _ hact,
    forLoop_sum _ _ href]
  simp [assign]

/-- The cost is not negative. -/
theorem cost_nonneg {α : Type} [LinearOrderedField α] (m : Libm α) (coeffs : List α)
    (N : Nat) (hN : 2 ≤ N) (dt : α) (vars fg : Nat → α) :
    0 ≤ FG_eval m coeffs N dt vars fg 0 := by
  rw [FG_eval_cost m coeffs N hN dt vars fg]
  apply add_nonneg
  · apply add_nonneg
    · exact Finset.sum_nonneg (fun _ _ => by positivity)
    · exact Finset.sum_nonneg (fun _ _ => by positivity)
  · exact Finset.sum_nonneg (fun _ _ => by positivity)

/-- The cost is 0 exactly when the errors vanish, the speed is the reference speed and
the actuators are not used. -/
theorem cost_eq_zero_iff {α : Type} [LinearOrderedField α] (m : Libm α) (coeffs : List α)
    (N : Nat) (hN : 2 ≤ N) (dt : α) (vars fg : Nat → α) :
    FG_eval m coeffs N dt vars fg 0 = 0 ↔
      (∀ t, t < N → vars (cte_start N + t) = 0 ∧ vars (epsi_start N + t) = 0 ∧
        vars (v_start N + t) = 70) ∧
      (∀ t, t < N - 1 → vars (delta_start N + t) = 0 ∧ vars (a_start N + t) = 0) := by
  rw [FG_eval_cost m coeffs N hN dt vars fg]
  have n1 : ∀ t ∈ Finset.range N, (0 : α) ≤
      2000 * vars (cte_start N + t) ^ 2 + 2000 * vars (epsi_start N + t) ^ 2
          + 1 * (vars (v_start N + t) - 70) ^ 2 := fun _ _ => by positivity
  have n2 : ∀ t ∈ Finset.range (N - 1), (0 : α) ≤
      10 * vars (delta_start N + t) ^ 2 + 10 * vars (a_start N + t) ^ 2 :=
    fun _ _ => by positivity
  have n3 : ∀ t ∈ Finset.range (N - 2), (0 : α) ≤
      100 * (vars (delta_start N + (t + 1)) - vars (delta_start N + t)) ^ 2
          + 100 * (vars (a_start N + (t + 1)) - vars (a_start N + t)) ^ 2 :=
    fun _ _ => by positivity
  have s1 := Finset.sum_nonneg n1
  have s2 := Finset.sum_nonneg n2
  have s3 := Finset.sum_nonneg n3
  constructor
  · intro h
    have z1 : (∑ t in Finset.range N,
        (2000 * vars (cte_start N + t) ^ 2 + 2000 * vars (epsi_start N + t) ^ 2
          + 1 * (vars (v_start N + t) - 70) ^ 2)) = 0 := by linarith
    have z2 : (∑ t in Finset.range (N - 1),
        (10 * vars (delta_start N + t) ^ 2 + 10 * vars (a_start N + t) ^ 2)) = 0 := by
      linarith
    constructor
    · intro t ht
      have h1 := (Finset.sum_eq_zero_iff_of_nonneg n1).1 z1 t (Finset.mem_range.2 ht)
      have a1 := sq_nonneg (vars (cte_start N + t))
      have a2 := sq_nonneg (vars (epsi_start N + t))
      have a3 := sq_nonneg (vars (v_start N + t) - 70)
      refine ⟨?_, ?_, ?_⟩
      · exact pow_eq_zero_iff (by omega : 2 ≠ 0) |>.1 (by linarith)
      · exact pow_eq_zero_iff (by omega : 2 ≠ 0) |>.1 (by linarith)
      · have : vars (v_start N + t) - 70 = 0 :=
          pow_eq_zero_iff (by omega : 2 ≠ 0) |>.1 (by linarith)
        linarith
    · intro t ht
      have h1 := (Finset.sum_eq_zero_iff_of_nonneg n2).1 z2 t (Finset.mem_range.2 ht)
      have a1 := sq_nonneg (vars (delta_start N + t))
      have a2 := sq_nonneg (vars (a_start N + t))
      refine ⟨?_, ?_⟩
      · exact pow_eq_zero_iff (by omega : 2 ≠ 0) |>.1 (by linarith)
      · exact pow_eq_zero_iff (by omega : 2 ≠ 0) |>.1 (by linarith)
  · rintro ⟨h1, h2⟩
    rw [Finset.sum_eq_zero, Finset.sum_eq_zero, Finset.sum_eq_zero]
    · norm_num
    · intro t ht
      rw [Finset.mem_range] at ht
      rw [(h2 (t + 1) (by omega)).1, (h2 (t + 1) (by omega)).2, (h2 t (by omega)).1,
        (h2 t (by omega)).2]
      norm_num
    · intro t ht
      rw [Finset.mem_range] at ht
      rw [(h2 t ht).1, (h2 t ht).2]
      norm_num
    · intro t ht
      rw [Finset.mem_range] at ht
      rw [(h1 t ht).1, (h1 t ht).2.1, (h1 t ht).2.2]
      norm_num

/-! ### The constraints as the solver reads them -/

/-- The constraint-bound vectors of `MPC::Solve`: both have `6N` entries; entry `b N` holds
component `b` of the anchor state and every other entry 0. -/
theorem Solve_problem_cbounds {α : Type} [Field α] (N : Nat) (h1N : 1 ≤ N)
    (x y psi v cte epsi : α) (junk : Nat → α) :
    (Solve_problem N [x, y, psi, v, cte, epsi] junk).constraints_lowerbound.length = 6 * N ∧
    (Solve_problem N [x, y, psi, v, cte, epsi] junk).constraints_upperbound.length = 6 * N ∧
    (∀ b, b < 6 → ∀ t, t < N →
      (Solve_problem N [x, y, psi, v, cte, epsi] junk).constraints_lowerbound.getD
          (b * N + t) 0 = (if t = 0 then [x, y, psi, v, cte, epsi].getD b 0 else 0) ∧
      (Solve_problem N [x, y, psi, v, cte, epsi] junk).constraints_upperbound.getD
          (b * N + t) 0 = (if t = 0 then [x, y, psi, v, cte, epsi].getD b 0 else 0)) := by
  have hcl : (Solve_problem N [x, y, psi, v, cte, epsi] junk).constraints_lowerbound =
      ((((((forLoop 0 (n_constraints N) (fun i w => w.set i (0 : α))
        (newVector (n_constraints N) junk)).set x_start x).set (y_start N) y).set
          (psi_start N) psi).set (v_start N) v).set (cte_start N) cte).set
            (epsi_start N) epsi := by
    simp only [Solve_problem, forLoop_boundsBody, List.getD_cons_zero, List.getD_cons_succ]
  have hcu : (Solve_problem N [x, y, psi, v, cte, epsi] junk).constraints_upperbound =
      ((((((forLoop 0 (n_constraints N) (fun i w => w.set i (0 : α))
        (newVector (n_constraints N) junk)).set x_start x).set (y_start N) y).set
          (psi_start N) psi).set (v_start N) v).set (cte_start N) cte).set
            (epsi_start N) epsi := by
    simp only [Solve_problem, forLoop_boundsBody, List.getD_cons_zero, List.getD_cons_succ]
  have hl : (forLoop 0 (n_constraints N) (fun i w => w.set i (0 : α))
      (newVector (n_constraints N) junk)).length = 6 * N := by
    rw [forLoop_set_length, newVector_length, n_constraints, n_state]
  have hz : ∀ i, i < 6 * N → (forLoop 0 (n_constraints N) (fun i w => w.set i (0 : α))
      (newVector (n_constraints N) junk))[i]? = some 0 := by
    intro i hi
    have hi' : i < n_constraints N := by rw [n_constraints, n_state]; exact hi
    rw [forLoop_set_get _ _ _ _ _ (by rw [newVector_length]; exact hi'), if_pos (by omega)]
  have get := pin_get _ N h1N (le_of_eq hl.symm) x y psi v cte epsi
  refine ⟨by rw [hcl]; simp only [List.length_set]; exact hl,
    by rw [hcu]; simp only [List.length_set]; exact hl, ?_⟩
  intro b hb t ht
  rw [hcl, hcu, List.getD_eq_getElem?_getD, get, hz (b * N + t) (by
    have : (b + 1) * N ≤ 6 * N := Nat.mul_le_mul_right N (by omega)
    rw [Nat.add_mul] at this
    omega)]
  interval_cases b <;>
  · simp only [List.getD_cons_zero, List.getD_cons_succ]
    split_ifs <;> first | exact ⟨rfl, rfl⟩ | omega

/-- The entries `fg[1 + b N]` hold the first-step variables after `FG_eval`. -/
theorem FG_eval_pin_block {α : Type} [Field α] (m : Libm α) (coeffs : List α) (N : Nat)
    (h1N : 1 ≤ N) (dt : α) (vars fg : Nat → α) (b : Nat) (hb : b < 6) :
    FG_eval m coeffs N dt vars fg (1 + (b * N + 0)) = vars (b * N) := by
  obtain ⟨e0, e1, e2, e3, e4, e5⟩ := FG_eval_pin m coeffs N h1N dt vars fg
  rw [y_start_eq] at e1
  rw [psi_start_eq] at e2
  rw [v_start_eq] at e3
  rw [cte_start_eq] at e4
  rw [epsi_start_eq] at e5
  rw [x_start] at e0
  interval_cases b
  · simpa using e0
  · simpa using e1
  · simpa using e2
  · simpa using e3
  · simpa using e4
  · simpa using e5

/-- A variable vector satisfies the constraints of the problem `MPC::Solve` builds exactly
when its first-step state is the anchor state and all the residuals of the steps
`1 ≤ t < N` vanish. -/
theorem satisfiesConstraints_iff {α : Type} [LinearOrderedField α] (m : Libm α)
    (coeffs : List α) (N : Nat) (h1N : 1 ≤ N) (dt : α) (x y psi v cte epsi : α)
    (junk : Nat → α) (vars fg : Nat → α) :
    satisfiesConstraints (Solve_problem N [x, y, psi, v, cte, epsi] junk)
        (FG_eval m coeffs N dt vars fg) ↔
      (∀ b, b < 6 → vars (b * N) = [x, y, psi, v, cte, epsi].getD b 0) ∧
      (∀ t, 1 ≤ t → t < N → ∀ b, b < 6 →
        FG_eval m coeffs N dt vars fg (1 + (b * N + t)) = 0) := by
  obtain ⟨hl, _, hb⟩ := Solve_problem_cbounds N h1N x y psi v cte epsi junk
  unfold satisfiesConstraints
  rw [hl]
  constructor
  · intro h
    constructor
    · intro b hb6
      have hk : b * N + 0 < 6 * N := by
        have : (b + 1) * N ≤ 6 * N := Nat.mul_le_mul_right N (by omega)
        rw [Nat.add_mul] at this
        omega
      have := h (b * N + 0) hk
      rw [(hb b hb6 0 (by omega)).1, (hb b hb6 0 (by omega)).2, if_pos rfl,
        FG_eval_pin_block m coeffs N h1N dt vars fg b hb6] at this
      exact le_antisymm this.2 this.1
    · intro t ht1 ht2 b hb6
      have hk : b * N + t < 6 * N := by
        have : (b + 1) * N ≤ 6 * N := Nat.mul_le_mul_right N (by omega)
        rw [Nat.add_mul] at this
        omega
      have := h (b * N + t) hk
      rw [(hb b hb6 t ht2).1, (hb b hb6 t ht2).2, if_neg (by omega)] at this
      exact le_antisymm this.2 this.1
  · rintro ⟨hpin, hdyn⟩ k hk
    have hb6 : k / N < 6 := by
      rw [Nat.div_lt_iff_lt_mul (by omega)]; exact hk
    have ht : k % N < N := Nat.mod_lt _ (by omega)
    have hkeq : k = k / N * N + k % N := by
      rw [Nat.mul_comm]; exact (Nat.div_add_mod k N).symm
    rw [hkeq, (hb _ hb6 _ ht).1, (hb _ hb6 _ ht).2]
    by_cases c : k % N = 0
    · rw [c, if_pos rfl, FG_eval_pin_block m coeffs N h1N dt vars fg _ hb6, hpin _ hb6]
      exact ⟨le_refl _, le_refl _⟩
    · rw [if_neg c, hdyn _ (by omega) ht _ hb6]
      exact ⟨le_refl _, le_refl _⟩

/-! ### The variable bounds as the solver reads them -/

/-- The variable-bound vectors of `MPC::Solve`, entry by entry. -/
theorem Solve_problem_vbounds {α : Type} [Field α] (N : Nat) (h1N : 1 ≤ N)
    (state : List α) (junk : Nat → α) :
    (Solve_problem N state junk).vars_lowerbound.length = 8 * N - 2 ∧
    (∀ i, i < 8 * N - 2 →
      (Solve_problem N state junk).vars_lowerbound.getD i 0 =
        (if 7 * N - 1 ≤ i then -1.0 else if 6 * N ≤ i then -0.436332 else -1.0e19) ∧
      (Solve_problem N state junk).vars_upperbound.getD i 0 =
        (if 7 * N - 1 ≤ i then 1.0 else if 6 * N ≤ i then 0.436332 else 1.0e19)) := by
  have hn := n_vars_eq h1N
  have hlb : (Solve_problem N state junk).vars_lowerbound =
      forLoop (a_start N) (n_vars N) (fun i v => v.set i (-1.0))
        (forLoop (delta_start N) (a_start N) (fun i v => v.set i (-0.436332))
          (forLoop 0 (delta_start N) (fun i v => v.set i (-1.0e19))
            (newVector (n_vars N) junk))) := by
    simp only [Solve_problem, forLoop_boundsBody]
  have hub : (Solve_problem N state junk).vars_upperbound =
      forLoop (a_start N) (n_vars N) (fun i v => v.set i 1.0)
        (forLoop (delta_start N) (a_start N) (fun i v => v.set i 0.436332)
          (forLoop 0 (delta_start N) (fun i v => v.set i 1.0e19)
            (newVector (n_vars N) junk))) := by
    simp only [Solve_problem, forLoop_boundsBody]
  constructor
  · rw [hlb, forLoop_set_length, forLoop_set_length, forLoop_set_length, newVector_length, hn]
  · intro i hi
    have hi' : i < n_vars N := by rw [hn]; exact hi
    constructor
    · rw [List.getD_eq_getElem?_getD, hlb,
        forLoop_set_get _ _ _ _ _ (by
          rw [forLoop_set_length, forLoop_set_length, newVector_length]; exact hi'),
        forLoop_set_get _ _ _ _ _ (by rw [forLoop_set_length, newVector_length]; exact hi'),
        forLoop_set_get _ _ _ _ _ (by rw [newVector_length]; exact hi'),
        a_start_eq h1N, delta_start_eq, hn]
      by_cases c1 : 7 * N - 1 ≤ i
      · rw [if_pos ⟨c1, hi⟩, if_pos c1]; rfl
      · rw [if_neg (by omega), if_neg c1]
        by_cases c2 : 6 * N ≤ i
        · rw [if_pos ⟨c2, by omega⟩, if_pos c2]; rfl
        · rw [if_neg (by omega), if_neg c2, if_pos (by omega)]; rfl
    · rw [List.getD_eq_getElem?_getD, hub,
        forLoop_set_get _ _ _ _ _ (by
          rw [forLoop_set_length, forLoop_set_length, newVector_length]; exact hi'),
        forLoop_set_get _ _ _ _ _ (by rw [forLoop_set_length, newVector_length]; exact hi'),
        forLoop_set_get _ _ _ _ _ (by rw [newVector_length]; exact hi'),
        a_start_eq h1N, delta_start_eq, hn]
      by_cases c1 : 7 * N - 1 ≤ i
      · rw [if_pos ⟨c1, hi⟩, if_pos c1]; rfl
      · rw [if_neg (by omega), if_neg c1]
        by_cases c2 : 6 * N ≤ i
        · rw [if_pos ⟨c2, by omega⟩, if_pos c2]; rfl
        · rw [if_neg (by omega), if_neg c2, if_pos (by omega)]; rfl

/-- A variable vector whose actuator entries are 0 is within the variable bounds. -/
theorem satisfiesBounds_of_zero_actuators {α : Type} [LinearOrderedField α] (N : Nat)
    (h1N : 1 ≤ N) (state : List α) (junk : Nat → α) (vars : Nat → α)
    (hz : ∀ i, 6 * N ≤ i → vars i = 0) :
    satisfiesBounds (Solve_problem N state junk) vars := by
  obtain ⟨hl, hb⟩ := Solve_problem_vbounds N h1N state junk
  intro i hi
  rw [hl] at hi
  rw [(hb i hi).1, (hb i hi).2]
  by_cases c1 : 7 * N - 1 ≤ i
  · rw [if_pos c1, if_pos c1, hz i (by omega)]
    exact ⟨Or.inr (by norm_num), Or.inr (by norm_num)⟩
  · rw [if_neg c1, if_neg c1]
    by_cases c2 : 6 * N ≤ i
    · rw [if_pos c2, if_pos c2, hz i c2]
      exact ⟨Or.inr (by norm_num), Or.inr (by norm_num)⟩
    · rw [if_neg c2, if_neg c2]
      exact ⟨Or.inl (le_refl _), Or.inl (le_refl _)⟩

/-! ### The steady trajectory -/

theorem steadyVars_x {α : Type} [Field α] (N : Nat) (dt : α) (t : Nat) (ht : t < N) :
    steadyVars N dt t = 70 * dt * (t : α) := by
  simp only [steadyVars, y_start_eq, x_start]
  rw [if_pos ht]
  rfl

theorem steadyVars_v {α : Type} [Field α] (N : Nat) (dt : α) (t : Nat) (ht : t < N) :
    steadyVars N dt (3 * N + t) = 70 := by
  simp only [steadyVars, y_start_eq, v_start_eq, cte_start_eq]
  rw [if_neg (by omega), if_pos (by omega)]

theorem steadyVars_zero {α : Type} [Field α] (N : Nat) (dt : α) (i : Nat) (h1 : N ≤ i)
    (h2 : i < 3 * N ∨ 4 * N ≤ i) : steadyVars N dt i = 0 := by
  simp only [steadyVars, y_start_eq, v_start_eq, cte_start_eq]
  rw [if_neg (by omega), if_neg (by omega)]

/-- The steady trajectory is feasible for the zero polynomial and the anchor state
`(0, 0, 0, 70, 0, 0)`, and its cost is 0. -/
theorem steady_feasible {α : Type} [LinearOrderedField α] (m : Libm α) (hcos : m.cos 0 = 1)
    (hsin : m.sin 0 = 0) (hatan : m.atan 0 = 0) (N : Nat) (hN : 2 ≤ N) (dt : α)
    (junk : Nat → α) (fg : Nat → α) :
    feasible (Solve_problem N [0, 0, 0, 70, 0, 0] junk)
      (fun fg vars => FG_eval m [0, 0, 0, 0] N dt vars fg) fg (steadyVars N dt) ∧
    FG_eval m [0, 0, 0, 0] N dt (steadyVars N dt) fg 0 = 0 := by
  have h1N : 1 ≤ N := by omega
  refine ⟨⟨?_, ?_⟩, ?_⟩
  · exact satisfiesBounds_of_zero_actuators N h1N _ junk _
      (fun i hi => steadyVars_zero N dt i (by omega) (Or.inr (by omega)))
  · rw [satisfiesConstraints_iff m _ N h1N dt 0 0 0 70 0 0 junk]
    constructor
    · intro b hb
      interval_cases b
      · rw [Nat.zero_mul, steadyVars_x N dt 0 (by omega)]; simp
      · rw [steadyVars_zero N dt _ (by omega) (Or.inl (by omega))]; rfl
      · rw [steadyVars_zero N dt _ (by omega) (Or.inl (by omega))]; rfl
      · have := steadyVars_v N dt 0 (by omega)
        rw [Nat.add_zero] at this
        rw [this]; rfl
      · rw [steadyVars_zero N dt _ (by omega) (Or.inr (by omega))]; rfl
      · rw [steadyVars_zero N dt _ (by omega) (Or.inr (by omega))]; rfl
    · intro t ht1 ht2 b hb
      obtain ⟨r0, r1, r2, r3, r4, r5⟩ :=
        FG_eval_dyn m [0, 0, 0, 0] N dt (steadyVars N dt) fg t ht1 ht2
      rw [y_start_eq] at r1
      rw [psi_start_eq, v_start_eq, delta_start_eq] at r2
      rw [v_start_eq, a_start_eq h1N] at r3
      rw [cte_start_eq, v_start_eq, epsi_start_eq, y_start_eq] at r4
      rw [epsi_start_eq, psi_start_eq, v_start_eq, delta_start_eq] at r5
      rw [v_start_eq, psi_start_eq] at r0 r1
      simp only [x_start, Nat.zero_add, Nat.add_zero] at r0 r1 r2 r3 r4 r5
      have ex : (1 + t : Nat) = 1 + (0 * N + t) := by omega
      have cast : ((t - 1 : Nat) : α) = (t : α) - 1 := by
        rw [Nat.cast_sub ht1]; simp
      have vx : steadyVars N dt t = 70 * dt * (t : α) := steadyVars_x N dt t ht2
      have vx' : steadyVars N dt (t - 1) = 70 * dt * ((t : α) - 1) := by
        rw [steadyVars_x N dt (t - 1) (by omega), cast]
      have vv : steadyVars N dt (3 * N + t) = 70 := steadyVars_v N dt t ht2
      have vv' : steadyVars N dt (3 * N + t - 1) = 70 := by
        have := steadyVars_v N dt (t - 1) (by omega)
        have e : 3 * N + (t - 1) = 3 * N + t - 1 := by omega
        rw [e] at this
        exact this
      have z : ∀ i, N ≤ i → (i < 3 * N ∨ 4 * N ≤ i) → steadyVars N dt i = 0 :=
        fun i h1 h2 => steadyVars_zero N dt i h1 h2
      interval_cases b
      · rw [← ex, r0, vx, vx', vv', z _ (by omega) (Or.inl (by omega)), hcos]
        ring
      · rw [show 1 + (1 * N + t) = 1 + N + t by omega, r1, z _ (by omega) (Or.inl (by omega)), z _ (by omega) (Or.inl (by omega)), vv',
          z _ (by omega) (Or.inl (by omega)), hsin]
        ring
      · rw [show 1 + (2 * N + t) = 1 + 2 * N + t by omega, r2, z _ (by omega) (Or.inl (by omega)), z _ (by omega) (Or.inl (by omega)), vv',
          z _ (by omega) (Or.inr (by omega))]
        simp
      · rw [show 1 + (3 * N + t) = 1 + 3 * N + t by omega, r3, vv, vv', z _ (by omega) (Or.inr (by omega))]
        ring
      · rw [show 1 + (4 * N + t) = 1 + 4 * N + t by omega, r4, z _ (by omega) (Or.inr (by omega)), vx', vv',
          z (N + t - 1) (by omega) (Or.inl (by omega)),
          z (5 * N + t - 1) (by omega) (Or.inr (by omega)), hsin]
        simp
      · rw [show 1 + (5 * N + t) = 1 + 5 * N + t by omega, r5, z _ (by omega) (Or.inr (by omega)),
          z (2 * N + t - 1) (by omega) (Or.inl (by omega)), vx', vv',
          z (6 * N + t - 1) (by omega) (Or.inr (by omega))]
        simp [hatan]
  · rw [cost_eq_zero_iff m _ N hN dt]
    constructor
    · intro t ht
      rw [cte_start_eq, epsi_start_eq, v_start_eq]
      exact ⟨steadyVars_zero N dt _ (by omega) (Or.inr (by omega)),
        steadyVars_zero N dt _ (by omega) (Or.inr (by omega)), steadyVars_v N dt t ht⟩
    · intro t ht
      rw [delta_start_eq, a_start_eq h1N]
      exact ⟨steadyVars_zero N dt _ (by omega) (Or.inr (by omega)),
        steadyVars_zero N dt _ (by omega) (Or.inr (by omega))⟩

/-- A feasible vector of minimum cost has cost 0 in that problem. -/
theorem optimal_cost_zero {α : Type} [LinearOrderedField α] (m : Libm α) (hcos : m.cos 0 = 1)
    (hsin : m.sin 0 = 0) (hatan : m.atan 0 = 0) (N : Nat) (hN : 2 ≤ N) (dt : α)
    (junk : Nat → α) (fg vars : Nat → α)
    (hopt : isOptimal (Solve_problem N [0, 0, 0, 70, 0, 0] junk)
      (fun fg vars => FG_eval m [0, 0, 0, 0] N dt vars fg) fg vars) :
    FG_eval m [0, 0, 0, 0] N dt vars fg 0 = 0 := by
  obtain ⟨hf, hc⟩ := steady_feasible m hcos hsin hatan N hN dt junk fg
  have h := hopt.2 _ hf
  simp only at h
  rw [hc] at h
  exact le_antisymm h (cost_nonneg m _ N hN dt vars fg)

/-- In the problem for the zero polynomial and the anchor state `(0, 0, 0, 70, 0, 0)`, a
feasible vector of minimum cost drives straight on: `y_t = 0`, `psi_t = 0` and
`x_t = 70 dt t` at every step. -/
theorem optimal_straight {α : Type} [LinearOrderedField α] (m : Libm α) (hcos : m.cos 0 = 1)
    (hsin : m.sin 0 = 0) (hatan : m.atan 0 = 0) (N : Nat) (hN : 2 ≤ N) (dt : α)
    (junk : Nat → α) (fg vars : Nat → α)
    (hopt : isOptimal (Solve_problem N [0, 0, 0, 70, 0, 0] junk)
      (fun fg vars => FG_eval m [0, 0, 0, 0] N dt vars fg) fg vars) :
    ∀ t, t < N → vars (y_start N + t) = 0 ∧ vars (psi_start N + t) = 0 ∧
      vars (x_start + t) = 70 * dt * (t : α) := by
  have h1N : 1 ≤ N := by omega
  have hcost := optimal_cost_zero m hcos hsin hatan N hN dt junk fg vars hopt
  obtain ⟨hstate, hact⟩ := (cost_eq_zero_iff m _ N hN dt vars fg).1 hcost
  obtain ⟨hpin, _⟩ := (satisfiesConstraints_iff m _ N h1N dt 0 0 0 70 0 0 junk vars fg).1
    hopt.1.2
  have hdyn := ((satisfiesConstraints_iff m _ N h1N dt 0 0 0 70 0 0 junk vars fg).1
    hopt.1.2).2
  rw [y_start_eq, psi_start_eq, x_start]
  intro t
  induction t with
  | zero =>
    intro _
    have p0 := hpin 0 (by omega)
    have p1 := hpin 1 (by omega)
    have p2 := hpin 2 (by omega)
    simp only [Nat.zero_mul, Nat.one_mul, List.getD_cons_zero, List.getD_cons_succ] at p0 p1 p2
    simp only [Nat.add_zero, Nat.cast_zero, mul_zero]
    exact ⟨p1, p2, p0⟩
  | succ t ih =>
    intro ht
    obtain ⟨iy, ipsi, ix⟩ := ih (by omega)
    obtain ⟨r0, r1, r2, _, _, _⟩ :=
      FG_eval_dyn m [0, 0, 0, 0] N dt vars fg (t + 1) (by omega) ht
    have d0 := hdyn (t + 1) (by omega) ht 0 (by omega)
    have d1 := hdyn (t + 1) (by omega) ht 1 (by omega)
    have d2 := hdyn (t + 1) (by omega) ht 2 (by omega)
    have j0 : 1 + (0 * N + (t + 1)) = 1 + x_start + (t + 1) := by rw [x_start]; omega
    have j1 : 1 + (1 * N + (t + 1)) = 1 + y_start N + (t + 1) := by rw [y_start_eq]; omega
    have j2 : 1 + (2 * N + (t + 1)) = 1 + psi_start N + (t + 1) := by rw [psi_start_eq]; omega
    rw [j0, r0] at d0
    rw [j1, r1] at d1
    rw [j2, r2] at d2
    have hv := (hstate t (by omega)).2.2
    have hd := (hact t (by omega)).1
    rw [v_start_eq] at hv
    rw [delta_start_eq] at hd
    have k1 : N + (t + 1) - 1 = N + t := by omega
    have k2 : 2 * N + (t + 1) - 1 = 2 * N + t := by omega
    have k3 : 3 * N + (t + 1) - 1 = 3 * N + t := by omega
    have k6 : 6 * N + (t + 1) - 1 = 6 * N + t := by omega
    have k0 : 0 + (t + 1) - 1 = 0 + t := by omega
    simp only [y_start_eq, psi_start_eq, v_start_eq, delta_start_eq, x_start, k0, k1, k2, k3,
      k6, hv, hd, ipsi, iy, ix, hsin, hcos] at d0 d1 d2
    refine ⟨?_, ?_, ?_⟩
    · linear_combination d1
    · simpa using d2
    · push_cast
      linear_combination d0

/-- A QR solve that returns zeros is a least-squares solve for the way points `(0,0)`,
`(10,0)`, `(20,0)`, `(30,0)`. -/
theorem zero_leastSquares {α : Type} [LinearOrderedField α] (junk : Nat → Nat → α) :
    isLeastSquares 4 4 (designMatrix [0, 10, 20, 30] 3 junk) [0, 0, 0, 0]
      ((List.range 4).map (fun _ => (0 : α))) := by
  intro c'
  have hy : ([0, 10, 20, 30] : List α).map (polyeval [0, 0, 0, 0]) = [0, 0, 0, 0] := by
    simp [polyeval_cubic]
  have e : (List.range 4).map (fun _ => (0 : α)) = [0, 0, 0, 0] := rfl
  have h := residual_exact ([0, 10, 20, 30] : List α) junk 0 0 0 0
  rw [hy] at h
  rw [e]
  have h' : residual 4 4 (designMatrix [0, 10, 20, 30] 3 junk) [0, 0, 0, 0] [0, 0, 0, 0]
      = (0 : α) := h
  rw [h']
  exact residual_nonneg _ _ _ _ _

/-! ### The record of the assigned entries -/

/-- A recording loop runs the loop it records and appends what each iteration records. -/
theorem forLoop_record {σ : Type} (body : Nat → σ → σ)
    (bodyT : Nat → σ × List Nat → σ × List Nat) (w : Nat → List Nat)
    (h : ∀ t s, bodyT t s = (body t s.1, s.2 ++ w t)) (lo hi : Nat) (s : σ × List Nat) :
    forLoop lo hi bodyT s =
      (forLoop lo hi body s.1, s.2 ++ (List.range' lo (hi - lo)).flatMap w) := by
  unfold forLoop
  generalize List.range' lo (hi - lo) = l
  induction l generalizing s with
  | nil => simp
  | cons t l ih =>
    rw [List.foldl_cons, ih, h, List.foldl_cons, List.flatMap_cons, List.append_assoc]

/-- The cost part of the recording `FG_eval` records entry 0 only. -/
theorem FG_eval_costT_record {α : Type} [Field α] (N : Nat) (vars : Nat → α)
    (s : (Nat → α) × List Nat) :
    (FG_eval_costT N vars s).1 =
      forLoop 0 (size_sub N 2) (costGapBody N vars)
        (forLoop 0 (size_sub N 1) (costActBody N vars)
          (forLoop 0 N (costRefBody N vars) (assign s.1 0 0))) ∧
    ∃ r : List Nat, (FG_eval_costT N vars s).2 = s.2 ++ 0 :: r ∧ ∀ k, k ∈ r → k = 0 := by
  have h1 : ∀ t (s : (Nat → α) × List Nat),
      costRefBodyT N vars t s = (costRefBody N vars t s.1, s.2 ++ [0, 0, 0]) := by
    intro t s
    simp [costRefBodyT, costRefBody, assignT, List.append_assoc]
  have h2 : ∀ t (s : (Nat → α) × List Nat),
      costActBodyT N vars t s = (costActBody N vars t s.1, s.2 ++ [0, 0]) := by
    intro t s
    simp [costActBodyT, costActBody, assignT, List.append_assoc]
  have h3 : ∀ t (s : (Nat → α) × List Nat),
      costGapBodyT N vars t s = (costGapBody N vars t s.1, s.2 ++ [0, 0]) := by
    intro t s
    simp [costGapBodyT, costGapBody, assignT, List.append_assoc]
  unfold FG_eval_costT
  simp only
  rw [forLoop_record _ _ _ h1, forLoop_record _ _ _ h2, forLoop_record _ _ _ h3]
  refine ⟨rfl, ?_⟩
  refine ⟨(List.range' 0 (N - 0)).flatMap (fun _ => [0, 0, 0]) ++
    ((List.range' 0 (size_sub N 1 - 0)).flatMap (fun _ => [0, 0]) ++
      (List.range' 0 (size_sub N 2 - 0)).flatMap (fun _ => [0, 0])), ?_, ?_⟩
  · simp [assignT, List.append_assoc]
  · intro k hk
    simp only [List.mem_append, List.mem_flatMap, List.mem_cons, List.mem_singleton,
      List.not_mem_nil, or_false, or_self] at hk
    rcases hk with ⟨_, _, h⟩ | ⟨_, _, h⟩ | ⟨_, _, h⟩ <;> exact h

/-- The entries the constraint part of `FG_eval` assigns for horizon `N`, in the order of
the assignments: the six of the first step, then six per iteration of the loop. -/
theorem FG_eval_constraintsT_record {α : Type} [Field α] (m : Libm α) (coeffs : List α)
    (N : Nat) (dt : α) (vars : Nat → α) (s : (Nat → α) × List Nat) :
    (FG_eval_constraintsT m coeffs N dt vars s).1 =
      forLoop 1 N (dynBody m coeffs N dt vars)
        (assign (assign (assign (assign (assign (assign s.1 (1 + x_start) (vars x_start))
          (1 + y_start N) (vars (y_start N))) (1 + psi_start N) (vars (psi_start N)))
          (1 + v_start N) (vars (v_start N))) (1 + cte_start N) (vars (cte_start N)))
          (1 + epsi_start N) (vars (epsi_start N))) ∧
    (FG_eval_constraintsT m coeffs N dt vars s).2 =
      s.2 ++ ([1 + x_start, 1 + y_start N, 1 + psi_start N, 1 + v_start N, 1 + cte_start N,
          1 + epsi_start N] ++
        (List.range' 1 (N - 1)).flatMap (fun t =>
          [1 + x_start + t, 1 + y_start N + t, 1 + psi_start N + t, 1 + v_start N + t,
            1 + cte_start N + t, 1 + epsi_start N + t])) := by
  have h : ∀ t (s : (Nat → α) × List Nat),
      dynBodyT m coeffs N dt vars t s = (dynBody m coeffs N dt vars t s.1,
        s.2 ++ [1 + x_start + t, 1 + y_start N + t, 1 + psi_start N + t, 1 + v_start N + t,
            1 + cte_start N + t, 1 + epsi_start N + t]) := by
    intro t s
    simp [dynBodyT, dynBody, assignT, List.append_assoc]
  unfold FG_eval_constraintsT
  simp only
  rw [forLoop_record _ _ _ h]
  simp [assignT, List.append_assoc]

/-- The recording `FG_eval` computes what `FG_eval` computes. -/
theorem FG_evalT_fst {α : Type} [Field α] (m : Libm α) (coeffs : List α) (N : Nat) (dt : α)
    (vars fg : Nat → α) :
    (FG_evalT m coeffs N dt vars fg).1 = FG_eval m coeffs N dt vars fg := by
  unfold FG_evalT
  rw [(FG_eval_constraintsT_record m coeffs N dt vars _).1,
    (FG_eval_costT_record N vars (fg, [])).1]
  rfl

/-- The constraint record of horizon `N ≥ 1` holds exactly the entries `1, ..., 6N`. -/
theorem constraint_record_mem (N : Nat) (h1N : 1 ≤ N) (k : Nat) :
    k ∈ ([1 + x_start, 1 + y_start N, 1 + psi_start N, 1 + v_start N, 1 + cte_start N,
          1 + epsi_start N] ++
        (List.range' 1 (N - 1)).flatMap (fun t =>
          [1 + x_start + t, 1 + y_start N + t, 1 + psi_start N + t, 1 + v_start N + t,
            1 + cte_start N + t, 1 + epsi_start N + t])) ↔ 1 ≤ k ∧ k ≤ 6 * N := by
  rw [y_start_eq, psi_start_eq, v_start_eq, cte_start_eq, epsi_start_eq, x_start]
  simp only [List.mem_append, List.mem_flatMap, List.mem_cons, List.mem_singleton,
    List.not_mem_nil, or_false, List.mem_range'_1]
  constructor
  · rintro (h | ⟨t, ⟨ht1, ht2⟩, h⟩)
    · omega
    · omega
  · rintro ⟨hk1, hk2⟩
    have hb : (k - 1) / N < 6 := by
      rw [Nat.div_lt_iff_lt_mul (by omega)]; omega
    have ht : (k - 1) % N < N := Nat.mod_lt _ (by omega)
    have hkeq : k - 1 = N * ((k - 1) / N) + (k - 1) % N := (Nat.div_add_mod (k - 1) N).symm
    generalize (k - 1) / N = b at hb hkeq
    generalize (k - 1) % N = t at ht hkeq
    by_cases c : t = 0
    · left
      interval_cases b <;> omega
    · right
      refine ⟨t, by omega, ?_⟩
      interval_cases b <;> omega

/-- The constraint record of horizon `N ≥ 1` has `6N` entries, six of the first step and
six for each of the `N - 1` iterations of the loop. -/
theorem constraint_record_length (N : Nat) (h1N : 1 ≤ N) :
    ((List.range' 1 (N - 1)).flatMap (fun t =>
          [1 + x_start + t, 1 + y_start N + t, 1 + psi_start N + t, 1 + v_start N + t,
            1 + cte_start N + t, 1 + epsi_start N + t])).length = 6 * (N - 1) ∧
    ([1 + x_start, 1 + y_start N, 1 + psi_start N, 1 + v_start N, 1 + cte_start N,
          1 + epsi_start N] ++
        (List.range' 1 (N - 1)).flatMap (fun t =>
          [1 + x_start + t, 1 + y_start N + t, 1 + psi_start N + t, 1 + v_start N + t,
            1 + cte_start N + t, 1 + epsi_start N + t])).length = 6 * N := by
  have h : ∀ l : List Nat, (l.flatMap (fun t =>
          [1 + x_start + t, 1 + y_start N + t, 1 + psi_start N + t, 1 + v_start N + t,
            1 + cte_start N + t, 1 + epsi_start N + t])).length = 6 * l.length := by
    intro l
    induction l with
    | nil => rfl
    | cons a l ih =>
      rw [List.flatMap_cons, List.length_append, ih, List.length_cons]
      simp only [List.length_cons, List.length_nil]
      omega
  constructor
  · rw [h, List.length_range']
  · rw [List.length_append, h, List.length_range']
    simp only [List.length_cons, List.length_nil]
    omega

/-- No entry occurs twice in the constraint record. -/
theorem constraint_record_nodup (N : Nat) (h1N : 1 ≤ N) :
    ([1 + x_start, 1 + y_start N, 1 + psi_start N, 1 + v_start N, 1 + cte_start N,
          1 + epsi_start N] ++
        (List.range' 1 (N - 1)).flatMap (fun t =>
          [1 + x_start + t, 1 + y_start N + t, 1 + psi_start N + t, 1 + v_start N + t,
            1 + cte_start N + t, 1 + epsi_start N + t])).Nodup := by
  rw [← Multiset.coe_nodup, ← Multiset.toFinset_card_eq_card_iff_nodup, Multiset.coe_card,
    (constraint_record_length N h1N).2]
  have e : (Multiset.toFinset (↑([1 + x_start, 1 + y_start N, 1 + psi_start N, 1 + v_start N,
      1 + cte_start N, 1 + epsi_start N] ++
        (List.range' 1 (N - 1)).flatMap (fun t =>
          [1 + x_start + t, 1 + y_start N + t, 1 + psi_start N + t, 1 + v_start N + t,
            1 + cte_start N + t, 1 + epsi_start N + t])) : Multiset Nat)) =
      Finset.Icc 1 (6 * N) := by
    ext k
    rw [Multiset.mem_toFinset, Multiset.mem_coe, constraint_record_mem N h1N, Finset.mem_Icc]
  rw [e, Nat.card_Icc]
  omega

/-! ### The indices the program uses -/

/-- A loop that appends to a list appends what its iterations append, in order. -/
theorem forLoop_append (w : Nat → List Nat) (lo hi : Nat) (r : List Nat) :
    forLoop lo hi (fun t r => r ++ w t) r = r ++ (List.range' lo (hi - lo)).flatMap w := by
  unfold forLoop
  generalize List.range' lo (hi - lo) = l
  induction l generalizing r with
  | nil => simp
  | cons t l ih => rw [List.foldl_cons, ih, List.flatMap_cons, List.append_assoc]

/-- Two loops whose bodies agree in every iteration agree. -/
theorem forLoop_congr {σ : Type} (body body' : Nat → σ → σ) (lo hi : Nat) (s : σ)
    (h : ∀ t, lo ≤ t → t < hi → ∀ s, body t s = body' t s) :
    forLoop lo hi body s = forLoop lo hi body' s := by
  unfold forLoop
  have : ∀ (l : List Nat) (s : σ), (∀ t, t ∈ l → ∀ s, body t s = body' t s) →
      l.foldl (fun s i => body i s) s = l.foldl (fun s i => body' i s) s := by
    intro l
    induction l with
    | nil => intro s _; rfl
    | cons t l ih =>
      intro s hl
      rw [List.foldl_cons, List.foldl_cons, hl t (List.mem_cons_self _ _),
        ih _ (fun u hu => hl u (List.mem_cons_of_mem _ hu))]
  apply this
  intro t ht
  rw [List.mem_range'_1] at ht
  exact h t ht.1 (by omega)

/-- The entries of `vars` that `FG_eval` reads, loop by loop. -/
theorem FG_eval_reads_mem (N i : Nat) :
    i ∈ FG_eval_reads N ↔
      (∃ t, t < N ∧ i ∈ costRefReads N t) ∨
      (∃ t, t < size_sub N 1 ∧ i ∈ costActReads N t) ∨
      (∃ t, t < size_sub N 2 ∧ i ∈ costGapReads N t) ∨
      i ∈ pinIndices N ∨
      (∃ t, 1 ≤ t ∧ t < N ∧ i ∈ dynReads N t) := by
  unfold FG_eval_reads
  simp only [forLoop_append, List.nil_append, List.mem_append, List.mem_flatMap,
    List.mem_range'_1, Nat.sub_zero, Nat.zero_add, Nat.zero_le, true_and]
  have key : (∃ a, (1 ≤ a ∧ a < 1 + (N - 1)) ∧ i ∈ dynReads N a) ↔
      (∃ t, 1 ≤ t ∧ t < N ∧ i ∈ dynReads N t) := by
    constructor
    · rintro ⟨t, ⟨h1, h2⟩, h3⟩
      exact ⟨t, h1, by omega, h3⟩
    · rintro ⟨t, h1, h2, h3⟩
      exact ⟨t, ⟨h1, by omega⟩, h3⟩
  have prop : ∀ (A B C D E : Prop), ((((A ∨ B) ∨ C) ∨ D) ∨ E) ↔ (A ∨ B ∨ C ∨ D ∨ E) := by
    intros; tauto
  rw [key]
  exact prop _ _ _ _ _

/-- The result of `FG_eval` depends on `vars` through the entries of `FG_eval_reads` only. -/
theorem FG_eval_reads_complete {α : Type} [Field α] (m : Libm α) (coeffs : List α) (N : Nat)
    (dt : α) (vars vars' fg : Nat → α) (h : ∀ i, i ∈ FG_eval_reads N → vars i = vars' i) :
    FG_eval m coeffs N dt vars fg = FG_eval m coeffs N dt vars' fg := by
  have h1 : ∀ t, t < N → ∀ i, i ∈ costRefReads N t → vars i = vars' i :=
    fun t ht i hi => h i ((FG_eval_reads_mem N i).2 (Or.inl ⟨t, ht, hi⟩))
  have h2 : ∀ t, t < size_sub N 1 → ∀ i, i ∈ costActReads N t → vars i = vars' i :=
    fun t ht i hi => h i ((FG_eval_reads_mem N i).2 (Or.inr (Or.inl ⟨t, ht, hi⟩)))
  have h3 : ∀ t, t < size_sub N 2 → ∀ i, i ∈ costGapReads N t → vars i = vars' i :=
    fun t ht i hi => h i ((FG_eval_reads_mem N i).2 (Or.inr (Or.inr (Or.inl ⟨t, ht, hi⟩))))
  have h4 : ∀ i, i ∈ pinIndices N → vars i = vars' i :=
    fun i hi => h i ((FG_eval_reads_mem N i).2 (Or.inr (Or.inr (Or.inr (Or.inl hi)))))
  have h5 : ∀ t, 1 ≤ t → t < N → ∀ i, i ∈ dynReads N t → vars i = vars' i :=
    fun t ht1 ht2 i hi =>
      h i ((FG_eval_reads_mem N i).2 (Or.inr (Or.inr (Or.inr (Or.inr ⟨t, ht1, ht2, hi⟩)))))
  have e1 : forLoop 0 N (costRefBody N vars) (assign fg 0 0) =
      forLoop 0 N (costRefBody N vars') (assign fg 0 0) := by
    apply forLoop_congr
    intro t _ ht s
    have := h1 t ht
    simp only [costRefReads, List.mem_cons, List.mem_singleton, List.not_mem_nil, or_false,
      forall_eq_or_imp, forall_eq] at this
    simp only [costRefBody, this.1, this.2.1, this.2.2]
  have e2 : ∀ s, forLoop 0 (size_sub N 1) (costActBody N vars) s =
      forLoop 0 (size_sub N 1) (costActBody N vars') s := by
    intro s
    apply forLoop_congr
    intro t _ ht s
    have := h2 t ht
    simp only [costActReads, List.mem_cons, List.mem_singleton, List.not_mem_nil, or_false,
      forall_eq_or_imp, forall_eq] at this
    simp only [costActBody, this.1, this.2]
  have e3 : ∀ s, forLoop 0 (size_sub N 2) (costGapBody N vars) s =
      forLoop 0 (size_sub N 2) (costGapBody N vars') s := by
    intro s
    apply forLoop_congr
    intro t _ ht s
    have := h3 t ht
    simp only [costGapReads, List.mem_cons, List.mem_singleton, List.not_mem_nil, or_false,
      forall_eq_or_imp, forall_eq] at this
    simp only [costGapBody, this.1, this.2.1, this.2.2.1, this.2.2.2]
  have e5 : ∀ s, forLoop 1 N (dynBody m coeffs N dt vars) s =
      forLoop 1 N (dynBody m coeffs N dt vars') s := by
    intro s
    apply forLoop_congr
    intro t ht1 ht2 s
    have := h5 t ht1 ht2
    simp only [dynReads, List.mem_cons, List.mem_singleton, List.not_mem_nil, or_false,
      forall_eq_or_imp, forall_eq] at this
    obtain ⟨a1, a2, a3, a4, a5, a6, a7, a8, a9, a10, _, a12, a13, a14⟩ := this
    simp only [dynBody, a1, a2, a3, a4, a5, a6, a7, a8, a9, a10, a12, a13, a14]
  simp only [pinIndices, List.mem_cons, List.mem_singleton, List.not_mem_nil, or_false,
    forall_eq_or_imp, forall_eq] at h4
  obtain ⟨p0, p1, p2, p3, p4, p5⟩ := h4
  simp only [FG_eval]
  rw [e1, e2, e3, e5, p0, p1, p2, p3, p4, p5]

/-! ## Theorems -/

/-- C1: for every horizon `N ≥ 2` the offsets are `0, N, ..., 6N, 7N - 1`; the blocks
are six of length `N` followed by two of length `N - 1`, each starting where the
previous one ends and the last one ending at `n_vars = 6N + 2(N-1)`; every index
below `n_vars` lies in exactly one block and every index of a block is below `n_vars`. -/
theorem layout_partition (N : Nat) (hN : 2 ≤ N) :
    n_vars N = 6 * N + 2 * (N - 1) ∧
    blockStarts N = [0, N, 2 * N, 3 * N, 4 * N, 5 * N, 6 * N, 6 * N + (N - 1)] ∧
    blockLengths N = [N, N, N, N, N, N, N - 1, N - 1] ∧
    (∀ b, b < 7 →
      (blockStarts N).getD (b + 1) 0 = (blockStarts N).getD b 0 + (blockLengths N).getD b 0) ∧
    (blockStarts N).getD 7 0 + (blockLengths N).getD 7 0 = n_vars N ∧
    (∀ i, i < n_vars N → ∃ b, b < 8 ∧ inBlock N b i ∧ ∀ c, c < 8 → inBlock N c i → c = b) ∧
    (∀ b i, b < 8 → inBlock N b i → i < n_vars N) := by
  have h1 : size_sub N 1 = N - 1 := size_sub_of_le (by omega)
  have hs := blockStarts_eq (show 1 ≤ N by omega)
  have hl := blockLengths_eq (show 1 ≤ N by omega)
  have hn : n_vars N = 6 * N + 2 * (N - 1) := by
    simp only [n_vars, n_state, n_actuator, h1]
  refine ⟨hn, hs, hl, ?_, ?_, ?_, ?_⟩
  · intro b hb
    rw [hs, hl]
    interval_cases b <;> simp <;> omega
  · rw [hs, hl, hn]
    simp
    omega
  · intro i hi
    rw [hn] at hi
    have key : ∀ c, c < 8 → (inBlock N c i ↔
        ([0, N, 2 * N, 3 * N, 4 * N, 5 * N, 6 * N, 6 * N + (N - 1)].getD c 0 ≤ i ∧
          i < [0, N, 2 * N, 3 * N, 4 * N, 5 * N, 6 * N, 6 * N + (N - 1)].getD c 0 +
            [N, N, N, N, N, N, N - 1, N - 1].getD c 0)) :=
      fun c _ => inBlock_iff (by omega) c i
    by_cases c1 : i < N
    · refine ⟨0, by omega, (key 0 (by omega)).2 (by simp; omega), ?_⟩
      intro c hc hin
      have := (key c hc).1 hin
      interval_cases c <;> simp at this <;> omega
    by_cases c2 : i < 2 * N
    · refine ⟨1, by omega, (key 1 (by omega)).2 (by simp; omega), ?_⟩
      intro c hc hin
      have := (key c hc).1 hin
      interval_cases c <;> simp at this <;> omega
    by_cases c3 : i < 3 * N
    · refine ⟨2, by omega, (key 2 (by omega)).2 (by simp; omega), ?_⟩
      intro c hc hin
      have := (key c hc).1 hin
      interval_cases c <;> simp at this <;> omega
    by_cases c4 : i < 4 * N
    · refine ⟨3, by omega, (key 3 (by omega)).2 (by simp; omega), ?_⟩
      intro c hc hin
      have := (key c hc).1 hin
      interval_cases c <;> simp at this <;> omega
    by_cases c5 : i < 5 * N
    · refine ⟨4, by omega, (key 4 (by omega)).2 (by simp; omega), ?_⟩
      intro c hc hin
      have := (key c hc).1 hin
      interval_cases c <;> simp at this <;> omega
    by_cases c6 : i < 6 * N
    · refine ⟨5, by omega, (key 5 (by omega)).2 (by simp; omega), ?_⟩
      intro c hc hin
      have := (key c hc).1 hin
      interval_cases c <;> simp at this <;> omega
    by_cases c7 : i < 6 * N + (N - 1)
    · refine ⟨6, by omega, (key 6 (by omega)).2 (by simp; omega), ?_⟩
      intro c hc hin
      have := (key c hc).1 hin
      interval_cases c <;> simp at this <;> omega
    · refine ⟨7, by omega, (key 7 (by omega)).2 (by simp; omega), ?_⟩
      intro c hc hin
      have := (key c hc).1 hin
      interval_cases c <;> simp at this <;> omega
  · intro b i hb hin
    unfold inBlock at hin
    rw [hs, hl] at hin
    rw [hn]
    interval_cases b <;> simp at hin <;> omega

/-- Witness of C1 at the horizon of the source, `N = 10`. -/
theorem layout_partition_witness :
    2 ≤ 10 ∧ n_vars 10 = 6 * 10 + 2 * (10 - 1) ∧
    blockStarts 10 = [0, 10, 20, 30, 40, 50, 60, 69] :=
  ⟨by decide, (layout_partition 10 (by decide)).1, (layout_partition 10 (by decide)).2.1⟩


/-- C2: for every horizon `N ≥ 2`, every `vars`, coefficients `(c0, c1, c2, c3)` and step
`1 ≤ t ≤ N - 1`, the six values `FG_eval` leaves in `fg[1 + start + t]` are the residuals
of the kinematic model between the state at `t` and the prediction from step `t - 1`,
with `f(x) = c0 + c1 x + c2 x^2 + c3 x^3` and `f'(x) = c1 + 2 c2 x + 3 c3 x^2`, every
component read from its own block of `vars`. -/
theorem dynamics_residuals {α : Type} [Field α] (m : Libm α) (N : Nat) (hN : 2 ≤ N) (dt : α)
    (vars fg : Nat → α) (c0 c1 c2 c3 : α) (t : Nat) (ht1 : 1 ≤ t) (ht2 : t ≤ N - 1) :
    let g := FG_eval m [c0, c1, c2, c3] N dt vars fg
    let x := fun s => vars (x_start + s)
    let y := fun s => vars (y_start N + s)
    let psi := fun s => vars (psi_start N + s)
    let v := fun s => vars (v_start N + s)
    let cte := fun s => vars (cte_start N + s)
    let epsi := fun s => vars (epsi_start N + s)
    let delta := fun s => vars (delta_start N + s)
    let a := fun s => vars (a_start N + s)
    let f := fun z : α => c0 + c1 * z + c2 * z ^ 2 + c3 * z ^ 3
    let f' := fun z : α => c1 + 2 * c2 * z + 3 * c3 * z ^ 2
    g (1 + x_start + t) = x t - (x (t - 1) + v (t - 1) * m.cos (psi (t - 1)) * dt) ∧
    g (1 + y_start N + t) = y t - (y (t - 1) + v (t - 1) * m.sin (psi (t - 1)) * dt) ∧
    g (1 + psi_start N + t) =
      psi t - (psi (t - 1) + v (t - 1) / Lf * (-delta (t - 1)) * dt) ∧
    g (1 + v_start N + t) = v t - (v (t - 1) + a (t - 1) * dt) ∧
    g (1 + cte_start N + t) =
      cte t - (f (x (t - 1)) - y (t - 1) + v (t - 1) * m.sin (epsi (t - 1)) * dt) ∧
    g (1 + epsi_start N + t) =
      epsi t - (psi (t - 1) - m.atan (f' (x (t - 1))) + v (t - 1) / Lf * (-delta (t - 1)) * dt) := by
  intro g x y psi v cte epsi delta a f f'
  have e : ∀ s, s + t - 1 = s + (t - 1) := fun s => by omega
  have h1N : 1 ≤ N := by omega
  have htN : t < N := by omega
  have key : ∀ b, b < 6 → ∀ w, (∀ g', dynBody m [c0, c1, c2, c3] N dt vars t g'
      (1 + b * N + t) = w) → g (1 + b * N + t) = w := by
    intro b hb w hw
    exact dynLoop_hit m [c0, c1, c2, c3] N dt vars t b _ w ht1 htN hb hw
  have i0 : 1 + x_start + t = 1 + 0 * N + t := by rw [x_start]; omega
  have i1 : 1 + y_start N + t = 1 + 1 * N + t := by rw [y_start_eq]; omega
  have i2 : 1 + psi_start N + t = 1 + 2 * N + t := by rw [psi_start_eq]
  have i3 : 1 + v_start N + t = 1 + 3 * N + t := by rw [v_start_eq]
  have i4 : 1 + cte_start N + t = 1 + 4 * N + t := by rw [cte_start_eq]
  have i5 : 1 + epsi_start N + t = 1 + 5 * N + t := by rw [epsi_start_eq]
  refine ⟨?_, ?_, ?_, ?_, ?_, ?_⟩
  · rw [i0, key 0 (by omega) _ (fun g' => (dynBody_hit m _ N dt vars t g' h1N).1)]
    simp only [x, v, psi, e]
  · rw [i1, key 1 (by omega) _ (fun g' => (dynBody_hit m _ N dt vars t g' h1N).2.1)]
    simp only [y, v, psi, e]
  · rw [i2, key 2 (by omega) _ (fun g' => (dynBody_hit m _ N dt vars t g' h1N).2.2.1)]
    simp only [v, psi, delta, e]
    ring
  · rw [i3, key 3 (by omega) _ (fun g' => (dynBody_hit m _ N dt vars t g' h1N).2.2.2.1)]
    simp only [v, a, e]
  · rw [i4, key 4 (by omega) _ (fun g' => (dynBody_hit m _ N dt vars t g' h1N).2.2.2.2.1)]
    simp only [x, y, v, cte, epsi, f, e, List.getD_cons_zero, List.getD_cons_succ]
  · rw [i5, key 5 (by omega) _ (fun g' => (dynBody_hit m _ N dt vars t g' h1N).2.2.2.2.2)]
    simp only [x, v, psi, epsi, delta, f', e, List.getD_cons_zero, List.getD_cons_succ]
    ring

/-- Witness of C2: horizon 2, step 1, over the rationals. -/
theorem dynamics_residuals_witness :
    2 ≤ 2 ∧ 1 ≤ 1 ∧ 1 ≤ 2 - 1 ∧
    FG_eval exLibm [1, 2, 3, 4] 2 (1 / 10) exVars exFg (1 + x_start + 1) =
      exVars (x_start + 1) - (exVars (x_start + (1 - 1)) +
        exVars (v_start 2 + (1 - 1)) * exLibm.cos (exVars (psi_start 2 + (1 - 1))) * (1 / 10)) :=
  ⟨by decide, by decide, by decide,
    (dynamics_residuals exLibm 2 (by decide) (1 / 10) exVars exFg 1 2 3 4 1 (by decide)
      (by decide)).1⟩

/-- C3: for every horizon `N ≥ 2` and every `vars`, the cost `FG_eval` leaves in `fg[0]`
is the sum over `t < N` of `2000 cte_t^2 + 2000 epsi_t^2 + 1 (v_t - 70)^2`, plus the sum
over `t < N - 1` of `10 delta_t^2 + 10 a_t^2`, plus the sum over `t < N - 2` of
`100 (delta_{t+1} - delta_t)^2 + 100 (a_{t+1} - a_t)^2`, whatever `fg` held before. -/
theorem cost_formula {α : Type} [Field α] [CharZero α] (m : Libm α) (coeffs : List α)
    (N : Nat) (hN : 2 ≤ N) (dt : α) (vars fg : Nat → α) :
    FG_eval m coeffs N dt vars fg 0 =
      (∑ t in Finset.range N,
        (2000 * vars (cte_start N + t) ^ 2 + 2000 * vars (epsi_start N + t) ^ 2
          + 1 * (vars (v_start N + t) - 70) ^ 2))
      + (∑ t in Finset.range (N - 1),
        (10 * vars (delta_start N + t) ^ 2 + 10 * vars (a_start N + t) ^ 2))
      + (∑ t in Finset.range (N - 2),
        (100 * (vars (delta_start N + (t + 1)) - vars (delta_start N + t)) ^ 2
          + 100 * (vars (a_start N + (t + 1)) - vars (a_start N + t)) ^ 2)) := by
  have hdyn : ∀ g : Nat → α, forLoop 1 N (dynBody m coeffs N dt vars) g 0 = g 0 := by
    intro g
    apply forLoop_keep
    intro t _ _ g'
    apply dynBody_keep
    intro b _
    omega
  have href : ∀ t (g : Nat → α), costRefBody N vars t g 0 = g 0 +
      (2000 * vars (cte_start N + t) ^ 2 + 2000 * vars (epsi_start N + t) ^ 2
          + 1 * (vars (v_start N + t) - 70) ^ 2) := by
    intro t g
    simp only [costRefBody, assign, if_true, weight_cte, weight_epsi, weight_v, ref_v]
    norm_num
    ring
  have hact : ∀ t (g : Nat → α), costActBody N vars t g 0 = g 0 +
      (10 * vars (delta_start N + t) ^ 2 + 10 * vars (a_start N + t) ^ 2) := by
    intro t g
    simp only [costActBody, assign, if_true, weight_delta, weight_a]
    norm_num
    ring
  have hgap : ∀ t (g : Nat → α), costGapBody N vars t g 0 = g 0 +
      (100 * (vars (delta_start N + (t + 1)) - vars (delta_start N + t)) ^ 2
          + 100 * (vars (a_start N + (t + 1)) - vars (a_start N + t)) ^ 2) := by
    intro t g
    simp only [costGapBody, assign, if_true, weight_delta_diff, weight_a_diff, Nat.add_assoc]
    norm_num
    ring
  simp only [FG_eval]
  rw [hdyn]
  simp only [assign]
  rw [if_neg (by omega), if_neg (by omega), if_neg (by omega), if_neg (by omega),
    if_neg (by omega), if_neg (by omega), size_sub_of_le (show 2 ≤ N from hN),
    size_sub_of_le (show 1 ≤ N by omega), forLoop_sum _ _ hgap, forLoop_sum _ _ hact,
    forLoop_sum _ _ href]
  simp [assign]

/-- Witness of C3: horizon 2 over the rationals. -/
theorem cost_formula_witness :
    2 ≤ 2 ∧ FG_eval exLibm [1, 2, 3, 4] 2 (1 / 10) exVars exFg 0 =
      (∑ t in Finset.range 2,
        (2000 * exVars (cte_start 2 + t) ^ 2 + 2000 * exVars (epsi_start 2 + t) ^ 2
          + 1 * (exVars (v_start 2 + t) - 70) ^ 2))
      + (∑ t in Finset.range (2 - 1),
        (10 * exVars (delta_start 2 + t) ^ 2 + 10 * exVars (a_start 2 + t) ^ 2))
      + (∑ t in Finset.range (2 - 2),
        (100 * (exVars (delta_start 2 + (t + 1)) - exVars (delta_start 2 + t)) ^ 2
          + 100 * (exVars (a_start 2 + (t + 1)) - exVars (a_start 2 + t)) ^ 2)) :=
  ⟨by decide, cost_formula exLibm [1, 2, 3, 4] 2 (by decide) (1 / 10) exVars exFg⟩

/-- C4: for every horizon `N ≥ 2` and every anchor state, the constraint-bound vectors
have `6N` entries; for each of the six state components the entry of `fg` for the pinning
constraint is the component's first-step variable, and its lower and upper bound are the
anchor value; every other constraint has lower and upper bound 0; hence a variable vector
whose constraint values lie within the bounds has the anchor state as its first-step
state. -/
theorem initial_state_pin {α : Type} [LinearOrderedField α] (m : Libm α) (coeffs : List α)
    (N : Nat) (hN : 2 ≤ N) (dt : α) (x y psi v cte epsi : α) (junk : Nat → α) :
    (Solve_problem N [x, y, psi, v, cte, epsi] junk).constraints_lowerbound.length = 6 * N ∧
    (Solve_problem N [x, y, psi, v, cte, epsi] junk).constraints_upperbound.length = 6 * N ∧
    (∀ vars fg : Nat → α,
      FG_eval m coeffs N dt vars fg (1 + x_start) = vars x_start ∧
      FG_eval m coeffs N dt vars fg (1 + y_start N) = vars (y_start N) ∧
      FG_eval m coeffs N dt vars fg (1 + psi_start N) = vars (psi_start N) ∧
      FG_eval m coeffs N dt vars fg (1 + v_start N) = vars (v_start N) ∧
      FG_eval m coeffs N dt vars fg (1 + cte_start N) = vars (cte_start N) ∧
      FG_eval m coeffs N dt vars fg (1 + epsi_start N) = vars (epsi_start N)) ∧
    (∀ j, j < 6 →
      (Solve_problem N [x, y, psi, v, cte, epsi] junk).constraints_lowerbound[
          [x_start, y_start N, psi_start N, v_start N, cte_start N, epsi_start N].getD j 0]? =
        [x, y, psi, v, cte, epsi][j]? ∧
      (Solve_problem N [x, y, psi, v, cte, epsi] junk).constraints_upperbound[
          [x_start, y_start N, psi_start N, v_start N, cte_start N, epsi_start N].getD j 0]? =
        [x, y, psi, v, cte, epsi][j]?) ∧
    (∀ k, k < 6 * N → k ≠ x_start → k ≠ y_start N → k ≠ psi_start N → k ≠ v_start N →
      k ≠ cte_start N → k ≠ epsi_start N →
      (Solve_problem N [x, y, psi, v, cte, epsi] junk).constraints_lowerbound[k]? = some 0 ∧
      (Solve_problem N [x, y, psi, v, cte, epsi] junk).constraints_upperbound[k]? = some 0) ∧
    (∀ vars fg : Nat → α,
      satisfiesConstraints (Solve_problem N [x, y, psi, v, cte, epsi] junk)
        (FG_eval m coeffs N dt vars fg) →
      [vars x_start, vars (y_start N), vars (psi_start N), vars (v_start N),
        vars (cte_start N), vars (epsi_start N)] = [x, y, psi, v, cte, epsi]) := by
  have h1N : 1 ≤ N := by omega
  have hcl : (Solve_problem N [x, y, psi, v, cte, epsi] junk).constraints_lowerbound =
      ((((((forLoop 0 (n_constraints N) (fun i w => w.set i (0 : α))
        (newVector (n_constraints N) junk)).set x_start x).set (y_start N) y).set
          (psi_start N) psi).set (v_start N) v).set (cte_start N) cte).set
            (epsi_start N) epsi := by
    simp only [Solve_problem, forLoop_boundsBody, List.getD_cons_zero, List.getD_cons_succ]
  have hcu : (Solve_problem N [x, y, psi, v, cte, epsi] junk).constraints_upperbound =
      ((((((forLoop 0 (n_constraints N) (fun i w => w.set i (0 : α))
        (newVector (n_constraints N) junk)).set x_start x).set (y_start N) y).set
          (psi_start N) psi).set (v_start N) v).set (cte_start N) cte).set
            (epsi_start N) epsi := by
    simp only [Solve_problem, forLoop_boundsBody, List.getD_cons_zero, List.getD_cons_succ]
  have hl : (forLoop 0 (n_constraints N) (fun i w => w.set i (0 : α))
      (newVector (n_constraints N) junk)).length = 6 * N := by
    rw [forLoop_set_length, newVector_length, n_constraints, n_state]
  have hz : ∀ i, i < 6 * N → (forLoop 0 (n_constraints N) (fun i w => w.set i (0 : α))
      (newVector (n_constraints N) junk))[i]? = some 0 := by
    intro i hi
    have hi' : i < n_constraints N := by rw [n_constraints, n_state]; exact hi
    rw [forLoop_set_get _ _ _ _ _ (by rw [newVector_length]; exact hi'), if_pos (by omega)]
  have get := pin_get _ N h1N (le_of_eq hl.symm) x y psi v cte epsi
  have hlenl : (Solve_problem N [x, y, psi, v, cte, epsi] junk).constraints_lowerbound.length
      = 6 * N := by
    rw [hcl]; simp only [List.length_set]; exact hl
  have hlenu : (Solve_problem N [x, y, psi, v, cte, epsi] junk).constraints_upperbound.length
      = 6 * N := by
    rw [hcu]; simp only [List.length_set]; exact hl
  have pins : ∀ j, j < 6 →
      (Solve_problem N [x, y, psi, v, cte, epsi] junk).constraints_lowerbound[
          [x_start, y_start N, psi_start N, v_start N, cte_start N, epsi_start N].getD j 0]? =
        [x, y, psi, v, cte, epsi][j]? ∧
      (Solve_problem N [x, y, psi, v, cte, epsi] junk).constraints_upperbound[
          [x_start, y_start N, psi_start N, v_start N, cte_start N, epsi_start N].getD j 0]? =
        [x, y, psi, v, cte, epsi][j]? := by
    intro j hj
    rw [hcl, hcu]
    interval_cases j <;>
    · simp only [List.getD_cons_zero, List.getD_cons_succ]
      rw [get]
      simp only [y_start_eq, psi_start_eq, v_start_eq, cte_start_eq, epsi_start_eq, x_start]
      split_ifs <;> first | omega | exact ⟨rfl, rfl⟩
  refine ⟨hlenl, hlenu, FG_eval_pin m coeffs N h1N dt, pins, ?_, ?_⟩
  · intro k hk k0 k1 k2 k3 k4 k5
    rw [y_start_eq] at k1
    rw [psi_start_eq] at k2
    rw [v_start_eq] at k3
    rw [cte_start_eq] at k4
    rw [epsi_start_eq] at k5
    rw [x_start] at k0
    rw [hcl, hcu, get, if_neg k5, if_neg k4, if_neg k3, if_neg k2, if_neg k1, if_neg k0,
      hz k hk]
    exact ⟨rfl, rfl⟩
  · intro vars fg hsat
    obtain ⟨e0, e1, e2, e3, e4, e5⟩ := FG_eval_pin m coeffs N h1N dt vars fg
    have pin : ∀ j, j < 6 → ∀ (s : Nat) (a : α),
        [x_start, y_start N, psi_start N, v_start N, cte_start N, epsi_start N].getD j 0 = s →
        [x, y, psi, v, cte, epsi][j]? = some a → s < 6 * N →
        FG_eval m coeffs N dt vars fg (1 + s) = a := by
      intro j hj s a hs ha hlt
      obtain ⟨pl, pu⟩ := pins j hj
      rw [hs, ha] at pl pu
      have hb := hsat s (by rw [hlenl]; exact hlt)
      rw [List.getD_eq_getElem?_getD, List.getD_eq_getElem?_getD, pl, pu] at hb
      exact le_antisymm hb.2 hb.1
    have p0 := pin 0 (by omega) x_start x rfl rfl (by rw [x_start]; omega)
    have p1 := pin 1 (by omega) (y_start N) y rfl rfl (by rw [y_start_eq]; omega)
    have p2 := pin 2 (by omega) (psi_start N) psi rfl rfl (by rw [psi_start_eq]; omega)
    have p3 := pin 3 (by omega) (v_start N) v rfl rfl (by rw [v_start_eq]; omega)
    have p4 := pin 4 (by omega) (cte_start N) cte rfl rfl (by rw [cte_start_eq]; omega)
    have p5 := pin 5 (by omega) (epsi_start N) epsi rfl rfl (by rw [epsi_start_eq]; omega)
    rw [← e0, ← e1, ← e2, ← e3, ← e4, ← e5, p0, p1, p2, p3, p4, p5]

/-- Witness of C4: horizon 2 over the rationals, the pin of the speed. -/
theorem initial_state_pin_witness :
    2 ≤ 2 ∧
    (Solve_problem 2 [1, 2, 3, 4, 5, (6 : ℚ)] exVars).constraints_lowerbound[
        [x_start, y_start 2, psi_start 2, v_start 2, cte_start 2, epsi_start 2].getD 3 0]? =
      [1, 2, 3, 4, 5, (6 : ℚ)][3]? ∧
    (Solve_problem 2 [1, 2, 3, 4, 5, (6 : ℚ)] exVars).constraints_upperbound[
        [x_start, y_start 2, psi_start 2, v_start 2, cte_start 2, epsi_start 2].getD 3 0]? =
      [1, 2, 3, 4, 5, (6 : ℚ)][3]? :=
  ⟨by decide,
    (initial_state_pin exLibm [1, 2, 3, 4] 2 (by decide) (1 / 10) 1 2 3 4 5 6 exVars).2.2.2.1
      3 (by decide)⟩

/-- C5: for every horizon `N ≥ 2` both variable-bound vectors have `n_vars` entries; an
index of one of the six state blocks gets `-1e19` and `1e19`, an index of the steering
block `-0.436332` and `0.436332`, an index of the throttle block `-1` and `1`; so every
index below `n_vars` gets one of these three pairs, and the three pairs differ. -/
theorem variable_bounds {α : Type} [Field α] [CharZero α] (N : Nat) (hN : 2 ≤ N)
    (state : List α) (junk : Nat → α) :
    (Solve_problem N state junk).vars_lowerbound.length = n_vars N ∧
    (Solve_problem N state junk).vars_upperbound.length = n_vars N ∧
    (∀ b i, b < 6 → inBlock N b i →
      (Solve_problem N state junk).vars_lowerbound[i]? = some (-1e19 : α) ∧
      (Solve_problem N state junk).vars_upperbound[i]? = some (1e19 : α)) ∧
    (∀ i, inBlock N 6 i →
      (Solve_problem N state junk).vars_lowerbound[i]? = some (-0.436332 : α) ∧
      (Solve_problem N state junk).vars_upperbound[i]? = some (0.436332 : α)) ∧
    (∀ i, inBlock N 7 i →
      (Solve_problem N state junk).vars_lowerbound[i]? = some (-1 : α) ∧
      (Solve_problem N state junk).vars_upperbound[i]? = some (1 : α)) ∧
    (∀ i, i < n_vars N →
      ((Solve_problem N state junk).vars_lowerbound[i]? = some (-1e19 : α) ∧
        (Solve_problem N state junk).vars_upperbound[i]? = some (1e19 : α)) ∨
      ((Solve_problem N state junk).vars_lowerbound[i]? = some (-0.436332 : α) ∧
        (Solve_problem N state junk).vars_upperbound[i]? = some (0.436332 : α)) ∨
      ((Solve_problem N state junk).vars_lowerbound[i]? = some (-1 : α) ∧
        (Solve_problem N state junk).vars_upperbound[i]? = some (1 : α))) ∧
    (1e19 : α) ≠ 0.436332 ∧ (1e19 : α) ≠ 1 ∧ (0.436332 : α) ≠ 1 := by
  have h1N : 1 ≤ N := by omega
  have hn := n_vars_eq h1N
  have hlb : (Solve_problem N state junk).vars_lowerbound =
      forLoop (a_start N) (n_vars N) (fun i v => v.set i (-1.0))
        (forLoop (delta_start N) (a_start N) (fun i v => v.set i (-0.436332))
          (forLoop 0 (delta_start N) (fun i v => v.set i (-1.0e19))
            (newVector (n_vars N) junk))) := by
    simp only [Solve_problem, forLoop_boundsBody]
  have hub : (Solve_problem N state junk).vars_upperbound =
      forLoop (a_start N) (n_vars N) (fun i v => v.set i 1.0)
        (forLoop (delta_start N) (a_start N) (fun i v => v.set i 0.436332)
          (forLoop 0 (delta_start N) (fun i v => v.set i 1.0e19)
            (newVector (n_vars N) junk))) := by
    simp only [Solve_problem, forLoop_boundsBody]
  have hlen1 : (Solve_problem N state junk).vars_lowerbound.length = n_vars N := by
    rw [hlb, forLoop_set_length, forLoop_set_length, forLoop_set_length, newVector_length]
  have hlen2 : (Solve_problem N state junk).vars_upperbound.length = n_vars N := by
    rw [hub, forLoop_set_length, forLoop_set_length, forLoop_set_length, newVector_length]
  have getl : ∀ i, i < n_vars N → (Solve_problem N state junk).vars_lowerbound[i]? =
      if 7 * N - 1 ≤ i then some (-1) else if 6 * N ≤ i then some (-0.436332)
        else some (-1e19) := by
    intro i hi
    rw [hlb, forLoop_set_get _ _ _ _ _ (by
        rw [forLoop_set_length, forLoop_set_length, newVector_length]; exact hi),
      forLoop_set_get _ _ _ _ _ (by rw [forLoop_set_length, newVector_length]; exact hi),
      forLoop_set_get _ _ _ _ _ (by rw [newVector_length]; exact hi),
      a_start_eq h1N, delta_start_eq]
    by_cases c1 : 7 * N - 1 ≤ i
    · rw [if_pos ⟨c1, hi⟩, if_pos c1]; norm_num
    · rw [if_neg (by omega), if_neg c1]
      by_cases c2 : 6 * N ≤ i
      · rw [if_pos ⟨c2, by omega⟩, if_pos c2]
      · rw [if_neg (by omega), if_neg c2, if_pos (by omega)]; norm_num
  have getu : ∀ i, i < n_vars N → (Solve_problem N state junk).vars_upperbound[i]? =
      if 7 * N - 1 ≤ i then some 1 else if 6 * N ≤ i then some 0.436332
        else some 1e19 := by
    intro i hi
    rw [hub, forLoop_set_get _ _ _ _ _ (by
        rw [forLoop_set_length, forLoop_set_length, newVector_length]; exact hi),
      forLoop_set_get _ _ _ _ _ (by rw [forLoop_set_length, newVector_length]; exact hi),
      forLoop_set_get _ _ _ _ _ (by rw [newVector_length]; exact hi),
      a_start_eq h1N, delta_start_eq]
    by_cases c1 : 7 * N - 1 ≤ i
    · rw [if_pos ⟨c1, hi⟩, if_pos c1]; norm_num
    · rw [if_neg (by omega), if_neg c1]
      by_cases c2 : 6 * N ≤ i
      · rw [if_pos ⟨c2, by omega⟩, if_pos c2]
      · rw [if_neg (by omega), if_neg c2, if_pos (by omega)]; norm_num
  refine ⟨hlen1, hlen2, ?_, ?_, ?_, ?_, by norm_num, by norm_num, by norm_num⟩
  · intro b i hb hin
    rw [inBlock_iff h1N] at hin
    have hi : i < 6 * N := by interval_cases b <;> simp at hin <;> omega
    rw [getl i (by omega), getu i (by omega), if_neg (by omega), if_neg (by omega),
      if_neg (by omega), if_neg (by omega)]
    exact ⟨rfl, rfl⟩
  · intro i hin
    rw [inBlock_iff h1N] at hin
    simp at hin
    rw [getl i (by omega), getu i (by omega), if_neg (by omega), if_pos (by omega),
      if_neg (by omega), if_pos (by omega)]
    exact ⟨rfl, rfl⟩
  · intro i hin
    rw [inBlock_iff h1N] at hin
    simp at hin
    rw [getl i (by omega), getu i (by omega), if_pos (by omega), if_pos (by omega)]
    exact ⟨rfl, rfl⟩
  · intro i hi
    rw [getl i hi, getu i hi]
    by_cases c1 : 7 * N - 1 ≤ i
    · rw [if_pos c1, if_pos c1]; exact Or.inr (Or.inr ⟨rfl, rfl⟩)
    · rw [if_neg c1, if_neg c1]
      by_cases c2 : 6 * N ≤ i
      · rw [if_pos c2, if_pos c2]; exact Or.inr (Or.inl ⟨rfl, rfl⟩)
      · rw [if_neg c2, if_neg c2]; exact Or.inl ⟨rfl, rfl⟩

/-- Witness of C5: horizon 2, the first steering variable. -/
theorem variable_bounds_witness :
    2 ≤ 2 ∧ inBlock 2 6 12 ∧
    (Solve_problem 2 [1, 2, 3, 4, 5, (6 : ℚ)] exVars).vars_lowerbound[12]? = some (-0.436332 : ℚ) ∧
    (Solve_problem 2 [1, 2, 3, 4, 5, (6 : ℚ)] exVars).vars_upperbound[12]? = some (0.436332 : ℚ) :=
  ⟨by decide, by decide,
    (variable_bounds 2 (by decide) [1, 2, 3, 4, 5, 6] exVars).2.2.2.1 12 (by decide)⟩

/-- C6: for every horizon `N ≥ 2` and every anchor state the initial guess has `n_vars`
entries; the entries at `x_start`, `y_start`, `psi_start`, `v_start`, `cte_start` and
`epsi_start` hold the anchor state's x, y, heading, speed, cte and epsi, and every other
entry is zero. -/
theorem initial_guess {α : Type} [Field α] (N : Nat) (hN : 2 ≤ N)
    (x y psi v cte epsi : α) (junk : Nat → α) :
    (Solve_problem N [x, y, psi, v, cte, epsi] junk).vars.length = n_vars N ∧
    (Solve_problem N [x, y, psi, v, cte, epsi] junk).vars[x_start]? = some x ∧
    (Solve_problem N [x, y, psi, v, cte, epsi] junk).vars[y_start N]? = some y ∧
    (Solve_problem N [x, y, psi, v, cte, epsi] junk).vars[psi_start N]? = some psi ∧
    (Solve_problem N [x, y, psi, v, cte, epsi] junk).vars[v_start N]? = some v ∧
    (Solve_problem N [x, y, psi, v, cte, epsi] junk).vars[cte_start N]? = some cte ∧
    (Solve_problem N [x, y, psi, v, cte, epsi] junk).vars[epsi_start N]? = some epsi ∧
    (∀ i, i < n_vars N → i ≠ x_start → i ≠ y_start N → i ≠ psi_start N → i ≠ v_start N →
      i ≠ cte_start N → i ≠ epsi_start N →
      (Solve_problem N [x, y, psi, v, cte, epsi] junk).vars[i]? = some 0) := by
  have h1N : 1 ≤ N := by omega
  have hn := n_vars_eq h1N
  have hv : (Solve_problem N [x, y, psi, v, cte, epsi] junk).vars =
      ((((((forLoop 0 (n_vars N) (fun i vars => vars.set i (0 : α))
        (newVector (n_vars N) junk)).set x_start x).set (y_start N) y).set
          (psi_start N) psi).set (v_start N) v).set (cte_start N) cte).set
            (epsi_start N) epsi := by
    simp only [Solve_problem, List.getD_cons_zero, List.getD_cons_succ]
  have hl : (forLoop 0 (n_vars N) (fun i vars => vars.set i (0 : α))
      (newVector (n_vars N) junk)).length = n_vars N := by
    rw [forLoop_set_length, newVector_length]
  have hz : ∀ i, i < n_vars N → (forLoop 0 (n_vars N) (fun i vars => vars.set i (0 : α))
      (newVector (n_vars N) junk))[i]? = some 0 := by
    intro i hi
    rw [forLoop_set_get _ _ _ _ _ (by rw [newVector_length]; exact hi), if_pos (by omega)]
  have get := pin_get _ N h1N (by rw [hl]; omega) x y psi v cte epsi
  rw [hv]
  refine ⟨by simp only [List.length_set]; exact hl, ?_, ?_, ?_, ?_, ?_, ?_, ?_⟩
  · rw [get, x_start, if_neg (by omega), if_neg (by omega), if_neg (by omega),
      if_neg (by omega), if_neg (by omega), if_pos rfl]
  · rw [get, y_start_eq, if_neg (by omega), if_neg (by omega), if_neg (by omega),
      if_neg (by omega), if_pos rfl]
  · rw [get, psi_start_eq, if_neg (by omega), if_neg (by omega), if_neg (by omega),
      if_pos rfl]
  · rw [get, v_start_eq, if_neg (by omega), if_neg (by omega), if_pos rfl]
  · rw [get, cte_start_eq, if_neg (by omega), if_pos rfl]
  · rw [get, epsi_start_eq, if_pos rfl]
  · intro i hi i0 i1 i2 i3 i4 i5
    rw [y_start_eq] at i1
    rw [psi_start_eq] at i2
    rw [v_start_eq] at i3
    rw [cte_start_eq] at i4
    rw [epsi_start_eq] at i5
    rw [x_start] at i0
    rw [get, if_neg i5, if_neg i4, if_neg i3, if_neg i2, if_neg i1, if_neg i0, hz i hi]

/-- Witness of C6: horizon 2 over the rationals. -/
theorem initial_guess_witness :
    2 ≤ 2 ∧ (Solve_problem 2 [1, 2, 3, 4, 5, (6 : ℚ)] exVars).vars[v_start 2]? = some 4 :=
  ⟨by decide, (initial_guess 2 (by decide) 1 2 3 4 5 6 exVars).2.2.2.2.1⟩

/-- C7: for every horizon `N ≥ 2` and every solution vector `sol` of `6N + 2(N-1)` entries
that the solver returns, the vector `MPC::Solve` returns has `2 + 2N` entries, which are
`sol[delta_start]`, `sol[a_start]` and then `sol[x_start + i]`, `sol[y_start + i]` for
`i < N`; `main` decodes from it the steering value `sol[delta_start]`, the throttle value
`sol[a_start]` and two lists of exactly `N` entries, the `i`-th being `sol[x_start + i]`
and `sol[y_start + i]`. -/
theorem control_extraction {α : Type} [Field α]
    (ipopt : Problem α → ((Nat → α) → (Nat → α) → (Nat → α)) → solve_result α)
    (m : Libm α) (N : Nat) (hN : 2 ≤ N) (dt : α) (state coeffs : List α) (junk : Nat → α)
    (sol : List α)
    (hsol : (ipopt (Solve_problem N state junk)
      (fun fg vars => FG_eval m coeffs N dt vars fg)).x = sol)
    (hlen : sol.length = 6 * N + 2 * (N - 1)) :
    (Solve ipopt m N dt state coeffs junk).length = 2 + 2 * N ∧
    (Solve ipopt m N dt state coeffs junk)[0]? = sol[delta_start N]? ∧
    (Solve ipopt m N dt state coeffs junk)[1]? = sol[a_start N]? ∧
    (∀ i, i < N →
      (Solve ipopt m N dt state coeffs junk)[2 + 2 * i]? = sol[x_start + i]? ∧
      (Solve ipopt m N dt state coeffs junk)[3 + 2 * i]? = sol[y_start N + i]?) ∧
    some (decode (Solve ipopt m N dt state coeffs junk)).steer_value = sol[delta_start N]? ∧
    some (decode (Solve ipopt m N dt state coeffs junk)).throttle_value = sol[a_start N]? ∧
    (decode (Solve ipopt m N dt state coeffs junk)).mpc_x_vals.length = N ∧
    (decode (Solve ipopt m N dt state coeffs junk)).mpc_y_vals.length = N ∧
    (∀ i, i < N →
      (decode (Solve ipopt m N dt state coeffs junk)).mpc_x_vals[i]? = sol[x_start + i]? ∧
      (decode (Solve ipopt m N dt state coeffs junk)).mpc_y_vals[i]? = sol[y_start N + i]?) := by
  have h1N : 1 ≤ N := by omega
  have inr : ∀ k, k < 8 * N - 2 → sol[k]? = some (sol.getD k 0) := by
    intro k hk
    have hk' : k < sol.length := by rw [hlen]; omega
    rw [List.getD_eq_getElem?_getD, List.getElem?_eq_getElem hk']
    rfl
  have hS : Solve ipopt m N dt state coeffs junk =
      forLoop 0 N (fun i r => (r ++ [sol.getD (x_start + i) 0]) ++ [sol.getD (y_start N + i) 0])
        [sol.getD (delta_start N) 0, sol.getD (a_start N) 0] := by
    simp only [Solve, Solve_result, hsol, List.nil_append, List.singleton_append]
  obtain ⟨plen, pold, pnew⟩ := pushLoop_spec (fun i => sol.getD (x_start + i) 0)
    (fun i => sol.getD (y_start N + i) 0) N
    [sol.getD (delta_start N) 0, sol.getD (a_start N) 0]
  rw [← hS] at plen pold pnew
  simp only [List.length_cons, List.length_nil] at plen pold pnew
  have hlenR : (Solve ipopt m N dt state coeffs junk).length = 2 + 2 * N := by
    rw [plen]
  have r0 : (Solve ipopt m N dt state coeffs junk)[0]? = sol[delta_start N]? := by
    rw [pold 0 (by omega), inr _ (by rw [delta_start_eq]; omega)]
    rfl
  have r1 : (Solve ipopt m N dt state coeffs junk)[1]? = sol[a_start N]? := by
    rw [pold 1 (by omega), inr _ (by rw [a_start_eq h1N]; omega)]
    rfl
  have rxy : ∀ i, i < N →
      (Solve ipopt m N dt state coeffs junk)[2 + 2 * i]? = sol[x_start + i]? ∧
      (Solve ipopt m N dt state coeffs junk)[3 + 2 * i]? = sol[y_start N + i]? := by
    intro i hi
    obtain ⟨h1, h2⟩ := pnew i hi
    have e1 : 0 + 1 + 1 + 2 * i = 2 + 2 * i := by omega
    have e2 : 0 + 1 + 1 + 2 * i + 1 = 3 + 2 * i := by omega
    rw [e1] at h1
    rw [e2] at h2
    rw [h1, h2, inr _ (by rw [x_start]; omega), inr _ (by rw [y_start_eq]; omega)]
    exact ⟨rfl, rfl⟩
  have hdec := decodeLoop_spec (Solve ipopt m N dt state coeffs junk) N hlenR N 0 (by omega)
    [] []
  simp only [Nat.mul_zero, Nat.add_zero, List.nil_append] at hdec
  have getD_of : ∀ (k : Nat) (o : Option α),
      (Solve ipopt m N dt state coeffs junk)[k]? = o → k < 2 + 2 * N →
      some ((Solve ipopt m N dt state coeffs junk).getD k 0) = o := by
    intro k o ho hk
    have hk' : k < (Solve ipopt m N dt state coeffs junk).length := by rw [hlenR]; exact hk
    rw [← ho, List.getD_eq_getElem?_getD, List.getElem?_eq_getElem hk']
    rfl
  refine ⟨hlenR, r0, r1, rxy, ?_, ?_, ?_, ?_, ?_⟩
  · exact getD_of 0 _ r0 (by omega)
  · exact getD_of 1 _ r1 (by omega)
  · simp only [decode, hdec, List.length_map, List.length_range']
  · simp only [decode, hdec, List.length_map, List.length_range']
  · intro i hi
    simp only [decode, hdec, List.getElem?_map]
    rw [List.getElem?_range' _ _ hi]
    simp only [Option.map_some', Nat.one_mul, Nat.zero_add]
    constructor
    · exact getD_of _ _ (rxy i hi).1 (by omega)
    · have e : 2 + 2 * i + 1 = 3 + 2 * i := by omega
      rw [e]
      exact getD_of _ _ (rxy i hi).2 (by omega)

/-- Witness of C7: horizon 2, with a solver that reports success and returns the vector
with entries 0, 1, ..., 13. -/
theorem control_extraction_witness :
    2 ≤ 2 ∧
    (Solve (fun _ _ => ⟨true, (List.range 14).map (fun i => (i : ℚ))⟩) exLibm 2 (1 / 10)
      [1, 2, 3, 4, 5, 6] [1, 2, 3, 4] exVars)[0]? =
      ((List.range 14).map (fun i => (i : ℚ)))[delta_start 2]? :=
  ⟨by decide,
    (control_extraction (fun _ _ => ⟨true, (List.range 14).map (fun i => (i : ℚ))⟩) exLibm 2
      (by decide) (1 / 10) [1, 2, 3, 4, 5, 6] [1, 2, 3, 4] exVars
      ((List.range 14).map (fun i => (i : ℚ))) rfl (by decide)).2.1⟩

/-- C8: for every state before the projection, previous steering `delta`, previous
throttle `a` and latency `L`, the projection is `x + v cos(psi) L`, `y + v sin(psi) L`,
`psi + (v/Lf)(-delta) L`, `v + a L`, `cte + v sin(epsi) L`, `epsi + (v/Lf)(-delta) L` with
`Lf = 2.67`; for `x = y = psi = 0` the first three are `v L`, `0` and `-(v/Lf) delta L`. -/
theorem latency_projection (x y psi v cte epsi delta a L : ℝ) :
    project ⟨Real.cos, Real.sin, Real.arctan⟩ x y psi v cte epsi delta a L =
      [x + v * Real.cos psi * L, y + v * Real.sin psi * L, psi + (v / 2.67) * (-delta) * L,
        v + a * L, cte + v * Real.sin epsi * L, epsi + (v / 2.67) * (-delta) * L] ∧
    project ⟨Real.cos, Real.sin, Real.arctan⟩ 0 0 0 v cte epsi delta a L =
      [v * L, 0, -(v / 2.67) * delta * L,
        v + a * L, cte + v * Real.sin epsi * L, epsi + (v / 2.67) * (-delta) * L] := by
  constructor
  · rfl
  · simp only [project, Real.cos_zero, Real.sin_zero]
    congr 1
    · ring
    congr 1
    · ring
    congr 1
    · ring

/-- C9: with latency 0 the projection returns the state it was given, in all six
components, whatever the previous steering and throttle are. -/
theorem latency_zero_identity {α : Type} [Field α] (m : Libm α)
    (x y psi v cte epsi delta a : α) :
    project m x y psi v cte epsi delta a 0 = [x, y, psi, v, cte, epsi] := by
  simp [project]

/-- C10: for every pose `(px, py, psi)` and every list of way points, rotating each
transformed point by `+psi` and translating it by `(px, py)` gives the way points back;
the transform of a point is a bijection of the plane, so two different way points never
have the same image. -/
theorem transform_invertible (pts : List (ℝ × ℝ)) (px py psi : ℝ) (junk : Nat → ℝ) :
    List.zipWith
        (fun u w => inverseTransformSpec ⟨Real.cos, Real.sin, Real.arctan⟩ px py psi (u, w))
        (transform ⟨Real.cos, Real.sin, Real.arctan⟩ (pts.map Prod.fst) (pts.map Prod.snd)
          px py psi junk).1
        (transform ⟨Real.cos, Real.sin, Real.arctan⟩ (pts.map Prod.fst) (pts.map Prod.snd)
          px py psi junk).2 = pts ∧
    Function.Bijective
      (fun w : ℝ × ℝ => toCar ⟨Real.cos, Real.sin, Real.arctan⟩ px py psi w.1 w.2) ∧
    (∀ w1 w2 : ℝ × ℝ, w1 ≠ w2 →
      toCar ⟨Real.cos, Real.sin, Real.arctan⟩ px py psi w1.1 w1.2 ≠
        toCar ⟨Real.cos, Real.sin, Real.arctan⟩ px py psi w2.1 w2.2) := by
  obtain ⟨hinv, hinv'⟩ := toCar_inverse px py psi
  have hinj : Function.Injective
      (fun w : ℝ × ℝ => toCar ⟨Real.cos, Real.sin, Real.arctan⟩ px py psi w.1 w.2) := by
    intro w1 w2 h
    have h1 := hinv w1.1 w1.2
    have h2 := hinv w2.1 w2.2
    simp only at h
    rw [h] at h1
    rw [h1] at h2
    exact h2
  refine ⟨?_, ⟨hinj, ?_⟩, ?_⟩
  · have hlen : (pts.map Prod.fst).length = (pts.map Prod.snd).length := by
      rw [List.length_map, List.length_map]
    rw [transform_eq_map _ _ _ hlen]
    simp only
    rw [zipWith_map_same]
    have e : pts = (List.range (pts.map Prod.fst).length).map
        (fun i => ((pts.map Prod.fst).getD i 0, (pts.map Prod.snd).getD i 0)) := by
      rw [← List.zip_map']
      rw [map_getD_range]
      rw [hlen, map_getD_range, List.zip_map', List.map_id']
    conv_rhs => rw [e]
    apply List.map_congr_left
    intro i _
    exact hinv _ _
  · intro q
    exact ⟨_, hinv' q⟩
  · intro w1 w2 hne h
    exact hne (hinj h)

/-- C11: for every pose `(px, py, psi)` the transformed lists are as long as the list of
way points and hold, in the same order, each way point translated by `(-px, -py)` and
rotated by `-psi`, which is `((wx-px) cos psi + (wy-py) sin psi,
-(wx-px) sin psi + (wy-py) cos psi)`; the position of the vehicle maps to the origin. -/
theorem transform_formula (pts : List (ℝ × ℝ)) (px py psi : ℝ) (junk : Nat → ℝ) :
    (transform ⟨Real.cos, Real.sin, Real.arctan⟩ (pts.map Prod.fst) (pts.map Prod.snd)
      px py psi junk).1.length = pts.length ∧
    (transform ⟨Real.cos, Real.sin, Real.arctan⟩ (pts.map Prod.fst) (pts.map Prod.snd)
      px py psi junk).2.length = pts.length ∧
    (∀ (i : Nat) (w : ℝ × ℝ), pts[i]? = some w →
      (transform ⟨Real.cos, Real.sin, Real.arctan⟩ (pts.map Prod.fst) (pts.map Prod.snd)
        px py psi junk).1[i]? =
          some ((w.1 - px) * Real.cos psi + (w.2 - py) * Real.sin psi) ∧
      (transform ⟨Real.cos, Real.sin, Real.arctan⟩ (pts.map Prod.fst) (pts.map Prod.snd)
        px py psi junk).2[i]? =
          some (-(w.1 - px) * Real.sin psi + (w.2 - py) * Real.cos psi)) ∧
    (∀ wx wy : ℝ, toCar ⟨Real.cos, Real.sin, Real.arctan⟩ px py psi wx wy =
      ((wx - px) * Real.cos (-psi) - (wy - py) * Real.sin (-psi),
       (wx - px) * Real.sin (-psi) + (wy - py) * Real.cos (-psi))) ∧
    toCar ⟨Real.cos, Real.sin, Real.arctan⟩ px py psi px py = (0, 0) := by
  have hlen : (pts.map Prod.fst).length = (pts.map Prod.snd).length := by
    rw [List.length_map, List.length_map]
  rw [transform_eq_map _ _ _ hlen]
  refine ⟨by simp, by simp, ?_, ?_, ?_⟩
  · intro i w hw
    have hi : i < pts.length := by
      by_contra h
      rw [List.getElem?_eq_none (by omega)] at hw
      exact Option.noConfusion hw
    have h1 : (pts.map Prod.fst).getD i 0 = w.1 := by
      rw [List.getD_eq_getElem?_getD, List.getElem?_map, hw]; rfl
    have h2 : (pts.map Prod.snd).getD i 0 = w.2 := by
      rw [List.getD_eq_getElem?_getD, List.getElem?_map, hw]; rfl
    simp only [List.getElem?_map, List.length_map]
    rw [List.getElem?_range hi]
    simp only [Option.map_some', h1, h2, toCar]
    exact ⟨trivial, trivial⟩
  · intro wx wy
    simp only [toCar, Real.cos_neg, Real.sin_neg]
    apply Prod.ext <;> simp only <;> ring
  · simp [toCar]

/-- C13 fails: a solver outcome with a status other than success and a successful one with
the same final variables make `MPC::Solve` return the same vector, so what it returns does
not tell the caller which of the two happened. -/
theorem solve_failure_counterexample :
    (⟨false, [0, 1, 2, 3, 4, 5, 6, 7, 8, 9, 10, 11, 12, 13]⟩ : solve_result ℚ).status_is_success
      ≠ (⟨true, [0, 1, 2, 3, 4, 5, 6, 7, 8, 9, 10, 11, 12, 13]⟩ :
        solve_result ℚ).status_is_success ∧
    Solve (fun _ _ => ⟨false, [0, 1, 2, 3, 4, 5, 6, 7, 8, 9, 10, 11, 12, 13]⟩) exLibm 2 (1 / 10)
        [1, 2, 3, 4, 5, 6] [1, 2, 3, 4] exVars =
      Solve (fun _ _ => ⟨true, [0, 1, 2, 3, 4, 5, 6, 7, 8, 9, 10, 11, 12, 13]⟩) exLibm 2 (1 / 10)
        [1, 2, 3, 4, 5, 6] [1, 2, 3, 4] exVars ∧
    Solve (fun _ _ => ⟨false, [0, 1, 2, 3, 4, 5, 6, 7, 8, 9, 10, 11, 12, 13]⟩) exLibm 2 (1 / 10)
        [1, 2, 3, 4, 5, 6] [1, 2, 3, 4] exVars = [12, 13, 0, 2, 1, 3] := by
  refine ⟨by decide, rfl, by decide⟩

/-- C13 as amended: `MPC::Solve` has no result for a failed solve.  Whatever status the
solver reports, the vector returned is built from the final variable vector of the solver
alone, so outcomes with the same final variables give the same result. -/
theorem solve_status_discarded {α : Type} [Field α]
    (ipopt : Problem α → ((Nat → α) → (Nat → α) → (Nat → α)) → solve_result α)
    (m : Libm α) (N : Nat) (dt : α) (state coeffs : List α) (junk : Nat → α) (x : List α) :
    Solve ipopt m N dt state coeffs junk =
      Solve_result N (ipopt (Solve_problem N state junk)
        (fun fg vars => FG_eval m coeffs N dt vars fg)).x ∧
    Solve (fun _ _ => ⟨false, x⟩) m N dt state coeffs junk =
      Solve (fun _ _ => ⟨true, x⟩) m N dt state coeffs junk :=
  ⟨rfl, rfl⟩

/-- C14: for lists `xvals`, `yvals` of equal length, the second assert of `polyfit` with
order 3 holds exactly when there are at least 4 entries; with fewer than 4 entries
`polyfit` does not return coefficients, and with at least 4 it returns a vector of 4
coefficients. -/
theorem polyfit_insufficient_points {α : Type} [Field α]
    (qr : Nat → Nat → (Nat → Nat → α) → List α → Nat → α)
    (xvals yvals : List α) (junk : Nat → Nat → α) (hlen : xvals.length = yvals.length) :
    (((3 : Int) ≥ 1 ∧ (3 : Int) ≤ (xvals.length : Int) - 1) ↔ 4 ≤ xvals.length) ∧
    (xvals.length < 4 → polyfit qr xvals yvals 3 junk = none) ∧
    (4 ≤ xvals.length →
      ∃ c, polyfit qr xvals yvals 3 junk = some c ∧ c.length = 4) := by
  refine ⟨by omega, ?_, ?_⟩
  · intro h
    unfold polyfit
    rw [if_neg (by rw [hlen]; exact fun h => h rfl), if_pos (by omega)]
  · intro h
    exact ⟨_, polyfit_some qr xvals yvals junk hlen h, by simp⟩

/-- Witness of C14: three points are rejected. -/
theorem polyfit_insufficient_points_witness :
    [0, 10, (20 : ℚ)].length = [0, 0, (0 : ℚ)].length ∧
    polyfit exQr [0, 10, 20] [0, 0, 0] 3 (fun _ _ => 0) = none :=
  ⟨rfl, (polyfit_insufficient_points exQr [0, 10, 20] [0, 0, 0] (fun _ _ => 0) rfl).2.1
    (by decide)⟩

/-- C15 fails: four way points with the same x-value make the design matrix rank-deficient
(its columns are all equal), and `polyfit` returns a coefficient vector all the same. -/
theorem polyfit_degenerate_counterexample :
    4 ≤ [1, 1, 1, (1 : ℚ)].length ∧ [1, 1, 1, (1 : ℚ)].toFinset.card < 4 ∧
    (∀ j, j < 4 → ∀ i, i < 4 → designMatrix [1, 1, 1, (1 : ℚ)] 3 (fun _ _ => 0) j i = 1) ∧
    polyfit exQr [1, 1, 1, 1] [1, 2, 3, 4] 3 (fun _ _ => 0) = some [0, 0, 0, 0] := by
  refine ⟨by decide, by decide, ?_, by decide⟩
  intro j hj i hi
  rw [designMatrix_entry [1, 1, 1, (1 : ℚ)] 3 (fun _ _ => 0) j i hj (by omega)]
  have : [1, 1, 1, (1 : ℚ)].getD j 0 = 1 := by
    interval_cases j <;> rfl
  rw [this, one_pow]

/-- C15 as amended: `polyfit` has no check of the rank.  For at least 4 x-values with fewer
than 4 distinct values among them, and as many y-values, it reports no failure: it returns
the 4 entries that the QR solve yields for the rank-deficient design matrix. -/
theorem polyfit_no_rank_check {α : Type} [Field α] [DecidableEq α]
    (qr : Nat → Nat → (Nat → Nat → α) → List α → Nat → α)
    (xvals yvals : List α) (junk : Nat → Nat → α) (hlen : xvals.length = yvals.length)
    (h4 : 4 ≤ xvals.length) (_hdeg : xvals.toFinset.card < 4) :
    ∃ c, polyfit qr xvals yvals 3 junk = some c ∧ c.length = 4 ∧
      c = (List.range 4).map (qr xvals.length 4 (designMatrix xvals 3 junk) yvals) :=
  ⟨_, polyfit_some qr xvals yvals junk hlen h4, by simp, rfl⟩

/-- Witness of C15 as amended. -/
theorem polyfit_no_rank_check_witness :
    [1, 1, 1, (1 : ℚ)].length = [1, 2, 3, (4 : ℚ)].length ∧ 4 ≤ [1, 1, 1, (1 : ℚ)].length ∧
    [1, 1, 1, (1 : ℚ)].toFinset.card < 4 ∧
    ∃ c, polyfit exQr [1, 1, 1, 1] [1, 2, 3, 4] 3 (fun _ _ => 0) = some c ∧ c.length = 4 ∧
      c = (List.range 4).map
        (exQr [1, 1, 1, (1 : ℚ)].length 4 (designMatrix [1, 1, 1, 1] 3 (fun _ _ => 0))
          [1, 2, 3, 4]) :=
  ⟨rfl, by decide, by decide,
    polyfit_no_rank_check exQr [1, 1, 1, 1] [1, 2, 3, 4] (fun _ _ => 0) rfl (by decide)
      (by decide)⟩

/-- C16: the steering command `main` sends is the steering value divided by
`deg2rad(25) = 25 pi / 180`, and for a steering value within the variable bound
`-0.436332 ≤ s ≤ 0.436332` it lies in `[-1, 1]`. -/
theorem steering_normalised (s : ℝ) (h1 : -0.436332 ≤ s) (h2 : s ≤ 0.436332) :
    steering_angle Real.pi s = s / (25 * Real.pi / 180) ∧
    -1 ≤ steering_angle Real.pi s ∧ steering_angle Real.pi s ≤ 1 :=
  steering_angle_bound Real.pi s (le_of_lt Real.pi_gt_d6) h1 h2

/-- Witness of C16: the largest steering value the bounds allow. -/
theorem steering_normalised_witness :
    (-0.436332 : ℝ) ≤ 0.436332 ∧ (0.436332 : ℝ) ≤ 0.436332 ∧
    steering_angle Real.pi 0.436332 ≤ 1 :=
  ⟨by norm_num, le_refl _, (steering_normalised 0.436332 (by norm_num) (le_refl _)).2.2⟩

/-- C19: let step 0 of `vars` hold the state `main` builds before the projection and the
previous actuation `(delta, a)`.  Then the six residuals `FG_eval` computes for step 1 are
all zero exactly when step 1 of `vars` holds that state projected over a latency equal to
the step duration `dt`; with the latency of `main` that projected state is the one handed
to `MPC::Solve`. -/
theorem projection_matches_dynamics {α : Type} [Field α] (m : Libm α)
    (c0 c1 c2 c3 v delta a dt : α) (N : Nat) (hN : 2 ≤ N) (vars fg : Nat → α)
    (h0 : [vars x_start, vars (y_start N), vars (psi_start N), vars (v_start N),
      vars (cte_start N), vars (epsi_start N)] = measuredState m [c0, c1, c2, c3] v)
    (hd : vars (delta_start N) = delta) (ha : vars (a_start N) = a) :
    ((FG_eval m [c0, c1, c2, c3] N dt vars fg (1 + x_start + 1) = 0 ∧
      FG_eval m [c0, c1, c2, c3] N dt vars fg (1 + y_start N + 1) = 0 ∧
      FG_eval m [c0, c1, c2, c3] N dt vars fg (1 + psi_start N + 1) = 0 ∧
      FG_eval m [c0, c1, c2, c3] N dt vars fg (1 + v_start N + 1) = 0 ∧
      FG_eval m [c0, c1, c2, c3] N dt vars fg (1 + cte_start N + 1) = 0 ∧
      FG_eval m [c0, c1, c2, c3] N dt vars fg (1 + epsi_start N + 1) = 0) ↔
     [vars (x_start + 1), vars (y_start N + 1), vars (psi_start N + 1), vars (v_start N + 1),
       vars (cte_start N + 1), vars (epsi_start N + 1)] =
      project m ((measuredState m [c0, c1, c2, c3] v).getD 0 0)
        ((measuredState m [c0, c1, c2, c3] v).getD 1 0)
        ((measuredState m [c0, c1, c2, c3] v).getD 2 0)
        ((measuredState m [c0, c1, c2, c3] v).getD 3 0)
        ((measuredState m [c0, c1, c2, c3] v).getD 4 0)
        ((measuredState m [c0, c1, c2, c3] v).getD 5 0) delta a dt) ∧
    project m ((measuredState m [c0, c1, c2, c3] v).getD 0 0)
        ((measuredState m [c0, c1, c2, c3] v).getD 1 0)
        ((measuredState m [c0, c1, c2, c3] v).getD 2 0)
        ((measuredState m [c0, c1, c2, c3] v).getD 3 0)
        ((measuredState m [c0, c1, c2, c3] v).getD 4 0)
        ((measuredState m [c0, c1, c2, c3] v).getD 5 0) delta a time_latency =
      projectedState m [c0, c1, c2, c3] v delta a := by
  refine ⟨?_, rfl⟩
  obtain ⟨r0, r1, r2, r3, r4, r5⟩ :=
    FG_eval_dyn m [c0, c1, c2, c3] N dt vars fg 1 (le_refl 1) (by omega)
  rw [r0, r1, r2, r3, r4, r5]
  have hz : (0.0 : α) = 0 := by norm_num
  simp only [measuredState, polyeval_cubic, hz, List.cons.injEq, and_true] at h0
  obtain ⟨hx, hy, hpsi, hv, hcte, hepsi⟩ := h0
  simp only [measuredState, polyeval_cubic, hz, project, List.getD_cons_zero,
    List.getD_cons_succ, List.cons.injEq, and_true, Nat.add_sub_cancel, hx, hy, hpsi, hv,
    hcte, hepsi, hd, ha]
  simp only [sub_eq_zero]
  have e1 : c0 + c1 * 0 + c2 * 0 ^ 2 + c3 * 0 ^ 3 - (0 : α) = c0 := by ring
  have e2 : c1 + 2 * c2 * 0 + 3 * c3 * 0 ^ 2 = c1 := by ring
  have e3 : ∀ z : α, v * (-delta) / Lf * z = v / 2.67 * (-delta) * z := by
    intro z; rw [Lf]; ring
  rw [e1, e2, e3]

/-- Witness of C19: horizon 2 over the rationals; `vars` holds the state built from the
coefficients `1, 2, 3, 4` and the speed 5 at step 0, and zeros elsewhere. -/
theorem projection_matches_dynamics_witness :
    2 ≤ 2 ∧
    ((FG_eval exLibm [1, 2, 3, 4] 2 (1 / 10) exStep0 exFg (1 + x_start + 1) = 0 ∧
      FG_eval exLibm [1, 2, 3, 4] 2 (1 / 10) exStep0 exFg (1 + y_start 2 + 1) = 0 ∧
      FG_eval exLibm [1, 2, 3, 4] 2 (1 / 10) exStep0 exFg (1 + psi_start 2 + 1) = 0 ∧
      FG_eval exLibm [1, 2, 3, 4] 2 (1 / 10) exStep0 exFg (1 + v_start 2 + 1) = 0 ∧
      FG_eval exLibm [1, 2, 3, 4] 2 (1 / 10) exStep0 exFg (1 + cte_start 2 + 1) = 0 ∧
      FG_eval exLibm [1, 2, 3, 4] 2 (1 / 10) exStep0 exFg (1 + epsi_start 2 + 1) = 0) ↔
     [exStep0 (x_start + 1), exStep0 (y_start 2 + 1), exStep0 (psi_start 2 + 1),
       exStep0 (v_start 2 + 1), exStep0 (cte_start 2 + 1), exStep0 (epsi_start 2 + 1)] =
      project exLibm ((measuredState exLibm [1, 2, 3, 4] 5).getD 0 0)
        ((measuredState exLibm [1, 2, 3, 4] 5).getD 1 0)
        ((measuredState exLibm [1, 2, 3, 4] 5).getD 2 0)
        ((measuredState exLibm [1, 2, 3, 4] 5).getD 3 0)
        ((measuredState exLibm [1, 2, 3, 4] 5).getD 4 0)
        ((measuredState exLibm [1, 2, 3, 4] 5).getD 5 0) 0 0 (1 / 10)) :=
  ⟨by decide,
    (projection_matches_dynamics exLibm 1 2 3 4 5 0 0 (1 / 10) 2 (by decide) exStep0 exFg
      (by simp [exStep0, measuredState, polyeval_cubic, exLibm, x_start, y_start, psi_start,
        v_start, cte_start, epsi_start]; norm_num)
      (by simp [exStep0, delta_start_eq]) (by simp [exStep0, a_start_eq])).1⟩

/-- C20: for every coefficient vector `(c0, c1, c2, c3)` and every real `x`, `polyeval` is
`c0 + c1 x + c2 x^2 + c3 x^3` and its derivative at `x` is `c1 + 2 c2 x + 3 c3 x^2`; the cte
constraint of step `t` uses the value of `polyeval` at `x_{t-1}` as its reference value and
the epsi constraint takes `atan` of that derivative at `x_{t-1}`. -/
theorem reference_polynomial (c0 c1 c2 c3 : ℝ) (N : Nat) (hN : 2 ≤ N) (dt : ℝ)
    (vars fg : Nat → ℝ) (t : Nat) (ht1 : 1 ≤ t) (ht2 : t ≤ N - 1) :
    (∀ x : ℝ, polyeval [c0, c1, c2, c3] x = c0 + c1 * x + c2 * x ^ 2 + c3 * x ^ 3 ∧
      deriv (fun z : ℝ => polyeval [c0, c1, c2, c3] z) x = c1 + 2 * c2 * x + 3 * c3 * x ^ 2) ∧
    FG_eval ⟨Real.cos, Real.sin, Real.arctan⟩ [c0, c1, c2, c3] N dt vars fg
        (1 + cte_start N + t) =
      vars (cte_start N + t) -
        ((polyeval [c0, c1, c2, c3] (vars (x_start + (t - 1))) - vars (y_start N + (t - 1))) +
          vars (v_start N + (t - 1)) * Real.sin (vars (epsi_start N + (t - 1))) * dt) ∧
    FG_eval ⟨Real.cos, Real.sin, Real.arctan⟩ [c0, c1, c2, c3] N dt vars fg
        (1 + epsi_start N + t) =
      vars (epsi_start N + t) -
        ((vars (psi_start N + (t - 1)) -
            Real.arctan (deriv (fun z : ℝ => polyeval [c0, c1, c2, c3] z)
              (vars (x_start + (t - 1))))) +
          vars (v_start N + (t - 1)) * (-vars (delta_start N + (t - 1))) / Lf * dt) := by
  have hfun : (fun z : ℝ => polyeval [c0, c1, c2, c3] z) =
      fun z : ℝ => c0 + c1 * z + c2 * z ^ 2 + c3 * z ^ 3 :=
    funext (fun z => polyeval_cubic c0 c1 c2 c3 z)
  have e : ∀ s, s + t - 1 = s + (t - 1) := fun s => by omega
  obtain ⟨_, _, _, _, r4, r5⟩ :=
    FG_eval_dyn ⟨Real.cos, Real.sin, Real.arctan⟩ [c0, c1, c2, c3] N dt vars fg t ht1
      (by omega)
  refine ⟨fun x => ⟨polyeval_cubic c0 c1 c2 c3 x, ?_⟩, ?_, ?_⟩
  · rw [hfun, deriv_cubic]
  · rw [r4, polyeval_cubic]
    simp only [e, List.getD_cons_zero, List.getD_cons_succ]
  · rw [r5, hfun, deriv_cubic]
    simp only [e, List.getD_cons_zero, List.getD_cons_succ]

/-- Witness of C20: horizon 2, step 1, the polynomial `1 + 2 x + 3 x^2 + 4 x^3`. -/
theorem reference_polynomial_witness :
    2 ≤ 2 ∧ 1 ≤ 1 ∧ 1 ≤ 2 - 1 ∧
    (∀ x : ℝ, polyeval [1, 2, 3, 4] x = 1 + 2 * x + 3 * x ^ 2 + 4 * x ^ 3 ∧
      deriv (fun z : ℝ => polyeval [1, 2, 3, 4] z) x = 2 + 2 * 3 * x + 3 * 4 * x ^ 2) :=
  ⟨by decide, by decide, by decide,
    (reference_polynomial 1 2 3 4 2 (by decide) (1 / 10) (fun _ => 0) (fun _ => 0) 1
      (by decide) (by decide)).1⟩

/-- C12: for every cubic `(c0, c1, c2, c3)` and every list of x-values with at least 4
distinct values, `polyfit(xs, ys, 3)` on `ys[j] = polyeval((c0, c1, c2, c3), xs[j])` returns
`(c0, c1, c2, c3)`, given that the QR solve returns least-squares coefficients; the matrix
it solves against has entry `(j, i) = xs[j]^i` for `i = 0..3`; and the points `(0,0)`,
`(10,0)`, `(20,0)`, `(30,0)` give the zero polynomial. -/
theorem polyfit_round_trip {α : Type} [LinearOrderedField α]
    (qr : Nat → Nat → (Nat → Nat → α) → List α → Nat → α) (xvals : List α)
    (junk : Nat → Nat → α) (c0 c1 c2 c3 : α) (hdist : 4 ≤ xvals.toFinset.card)
    (hq : isLeastSquares xvals.length 4 (designMatrix xvals 3 junk)
      (xvals.map (polyeval [c0, c1, c2, c3]))
      ((List.range 4).map (qr xvals.length 4 (designMatrix xvals 3 junk)
        (xvals.map (polyeval [c0, c1, c2, c3]))))) :
    polyfit qr xvals (xvals.map (polyeval [c0, c1, c2, c3])) 3 junk =
      some [c0, c1, c2, c3] ∧
    (∀ j, j < xvals.length → ∀ i, i ≤ 3 →
      designMatrix xvals 3 junk j i = xvals.getD j 0 ^ i) ∧
    (∀ (qr' : Nat → Nat → (Nat → Nat → α) → List α → Nat → α) (junk' : Nat → Nat → α),
      isLeastSquares 4 4 (designMatrix [0, 10, 20, 30] 3 junk') [0, 0, 0, 0]
        ((List.range 4).map (qr' 4 4 (designMatrix [0, 10, 20, 30] 3 junk') [0, 0, 0, 0])) →
      polyfit qr' [0, 10, 20, 30] [0, 0, 0, 0] 3 junk' = some [0, 0, 0, 0]) :=
  ⟨polyfit_exact qr xvals junk c0 c1 c2 c3 hdist hq,
    fun j hj i hi => designMatrix_entry xvals 3 junk j i hj hi,
    fun qr' junk' h => polyfit_zero_line qr' junk' h⟩

/-- Witness of C12: the cubic `1 + 2 x + 3 x^2 + 4 x^3` sampled at 0, 1, 2, 3, with a solve
that returns its coefficients. -/
theorem polyfit_round_trip_witness :
    4 ≤ [0, 1, 2, (3 : ℚ)].toFinset.card ∧
    polyfit (fun _ _ _ _ i => (i : ℚ) + 1) [0, 1, 2, 3]
      ([0, 1, 2, 3].map (polyeval [1, 2, 3, 4])) 3 (fun _ _ => 0) = some [1, 2, 3, 4] :=
  ⟨by decide,
    (polyfit_round_trip (fun _ _ _ _ i => (i : ℚ) + 1) [0, 1, 2, 3] (fun _ _ => 0) 1 2 3 4
      (by decide)
      (fun c' => by
        have e : (List.range 4).map (fun i : Nat => (i : ℚ) + 1) = [1, 2, 3, 4] := by
          simp [List.range, List.range.loop]; norm_num
        rw [e, residual_exact]
        exact residual_nonneg _ _ _ _ _)).1⟩

/-- C17: for every horizon `N ≥ 2`, with the zero polynomial and the anchor state
`(0, 0, 0, 70, 0, 0)`, the vector with `x_t = 70 dt t`, `v_t = 70` and every other variable 0
is within the variable bounds as the solver reads them, satisfies all `6N` constraints and
has cost 0; no vector has a negative cost, so the minimum cost is 0, and every feasible
vector of minimum cost has first steering value 0 and first throttle value 0.  Read as
plain inequalities the variable bounds hold for the vector as well when
`70 |dt| (N - 1) ≤ 1e19`. -/
theorem zero_error_steady_state (N : Nat) (hN : 2 ≤ N) (dt : ℝ) (junk fg : Nat → ℝ) :
    (∀ t, t < N → steadyVars N dt (x_start + t) = 70 * dt * (t : ℝ) ∧
      steadyVars N dt (v_start N + t) = 70) ∧
    (∀ i, y_start N ≤ i → (i < v_start N ∨ cte_start N ≤ i) → steadyVars N dt i = 0) ∧
    satisfiesBounds (Solve_problem N [0, 0, 0, 70, 0, 0] junk) (steadyVars N dt) ∧
    (Solve_problem N [0, 0, 0, 70, 0, 0] junk).constraints_lowerbound.length = 6 * N ∧
    satisfiesConstraints (Solve_problem N [0, 0, 0, 70, 0, 0] junk)
      (FG_eval ⟨Real.cos, Real.sin, Real.arctan⟩ [0, 0, 0, 0] N dt (steadyVars N dt) fg) ∧
    FG_eval ⟨Real.cos, Real.sin, Real.arctan⟩ [0, 0, 0, 0] N dt (steadyVars N dt) fg 0 = 0 ∧
    (∀ vars : Nat → ℝ,
      0 ≤ FG_eval ⟨Real.cos, Real.sin, Real.arctan⟩ [0, 0, 0, 0] N dt vars fg 0) ∧
    (∀ vars : Nat → ℝ,
      isOptimal (Solve_problem N [0, 0, 0, 70, 0, 0] junk)
        (fun fg vars => FG_eval ⟨Real.cos, Real.sin, Real.arctan⟩ [0, 0, 0, 0] N dt vars fg)
        fg vars →
      FG_eval ⟨Real.cos, Real.sin, Real.arctan⟩ [0, 0, 0, 0] N dt vars fg 0 = 0 ∧
      vars (delta_start N) = 0 ∧ vars (a_start N) = 0) ∧
    (70 * |dt| * ((N : ℝ) - 1) ≤ 1e19 → ∀ i, i < n_vars N →
      (Solve_problem N [0, 0, 0, 70, 0, 0] junk).vars_lowerbound.getD i 0 ≤ steadyVars N dt i ∧
      steadyVars N dt i ≤ (Solve_problem N [0, 0, 0, 70, 0, 0] junk).vars_upperbound.getD i 0) := by
  have h1N : 1 ≤ N := by omega
  obtain ⟨⟨hb, hc⟩, hcost⟩ := steady_feasible (⟨Real.cos, Real.sin, Real.arctan⟩ : Libm ℝ)
    Real.cos_zero Real.sin_zero Real.arctan_zero N hN dt junk fg
  refine ⟨?_, ?_, hb, (Solve_problem_cbounds N h1N 0 0 0 70 0 0 junk).1, hc, hcost,
    fun vars => cost_nonneg _ _ N hN dt vars fg, ?_, ?_⟩
  · intro t ht
    rw [x_start, Nat.zero_add, v_start_eq]
    exact ⟨steadyVars_x N dt t ht, steadyVars_v N dt t ht⟩
  · intro i h1 h2
    rw [y_start_eq] at h1
    rw [v_start_eq, cte_start_eq] at h2
    exact steadyVars_zero N dt i h1 h2
  · intro vars hopt
    have hz := optimal_cost_zero (⟨Real.cos, Real.sin, Real.arctan⟩ : Libm ℝ)
      Real.cos_zero Real.sin_zero Real.arctan_zero N hN dt junk fg vars hopt
    have hact := ((cost_eq_zero_iff _ _ N hN dt vars fg).1 hz).2 0 (by omega)
    exact ⟨hz, hact.1, hact.2⟩
  · intro hsmall i hi
    rw [n_vars_eq h1N] at hi
    obtain ⟨_, hvb⟩ := Solve_problem_vbounds N h1N ([0, 0, 0, 70, 0, 0] : List ℝ) junk
    rw [(hvb i hi).1, (hvb i hi).2]
    by_cases c1 : 7 * N - 1 ≤ i
    · rw [if_pos c1, if_pos c1, steadyVars_zero N dt i (by omega) (Or.inr (by omega))]
      norm_num
    rw [if_neg c1, if_neg c1]
    by_cases c2 : 6 * N ≤ i
    · rw [if_pos c2, if_pos c2, steadyVars_zero N dt i (by omega) (Or.inr (by omega))]
      norm_num
    rw [if_neg c2, if_neg c2]
    by_cases c3 : i < N
    · rw [steadyVars_x N dt i c3]
      have hi1 : (i : ℝ) ≤ (N : ℝ) - 1 := by
        have : i + 1 ≤ N := c3
        have : ((i + 1 : Nat) : ℝ) ≤ (N : ℝ) := by exact_mod_cast this
        push_cast at this
        linarith
      have hi0 : (0 : ℝ) ≤ (i : ℝ) := Nat.cast_nonneg i
      have habs : |70 * dt * (i : ℝ)| ≤ 1e19 := by
        rw [abs_mul, abs_mul, abs_of_nonneg hi0, abs_of_pos (by norm_num : (0 : ℝ) < 70)]
        refine le_trans ?_ hsmall
        exact mul_le_mul_of_nonneg_left hi1 (by positivity)
      have := abs_le.1 habs
      constructor
      · have e : (-1.0e19 : ℝ) = -1e19 := by norm_num
        rw [e]; exact this.1
      · have e : (1.0e19 : ℝ) = 1e19 := by norm_num
        rw [e]; exact this.2
    by_cases c4 : 3 * N ≤ i ∧ i < 4 * N
    · have := steadyVars_v N dt (i - 3 * N) (by omega)
      rw [show 3 * N + (i - 3 * N) = i by omega] at this
      rw [this]
      norm_num
    · rw [steadyVars_zero N dt i (by omega) (by omega)]
      norm_num

/-- Witness of C17: horizon 2 and a step of 0.1. -/
theorem zero_error_steady_state_witness :
    2 ≤ 2 ∧
    FG_eval ⟨Real.cos, Real.sin, Real.arctan⟩ [0, 0, 0, 0] 2 (1 / 10)
      (steadyVars 2 (1 / 10)) (fun _ => 0) 0 = 0 :=
  ⟨by decide,
    (zero_error_steady_state 2 (by decide) (1 / 10) (fun _ => 0) (fun _ => 0)).2.2.2.2.2.1⟩

/-- C18: for the way points `(0,0)`, `(10,0)`, `(20,0)`, `(30,0)` in the coordinates of the
vehicle, speed 70, previous actuation `(0, 0)` and latency 0, with a QR solve that returns
least-squares coefficients: the fitted polynomial is 0 at every `x`, the state handed to the
solver is `(0, 0, 0, 70, 0, 0)`, and every feasible vector of minimum cost of the resulting
problem has `y_t = 0`, `psi_t = 0` and `x_t = 70 dt t` at every step `t < N`. -/
theorem end_to_end_straight_line
    (qr : Nat → Nat → (Nat → Nat → ℝ) → List ℝ → Nat → ℝ) (junkA : Nat → Nat → ℝ)
    (hq : isLeastSquares 4 4 (designMatrix [0, 10, 20, 30] 3 junkA) [0, 0, 0, 0]
      ((List.range 4).map (qr 4 4 (designMatrix [0, 10, 20, 30] 3 junkA) [0, 0, 0, 0])))
    (N : Nat) (hN : 2 ≤ N) (dt : ℝ) (junk fg : Nat → ℝ) :
    ∃ coeffs : List ℝ,
      polyfit qr [0, 10, 20, 30] [0, 0, 0, 0] 3 junkA = some coeffs ∧
      (∀ x : ℝ, polyeval coeffs x = 0) ∧
      project ⟨Real.cos, Real.sin, Real.arctan⟩
        ((measuredState ⟨Real.cos, Real.sin, Real.arctan⟩ coeffs 70).getD 0 0)
        ((measuredState ⟨Real.cos, Real.sin, Real.arctan⟩ coeffs 70).getD 1 0)
        ((measuredState ⟨Real.cos, Real.sin, Real.arctan⟩ coeffs 70).getD 2 0)
        ((measuredState ⟨Real.cos, Real.sin, Real.arctan⟩ coeffs 70).getD 3 0)
        ((measuredState ⟨Real.cos, Real.sin, Real.arctan⟩ coeffs 70).getD 4 0)
        ((measuredState ⟨Real.cos, Real.sin, Real.arctan⟩ coeffs 70).getD 5 0) 0 0 0 =
        [0, 0, 0, 70, 0, 0] ∧
      ∀ vars : Nat → ℝ,
        isOptimal
          (Solve_problem N
            (project ⟨Real.cos, Real.sin, Real.arctan⟩
              ((measuredState ⟨Real.cos, Real.sin, Real.arctan⟩ coeffs 70).getD 0 0)
              ((measuredState ⟨Real.cos, Real.sin, Real.arctan⟩ coeffs 70).getD 1 0)
              ((measuredState ⟨Real.cos, Real.sin, Real.arctan⟩ coeffs 70).getD 2 0)
              ((measuredState ⟨Real.cos, Real.sin, Real.arctan⟩ coeffs 70).getD 3 0)
              ((measuredState ⟨Real.cos, Real.sin, Real.arctan⟩ coeffs 70).getD 4 0)
              ((measuredState ⟨Real.cos, Real.sin, Real.arctan⟩ coeffs 70).getD 5 0) 0 0 0)
            junk)
          (fun fg vars => FG_eval ⟨Real.cos, Real.sin, Real.arctan⟩ coeffs N dt vars fg)
          fg vars →
        ∀ t, t < N → vars (y_start N + t) = 0 ∧ vars (psi_start N + t) = 0 ∧
          vars (x_start + t) = 70 * dt * (t : ℝ) := by
  have hstate : project ⟨Real.cos, Real.sin, Real.arctan⟩
        ((measuredState ⟨Real.cos, Real.sin, Real.arctan⟩ [0, 0, 0, 0] 70).getD 0 0)
        ((measuredState ⟨Real.cos, Real.sin, Real.arctan⟩ [0, 0, 0, 0] 70).getD 1 0)
        ((measuredState ⟨Real.cos, Real.sin, Real.arctan⟩ [0, 0, 0, 0] 70).getD 2 0)
        ((measuredState ⟨Real.cos, Real.sin, Real.arctan⟩ [0, 0, 0, 0] 70).getD 3 0)
        ((measuredState ⟨Real.cos, Real.sin, Real.arctan⟩ [0, 0, 0, 0] 70).getD 4 0)
        ((measuredState ⟨Real.cos, Real.sin, Real.arctan⟩ [0, 0, 0, 0] 70).getD 5 0) 0 0 0 =
        ([0, 0, 0, 70, 0, 0] : List ℝ) := by
    have hz : (0.0 : ℝ) = 0 := by norm_num
    simp [project, measuredState, polyeval_cubic, hz]
  refine ⟨[0, 0, 0, 0], polyfit_zero_line qr junkA hq, ?_, hstate, ?_⟩
  · intro x
    rw [polyeval_cubic]
    ring
  · intro vars hopt
    rw [hstate] at hopt
    exact optimal_straight (⟨Real.cos, Real.sin, Real.arctan⟩ : Libm ℝ)
      Real.cos_zero Real.sin_zero Real.arctan_zero N hN dt junk fg vars hopt

/-- Witness of C18: horizon 2, a step of 0.1 and a QR solve that returns zeros. -/
theorem end_to_end_straight_line_witness :
    isLeastSquares 4 4 (designMatrix [0, 10, 20, 30] 3 (fun _ _ => (0 : ℝ))) [0, 0, 0, 0]
      ((List.range 4).map (fun _ => (0 : ℝ))) ∧
    2 ≤ 2 ∧
    ∃ coeffs : List ℝ,
      polyfit (fun _ _ _ _ _ => (0 : ℝ)) [0, 10, 20, 30] [0, 0, 0, 0] 3 (fun _ _ => 0) =
        some coeffs ∧
      (∀ x : ℝ, polyeval coeffs x = 0) :=
  ⟨zero_leastSquares _, by decide,
    (end_to_end_straight_line (fun _ _ _ _ _ => (0 : ℝ)) (fun _ _ => 0) (zero_leastSquares _)
      2 (by decide) (1 / 10) (fun _ => 0) (fun _ => 0)).imp
      (fun _ h => ⟨h.1, h.2.1⟩)⟩

/-- C21: for every horizon `N ≥ 2` there are `6N` constraints and both constraint-bound
vectors of `MPC::Solve` have `6N` entries.  The recording `FG_eval` computes what `FG_eval`
computes; the cost part assigns `fg[0]` only; the constraint part assigns six entries for
the first step and six in each of the `N - 1` iterations of the loop; every entry `k` with
`1 ≤ k ≤ 6N` is assigned exactly once and no entry above `6N` is assigned. -/
theorem constraints_defined_once {α : Type} [Field α] (m : Libm α) (coeffs : List α)
    (N : Nat) (hN : 2 ≤ N) (dt : α) (vars fg : Nat → α) (state : List α) (junk : Nat → α) :
    n_constraints N = 6 * N ∧
    (Solve_problem N state junk).constraints_lowerbound.length = 6 * N ∧
    (Solve_problem N state junk).constraints_upperbound.length = 6 * N ∧
    (FG_evalT m coeffs N dt vars fg).1 = FG_eval m coeffs N dt vars fg ∧
    (FG_evalT m coeffs N dt vars fg).2 =
      (FG_eval_costT N vars (fg, [])).2 ++
        ([1 + x_start, 1 + y_start N, 1 + psi_start N, 1 + v_start N, 1 + cte_start N,
            1 + epsi_start N] ++
          (List.range' 1 (N - 1)).flatMap (fun t =>
            [1 + x_start + t, 1 + y_start N + t, 1 + psi_start N + t, 1 + v_start N + t,
              1 + cte_start N + t, 1 + epsi_start N + t])) ∧
    (∀ k, k ∈ (FG_eval_costT N vars (fg, [])).2 → k = 0) ∧
    ((List.range' 1 (N - 1)).flatMap (fun t =>
        [1 + x_start + t, 1 + y_start N + t, 1 + psi_start N + t, 1 + v_start N + t,
          1 + cte_start N + t, 1 + epsi_start N + t])).length = 6 * (N - 1) ∧
    (∀ k, 1 ≤ k → k ≤ 6 * N → (FG_evalT m coeffs N dt vars fg).2.count k = 1) ∧
    (∀ k, 6 * N < k → k ∉ (FG_evalT m coeffs N dt vars fg).2) := by
  have h1N : 1 ≤ N := by omega
  obtain ⟨r, hr, hr0⟩ := (FG_eval_costT_record N vars (fg, [])).2
  have hcost0 : ∀ k, k ∈ (FG_eval_costT N vars (fg, [])).2 → k = 0 := by
    intro k hk
    rw [hr] at hk
    simp only [List.nil_append, List.mem_cons] at hk
    rcases hk with h | h
    · exact h
    · exact hr0 k h
  have hrec : (FG_evalT m coeffs N dt vars fg).2 =
      (FG_eval_costT N vars (fg, [])).2 ++
        ([1 + x_start, 1 + y_start N, 1 + psi_start N, 1 + v_start N, 1 + cte_start N,
            1 + epsi_start N] ++
          (List.range' 1 (N - 1)).flatMap (fun t =>
            [1 + x_start + t, 1 + y_start N + t, 1 + psi_start N + t, 1 + v_start N + t,
              1 + cte_start N + t, 1 + epsi_start N + t])) := by
    unfold FG_evalT
    exact (FG_eval_constraintsT_record m coeffs N dt vars _).2
  have hcl : (Solve_problem N state junk).constraints_lowerbound.length = 6 * N := by
    simp only [Solve_problem, forLoop_boundsBody, List.length_set, forLoop_set_length,
      newVector_length, n_constraints, n_state]
  have hcu : (Solve_problem N state junk).constraints_upperbound.length = 6 * N := by
    simp only [Solve_problem, forLoop_boundsBody, List.length_set, forLoop_set_length,
      newVector_length, n_constraints, n_state]
  refine ⟨rfl, hcl, hcu, FG_evalT_fst m coeffs N dt vars fg, hrec, hcost0,
    (constraint_record_length N h1N).1, ?_, ?_⟩
  · intro k hk1 hk2
    rw [hrec, List.count_append,
      List.count_eq_zero_of_not_mem (fun h => by have := hcost0 k h; omega),
      List.count_eq_one_of_mem (constraint_record_nodup N h1N)
        ((constraint_record_mem N h1N k).2 ⟨hk1, hk2⟩)]
  · intro k hk h
    rw [hrec, List.mem_append] at h
    rcases h with h | h
    · have := hcost0 k h; omega
    · have := (constraint_record_mem N h1N k).1 h; omega

/-- Witness of C21: the entries assigned for horizon 3, in the order of the assignments. -/
theorem constraints_defined_once_witness :
    2 ≤ 3 ∧
    (FG_evalT exLibm [1, 2, 3, 4] 3 (1 / 10) exVars exFg).2.count 7 = 1 ∧
    (FG_evalT exLibm [1, 2, 3, 4] 3 (1 / 10) exVars exFg).2 =
      [0, 0, 0, 0, 0, 0, 0, 0, 0, 0, 0, 0, 0, 0, 0, 0,
        1, 4, 7, 10, 13, 16, 2, 5, 8, 11, 14, 17, 3, 6, 9, 12, 15, 18] :=
  ⟨by decide,
    (constraints_defined_once exLibm [1, 2, 3, 4] 3 (by decide) (1 / 10) exVars exFg
      [1, 2, 3, 4, 5, 6] exVars).2.2.2.2.2.2.2.1 7 (by decide) (by decide),
    by decide⟩

/-- C22: for every horizon `N ≥ 2` and every variable vector the cost `fg[0]` is not
negative, and it is 0 if and only if `cte_t = 0`, `epsi_t = 0` and `v_t = 70` for every
`t < N` and `delta_t = 0` and `a_t = 0` for every `t < N - 1`. -/
theorem cost_nonnegative_zero_iff {α : Type} [LinearOrderedField α] (m : Libm α) (coeffs : List α)
    (N : Nat) (hN : 2 ≤ N) (dt : α) (vars fg : Nat → α) :
    0 ≤ FG_eval m coeffs N dt vars fg 0 ∧
    (FG_eval m coeffs N dt vars fg 0 = 0 ↔
      (∀ t, t < N → vars (cte_start N + t) = 0 ∧ vars (epsi_start N + t) = 0 ∧
        vars (v_start N + t) = 70) ∧
      (∀ t, t < N - 1 → vars (delta_start N + t) = 0 ∧ vars (a_start N + t) = 0)) :=
  ⟨cost_nonneg m coeffs N hN dt vars fg, cost_eq_zero_iff m coeffs N hN dt vars fg⟩

/-- Witness of C22: the cost of the sample vector for horizon 2 is not negative. -/
theorem cost_nonnegative_zero_iff_witness :
    2 ≤ 2 ∧ 0 ≤ FG_eval exLibm [1, 2, 3, 4] 2 (1 / 10) exVars exFg 0 :=
  ⟨by decide, (cost_nonnegative_zero_iff exLibm [1, 2, 3, 4] 2 (by decide) (1 / 10) exVars exFg).1⟩

/-- C24: for every coefficient vector `(c0, c1, c2, c3)` the state `main` builds before the
projection is `(0, 0, 0, v, c0, -atan(c1))`: the cross-track error is the polynomial at
`x = 0`, where `polyeval` takes `x^0` for 1, and the heading error is minus the arctangent
of the slope of the polynomial at `x = 0`. -/
theorem measured_state (c0 c1 c2 c3 v : ℝ) :
    measuredState ⟨Real.cos, Real.sin, Real.arctan⟩ [c0, c1, c2, c3] v =
      [0, 0, 0, v, c0, -Real.arctan c1] ∧
    polyeval [c0, c1, c2, c3] (0 : ℝ) = c0 ∧
    polyeval [c0, c1, c2, c3] (0 : ℝ) =
      c0 * (0 : ℝ) ^ 0 + c1 * (0 : ℝ) ^ 1 + c2 * (0 : ℝ) ^ 2 + c3 * (0 : ℝ) ^ 3 ∧
    ((0 : ℝ) ^ 0 = 1) ∧
    deriv (fun z : ℝ => polyeval [c0, c1, c2, c3] z) 0 = c1 := by
  have hz : (0.0 : ℝ) = 0 := by norm_num
  have hfun : (fun z : ℝ => polyeval [c0, c1, c2, c3] z) =
      fun z : ℝ => c0 + c1 * z + c2 * z ^ 2 + c3 * z ^ 3 :=
    funext (fun z => polyeval_cubic c0 c1 c2 c3 z)
  refine ⟨?_, ?_, ?_, pow_zero 0, ?_⟩
  · simp [measuredState, polyeval_cubic, hz]
  · rw [polyeval_cubic]; ring
  · rw [polyeval_cubic]; ring
  · rw [hfun, deriv_cubic]; ring

/-- C23: for every horizon `N ≥ 2`, every entry of `vars` that `FG_eval` reads (the cost
loops, the rate loop with `delta_start + t + 1` and `a_start + t + 1` for `t < N - 2`, the
first-step assignments and the constraint loop) and every index `MPC::Solve` uses on `vars`,
the variable bounds and `solution.x` is below `n_vars = 6N + 2(N-1)`, and every index used
on the constraint-bound vectors is below `6N`; `FG_eval` depends on `vars` through the
entries listed as read only.  For `N = 1` the bound `N - 2` of the rate loop wraps around to
`2^64 - 1`, and its first iteration reads entry 7 of a vector of 6 entries. -/
theorem index_ranges {α : Type} [Field α] (m : Libm α) (coeffs : List α) (N : Nat)
    (hN : 2 ≤ N) (dt : α) (fg : Nat → α) :
    n_vars N = 6 * N + 2 * (N - 1) ∧ n_constraints N = 6 * N ∧
    (∀ vars vars' : Nat → α, (∀ i, i ∈ FG_eval_reads N → vars i = vars' i) →
      FG_eval m coeffs N dt vars fg = FG_eval m coeffs N dt vars' fg) ∧
    (∀ i, i ∈ FG_eval_reads N → i < n_vars N) ∧
    (∀ t, t < N - 2 → delta_start N + t + 1 ∈ FG_eval_reads N ∧
      a_start N + t + 1 ∈ FG_eval_reads N) ∧
    (∀ i, i ∈ Solve_varIndices N → i < n_vars N) ∧
    (∀ i, i ∈ Solve_constraintIndices N → i < n_constraints N) ∧
    size_sub 1 2 = 2 ^ 64 - 1 ∧
    delta_start 1 + 0 + 1 ∈ FG_eval_reads 1 ∧ a_start 1 + 0 + 1 ∈ FG_eval_reads 1 ∧
    n_vars 1 = 6 ∧ delta_start 1 + 0 + 1 = 7 ∧ a_start 1 + 0 + 1 = 7 ∧
    ¬ (∀ i, i ∈ FG_eval_reads 1 → i < n_vars 1) := by
  have h1N : 1 ≤ N := by omega
  have hn := n_vars_eq h1N
  have ha := a_start_eq h1N
  have s1 : size_sub N 1 = N - 1 := size_sub_of_le h1N
  have s2 : size_sub N 2 = N - 2 := size_sub_of_le hN
  have hw : size_sub 1 2 = 2 ^ 64 - 1 := by
    simp [size_sub, SIZE_MOD]
  refine ⟨by rw [hn]; omega, by rw [n_constraints, n_state],
    fun vars vars' h => FG_eval_reads_complete m coeffs N dt vars vars' fg h, ?_, ?_, ?_, ?_,
    hw, ?_, ?_, ?_, ?_, ?_, ?_⟩
  · intro i hi
    rw [FG_eval_reads_mem, s1, s2] at hi
    rw [hn]
    rcases hi with ⟨t, ht, h⟩ | ⟨t, ht, h⟩ | ⟨t, ht, h⟩ | h | ⟨t, ht1, ht2, h⟩
    · simp only [costRefReads, cte_start_eq, epsi_start_eq, v_start_eq, List.mem_cons,
        List.mem_singleton, List.not_mem_nil, or_false] at h
      omega
    · simp only [costActReads, delta_start_eq, ha, List.mem_cons,
        List.mem_singleton, List.not_mem_nil, or_false] at h
      omega
    · simp only [costGapReads, delta_start_eq, ha, List.mem_cons,
        List.mem_singleton, List.not_mem_nil, or_false] at h
      omega
    · simp only [pinIndices, y_start_eq, psi_start_eq, v_start_eq, cte_start_eq,
        epsi_start_eq, x_start, List.mem_cons, List.mem_singleton, List.not_mem_nil,
        or_false] at h
      omega
    · simp only [dynReads, y_start_eq, psi_start_eq, v_start_eq, cte_start_eq,
        epsi_start_eq, delta_start_eq, ha, x_start, List.mem_cons, List.mem_singleton,
        List.not_mem_nil, or_false] at h
      omega
  · intro t ht
    constructor
    · rw [FG_eval_reads_mem]
      exact Or.inr (Or.inr (Or.inl ⟨t, by rw [s2]; exact ht, by simp [costGapReads]⟩))
    · rw [FG_eval_reads_mem]
      exact Or.inr (Or.inr (Or.inl ⟨t, by rw [s2]; exact ht, by simp [costGapReads]⟩))
  · intro i hi
    unfold Solve_varIndices at hi
    simp only [forLoop_append, List.nil_append, List.mem_append, List.mem_flatMap,
      List.mem_range'_1, pinIndices, y_start_eq, psi_start_eq, v_start_eq, cte_start_eq,
      epsi_start_eq, delta_start_eq, ha, hn, x_start, List.mem_cons, List.mem_singleton,
      List.not_mem_nil, or_false] at hi
    rw [hn]
    rcases hi with h | ⟨t, ht, h⟩
    · rcases h with h | h
      · rcases h with h | ⟨t, ht, h⟩
        · rcases h with h | ⟨t, ht, h⟩
          · rcases h with h | ⟨t, ht, h⟩
            · rcases h with ⟨t, ht, h⟩ | h
              · omega
              · omega
            · omega
          · omega
        · omega
      · omega
    · omega
  · intro i hi
    unfold Solve_constraintIndices at hi
    simp only [forLoop_append, List.nil_append, List.mem_append, List.mem_flatMap,
      List.mem_range'_1, pinIndices, y_start_eq, psi_start_eq, v_start_eq, cte_start_eq,
      epsi_start_eq, x_start, n_constraints, n_state, List.mem_cons, List.mem_singleton,
      List.not_mem_nil, or_false] at hi
    rw [n_constraints, n_state]
    rcases hi with (⟨t, ht, h⟩ | h) | h
    · omega
    · omega
    · omega
  · rw [FG_eval_reads_mem]
    exact Or.inr (Or.inr (Or.inl ⟨0, by rw [hw]; norm_num, by simp [costGapReads]⟩))
  · rw [FG_eval_reads_mem]
    exact Or.inr (Or.inr (Or.inl ⟨0, by rw [hw]; norm_num, by simp [costGapReads]⟩))
  · rw [n_vars_eq (le_refl 1)]
  · rw [delta_start_eq]
  · rw [a_start_eq (le_refl 1)]
  · intro h
    have h7 : delta_start 1 + 0 + 1 ∈ FG_eval_reads 1 := by
      rw [FG_eval_reads_mem]
      exact Or.inr (Or.inr (Or.inl ⟨0, by rw [hw]; norm_num, by simp [costGapReads]⟩))
    have := h _ h7
    rw [n_vars_eq (le_refl 1), delta_start_eq] at this
    omega

/-- Witness of C23: horizon 2. -/
theorem index_ranges_witness :
    2 ≤ 2 ∧ (∀ i, i ∈ FG_eval_reads 2 → i < n_vars 2) ∧
    FG_eval_reads 2 = [8, 10, 6, 9, 11, 7, 12, 13, 0, 2, 4, 6, 8, 10,
      1, 3, 5, 7, 9, 11, 0, 2, 4, 6, 8, 10, 12, 13] ∧ n_vars 2 = 14 :=
  ⟨by decide,
    (index_ranges exLibm [1, 2, 3, 4] 2 (by decide) (1 / 10) exFg).2.2.2.1, by decide,
    by decide⟩

end MPC
